import Mathlib

/-!
Verification of the device-tree overlay/transaction subsystem
(drivers/of/overlay.c, drivers/of/transaction.c, drivers/of/dynamic.c,
drivers/of/util.c of the studied kernel tree).

The live tree is shallowly embedded as an association list from node
identifiers (modelling `struct device_node *` pointers) to node data.
Properties carry a `pid` field modelling their allocation address, so that
the pointer-identity discipline of the dead-property lists ("revert re-links
the same memory") is expressible.  Overlay fragments, which in C are
read-only detached `device_node` subtrees produced by the flattened-blob
loader, are embedded as a recursive value type `FNode`.

The property primitives of base.c (`of_find_property`, `of_add_property`,
`of_remove_property`, `of_update_property`, `of_get_child_by_name`,
`of_device_is_available`) are not part of the provided sources (only their
declarations in include/linux/of.h are); they are modelled from the
specification, as marked on each definition.  Allocation failures
(`-ENOMEM`) are not modelled: allocation always succeeds in the embedding.
-/

namespace OFModel

/-- Error codes used by the engine (negative errno values, as in C). -/
def EINVAL : Int := -22
def ENOMEM : Int := -12
def EEXIST : Int := -17
def ENODEV : Int := -19
def EBUSY : Int := -16

/-- One of the `OF_RECONFIG_*` actions of include/linux/of.h. -/
inductive Action where
  | attachNode
  | detachNode
  | addProperty
  | removeProperty
  | updateProperty
  | dynamicCreateDev
  | dynamicDestroyDev
deriving DecidableEq, Repr

/-- A `struct property`.  `pid` models the allocation address of the
property object, so that two structurally equal copies made at different
times are distinguishable, exactly as two distinct C pointers are.
`value` is the byte content read as a string (the code only ever compares
it with `strcmp`) and `length` is the stored length field. -/
structure OFProp where
  pid : Nat
  name : String
  value : String
  length : Nat
deriving DecidableEq, Repr

/-- The data stored at one `struct device_node`: identity fields, the live
property list, the dead-property retention list, the ordered child list
(by node identifier), the parent link and the `OF_DETACHED` flag. -/
structure NodeData where
  name : String
  fullName : String
  typ : String
  phandle : Nat
  props : List OFProp
  deadprops : List OFProp
  children : List Nat
  parent : Option Nat
  detached : Bool
deriving DecidableEq, Repr

/-- The node store: an association list from node identifier (modelling the
`struct device_node *` pointer) to node data. -/
abbrev Tree := List (Nat × NodeData)

/-- Dereference a node identifier. -/
def treeFind (t : Tree) (id : Nat) : Option NodeData :=
  (t.find? (fun p => p.1 == id)).map (fun p => p.2)

/-- Mutate the node stored at `id` in place. -/
def treeUpd (t : Tree) (id : Nat) (f : NodeData → NodeData) : Tree :=
  t.map (fun p => if p.1 == id then (p.1, f p.2) else p)

/-- Register a freshly allocated node. -/
def treeIns (t : Tree) (id : Nat) (nd : NodeData) : Tree :=
  t ++ [(id, nd)]

/-- Remove a node from the store (memory release). -/
def treeDel (t : Tree) (id : Nat) : Tree :=
  t.filter (fun p => p.1 != id)

/-- Find a property by name in a property list (`of_prop_cmp` is plain
`strcmp`, i.e. case-sensitive byte equality). -/
def findProp (ps : List OFProp) (n : String) : Option OFProp :=
  ps.find? (fun p => p.name == n)

/-- Replace the first property with the given name.  This is the in-place
swap performed by the update primitive. -/
def replaceNamed : List OFProp → String → OFProp → List OFProp
  | [], _, _ => []
  | q :: qs, n, pn => if q.name == n then pn :: qs else q :: replaceNamed qs n pn

/-- Modelled from the spec: `find_property(node, name) → property_ref | ∅`
searches the live property list of the node (base.c is not in the provided
sources). -/
def of_find_property (t : Tree) (np : Nat) (n : String) : Option OFProp :=
  match treeFind t np with
  | none => none
  | some nd => findProp nd.props n

/-- Modelled from the spec: `device_is_available(node) → bool` is "status
okay/ok or status missing" (base.c is not in the provided sources). -/
def of_device_is_available (t : Tree) (np : Nat) : Bool :=
  match of_find_property t np ("status") with
  | none => true
  | some s => s.value == "okay" || s.value == "ok"

/-- Modelled from the spec: `get_child_by_name(parent, name)` looks the
child up by its local name (base.c is not in the provided sources). -/
def of_get_child_by_name (t : Tree) (np : Nat) (n : String) : Option Nat :=
  match treeFind t np with
  | none => none
  | some nd =>
      nd.children.find? (fun c =>
        match treeFind t c with
        | some ndc => ndc.name == n
        | none => false)

/-- Modelled from the spec: `__add_property(n, p)` requires that no live
property of the node bears the name and links the new property at the head
of the live list (base.c is not in the provided sources). -/
def __of_add_property (t : Tree) (np : Nat) (p : OFProp) : Int × Tree :=
  match treeFind t np with
  | none => (EINVAL, t)
  | some nd =>
      if (findProp nd.props p.name).isSome then (EEXIST, t)
      else (0, treeUpd t np (fun nd => { nd with props := p :: nd.props }))

/-- Modelled from the spec: `__remove_property(n, p)` unlinks the given
property object from the live list and pushes it onto the dead-property
list, failing when it is not on the live list (base.c is not in the
provided sources). -/
def __of_remove_property (t : Tree) (np : Nat) (p : OFProp) : Int × Tree :=
  match treeFind t np with
  | none => (EINVAL, t)
  | some nd =>
      if p ∈ nd.props then
        (0, treeUpd t np (fun nd =>
          { nd with props := nd.props.erase p, deadprops := p :: nd.deadprops }))
      else (ENODEV, t)

/-- Modelled from the spec: `__update_property(n, p_new, &p_old)` requires
a live property named `p_new.name`, swaps the new one in at its place and
moves the displaced one to the dead-property list, returning it
(base.c is not in the provided sources). -/
def __of_update_property (t : Tree) (np : Nat) (pn : OFProp) :
    Int × Option OFProp × Tree :=
  match treeFind t np with
  | none => (EINVAL, none, t)
  | some nd =>
      match findProp nd.props pn.name with
      | none => (ENODEV, none, t)
      | some old =>
          (0, some old, treeUpd t np (fun nd =>
            { nd with props := replaceNamed nd.props pn.name pn,
                      deadprops := old :: nd.deadprops }))

/-- A notifier chain: given the action, the node and (for property events)
the property, it returns 0 to permit the change or a nonzero error to veto
it (`of_reconfig_notify` converted through `notifier_to_errno`). -/
abbrev Notif := Action → Nat → Option OFProp → Int

/-- The benign notifier chain that permits every change. -/
def allowAll : Notif := fun _ _ _ => 0

/-- dynamic.c `of_reconfig_notify`: run the chain for a node event. -/
def of_reconfig_notify (nf : Notif) (a : Action) (np : Nat) : Int :=
  nf a np none

/-- dynamic.c `of_property_notify`: property events are only dispatched for
nodes that are attached. -/
def of_property_notify (nf : Notif) (t : Tree) (a : Action) (np : Nat)
    (p : OFProp) : Int :=
  match treeFind t np with
  | none => 0
  | some nd => if nd.detached then 0 else nf a np (some p)

/-- Modelled from the spec: `of_add_property` dispatches the pre-change
notification (which may veto) and then performs the primitive
(base.c is not in the provided sources). -/
def of_add_property (nf : Notif) (t : Tree) (np : Nat) (p : OFProp) :
    Int × Tree :=
  let r := of_property_notify nf t Action.addProperty np p
  if r ≠ 0 then (r, t) else __of_add_property t np p

/-- Modelled from the spec: `of_remove_property` notifies then removes
(base.c is not in the provided sources). -/
def of_remove_property (nf : Notif) (t : Tree) (np : Nat) (p : OFProp) :
    Int × Tree :=
  let r := of_property_notify nf t Action.removeProperty np p
  if r ≠ 0 then (r, t) else __of_remove_property t np p

/-- Modelled from the spec: `of_update_property` notifies then updates
(base.c is not in the provided sources). -/
def of_update_property (nf : Notif) (t : Tree) (np : Nat) (pn : OFProp) :
    Int × Tree :=
  let r := of_property_notify nf t Action.updateProperty np pn
  if r ≠ 0 then (r, t)
  else
    let u := __of_update_property t np pn
    (u.1, u.2.2)

/-- dynamic.c `__of_attach_node`: splice the node at the head of its
parent's child list and clear the detached flag. -/
def __of_attach_node (t : Tree) (np : Nat) : Tree :=
  match treeFind t np with
  | none => t
  | some nd =>
      match nd.parent with
      | none => t
      | some par =>
          treeUpd (treeUpd t par (fun ndp => { ndp with children := np :: ndp.children }))
            np (fun ndn => { ndn with detached := false })

/-- dynamic.c `of_attach_node`: notify (veto aborts), then attach. -/
def of_attach_node (nf : Notif) (t : Tree) (np : Nat) : Int × Tree :=
  let r := of_reconfig_notify nf Action.attachNode np
  if r ≠ 0 then (r, t) else (0, __of_attach_node t np)

/-- dynamic.c `__of_detach_node`: an already-detached node (or one without
a parent) is left alone under a warning; otherwise the node is unspliced
from its parent's child list and the detached flag is set. -/
def __of_detach_node (t : Tree) (np : Nat) : Tree :=
  match treeFind t np with
  | none => t
  | some nd =>
      if nd.detached then t
      else
        match nd.parent with
        | none => t
        | some par =>
            treeUpd (treeUpd t par (fun ndp => { ndp with children := ndp.children.erase np }))
              np (fun ndn => { ndn with detached := true })

/-- dynamic.c `of_detach_node`: notify (veto aborts), then detach. -/
def of_detach_node (nf : Notif) (t : Tree) (np : Nat) : Int × Tree :=
  let r := of_reconfig_notify nf Action.detachNode np
  if r ≠ 0 then (r, t) else (0, __of_detach_node t np)

/-- util.c `__of_copy_property` with `OF_PROP_ALLOCALL`: a deep copy at a
fresh allocation address. -/
def __of_copy_property (pid : Nat) (p : OFProp) : OFProp :=
  { pid := pid, name := p.name, value := p.value, length := p.length }

/-- util.c `__of_free_tree`: release a subtree, removing the freed nodes
from the store.  As in the source, the freed root is not unspliced from its
parent's child list.  Fuelled recursion (fuel bounds the depth). -/
def __of_free_tree (fuel : Nat) (t : Tree) (id : Nat) : Tree :=
  match fuel with
  | 0 => t
  | fuel + 1 =>
      match treeFind t id with
      | none => t
      | some nd =>
          treeDel (nd.children.foldl (fun acc c => __of_free_tree fuel acc c) t) id

/-! ### Overlay fragments and the overlay engine (overlay.c) -/

/-- An overlay fragment node: in C this is a read-only detached
`device_node` subtree handed to `of_overlay_apply_one`; here it is a
recursive value. -/
inductive FNode where
  | mk (name fullName typ : String) (phandle : Nat)
       (props : List OFProp) (children : List FNode)

def FNode.name : FNode → String
  | FNode.mk n _ _ _ _ _ => n

def FNode.fullName : FNode → String
  | FNode.mk _ f _ _ _ _ => f

def FNode.typ : FNode → String
  | FNode.mk _ _ ty _ _ _ => ty

def FNode.phandle : FNode → Nat
  | FNode.mk _ _ _ ph _ _ => ph

def FNode.props : FNode → List OFProp
  | FNode.mk _ _ _ _ ps _ => ps

def FNode.children : FNode → List FNode
  | FNode.mk _ _ _ _ _ cs => cs

mutual

/-- Number of nodes of a fragment (strictly dominates its depth). -/
def FNode.size : FNode → Nat
  | FNode.mk _ _ _ _ _ cs => 1 + FNode.sizeList cs

/-- Total number of nodes of a fragment list. -/
def FNode.sizeList : List FNode → Nat
  | [] => 0
  | c :: cs => FNode.size c + FNode.sizeList cs

end

/-- The mutable world outside a single node: the node store plus the two
allocators (fresh node identifiers and fresh property addresses). -/
structure Sys where
  tree : Tree
  nextId : Nat
  nextPid : Nat
deriving DecidableEq, Repr

/-- One `struct of_overlay_log_entry`: the recorded primitive edit. -/
structure LogEntry where
  action : Action
  np : Nat
  prop : Option OFProp
  old_prop : Option OFProp
deriving DecidableEq, Repr

/-- One `struct of_overlay_device_entry` of the device-state ledger. -/
structure DevEntry where
  np : Nat
  prevstate : Bool
  state : Bool
deriving DecidableEq, Repr

/-- One `struct of_overlay_info`: target, fragment, journal (`le_list`)
and device-state ledger (`de_list`). -/
structure OVI where
  target : Option Nat
  frag : Option FNode
  le_list : List LogEntry
  de_list : List DevEntry

/-- overlay.c `of_overlay_device_entry_lookup`. -/
def of_overlay_device_entry_lookup (ovi : OVI) (np : Nat) : Option DevEntry :=
  ovi.de_list.find? (fun de => de.np == np)

/-- overlay.c `of_overlay_log_entry_entry_add`: append the edit to the
journal; for an update the currently live property of that name is captured
as `old_prop`. -/
def of_overlay_log_entry_entry_add (t : Tree) (ovi : OVI) (a : Action)
    (np : Nat) (p : Option OFProp) : OVI :=
  let old : Option OFProp :=
    match a, p with
    | Action.updateProperty, some pp => of_find_property t np pp.name
    | _, _ => none
  { ovi with le_list := ovi.le_list ++ [⟨a, np, p, old⟩] }

/-- Overwrite the `state` field of the first ledger entry for the node. -/
def updFirstDev : List DevEntry → Nat → Bool → List DevEntry
  | [], _, _ => []
  | de :: des, np, st =>
      if de.np == np then { de with state := st } :: des
      else de :: updFirstDev des np st

/-- overlay.c `of_overlay_device_entry_entry_add`: a fresh node gets a new
ledger entry carrying both states; an existing entry only has its `state`
overwritten, its `prevstate` is kept. -/
def of_overlay_device_entry_entry_add (ovi : OVI) (np : Nat)
    (prevstate state : Bool) : OVI :=
  match of_overlay_device_entry_lookup ovi np with
  | none => { ovi with de_list := ovi.de_list ++ [⟨np, prevstate, state⟩] }
  | some _ => { ovi with de_list := updFirstDev ovi.de_list np state }

/-- The device-present test used by `of_overlay_tree_change` for whole-node
events and for the previous state: a `compatible` property exists and the
node is available. -/
def overlayNodeDevState (t : Tree) (np : Nat) : Bool :=
  (of_find_property t np ("compatible")).isSome && of_device_is_available t np

/-- The state computed by `of_overlay_tree_change` for a
status/compatible property event, from the pre-change tree and the
property being installed (or removed). -/
def overlayPropDevState (t : Tree) (np : Nat) (a : Action) (p : OFProp) : Bool :=
  let cprop : Option OFProp :=
    if p.name == "status" then of_find_property t np ("compatible")
    else if a != Action.removeProperty then some p else none
  let sprop : Option OFProp :=
    if p.name == "status" then (if a != Action.removeProperty then some p else none)
    else of_find_property t np ("status")
  (match cprop with
   | none => false
   | some c => decide (0 < c.length)) &&
  (match sprop with
   | none => true
   | some s => decide (0 < s.length) && (s.value == "okay" || s.value == "ok"))

/-- overlay.c `of_overlay_tree_change`: every modification is journalled;
modifications that can flip the node's device state also update the ledger.
The state is computed against the tree as it is before the mutation is
performed (the caller mutates afterwards). -/
def of_overlay_tree_change (t : Tree) (ovi : OVI) (a : Action) (np : Nat)
    (p : Option OFProp) : OVI :=
  let ovi1 := of_overlay_log_entry_entry_add t ovi a np p
  match a with
  | Action.attachNode =>
      of_overlay_device_entry_entry_add ovi1 np false (overlayNodeDevState t np)
  | Action.detachNode =>
      of_overlay_device_entry_entry_add ovi1 np (overlayNodeDevState t np) false
  | Action.addProperty | Action.removeProperty | Action.updateProperty =>
      match p with
      | none => ovi1
      | some pp =>
          if pp.name != "status" && pp.name != "compatible" then ovi1
          else
            of_overlay_device_entry_entry_add ovi1 np (overlayNodeDevState t np)
              (overlayPropDevState t np a pp)
  | _ => ovi1

/-- The C test `*name == '-'`: the first byte is a dash. -/
def strStartsWithDash (s : String) : Bool :=
  match s.data with
  | [] => false
  | c :: _ => c == '-'

/-- The C test `strrchr(s, ch) != NULL`: the byte occurs in the string. -/
def strContains (s : String) (ch : Char) : Bool :=
  s.data.any (fun c => c == ch)

/-- lib/string.c `kbasename`: the path component after the last slash. -/
def kbasename (s : String) : String :=
  String.mk (s.data.foldl (fun acc c => if c == '/' then [] else acc ++ [c]) [])

/-- The property phase of `of_overlay_apply_one`, for one fragment
property: the literal `name` property is skipped; a leading dash requests
removal of the stripped name; otherwise the property is copied and either
updates an existing live property or is added. -/
def of_overlay_apply_one_prop (nf : Notif) (sys : Sys) (ovi : OVI) (tgt : Nat)
    (p : OFProp) : Int × Sys × OVI :=
  if p.name == "name" then (0, sys, ovi)
  else
    let rm := strStartsWithDash p.name
    let pname := if rm then p.name.drop 1 else p.name
    let pn : Option OFProp :=
      if rm then none else some (__of_copy_property sys.nextPid p)
    let sys1 := if rm then sys else { sys with nextPid := sys.nextPid + 1 }
    match of_find_property sys1.tree tgt pname, pn with
    | some _, some pp =>
        let ovi1 := of_overlay_tree_change sys1.tree ovi Action.updateProperty tgt (some pp)
        let r := of_update_property nf sys1.tree tgt pp
        (r.1, { sys1 with tree := r.2 }, ovi1)
    | some tp, none =>
        let ovi1 := of_overlay_tree_change sys1.tree ovi Action.removeProperty tgt (some tp)
        let r := of_remove_property nf sys1.tree tgt tp
        (r.1, { sys1 with tree := r.2 }, ovi1)
    | none, some pp =>
        let ovi1 := of_overlay_tree_change sys1.tree ovi Action.addProperty tgt (some pp)
        let r := of_add_property nf sys1.tree tgt pp
        (r.1, { sys1 with tree := r.2 }, ovi1)
    | none, none => (0, sys1, ovi)

/-- The property loop of `of_overlay_apply_one`, stopping at the first
error. -/
def of_overlay_apply_one_props (nf : Notif) (sys : Sys) (ovi : OVI)
    (tgt : Nat) : List OFProp → Int × Sys × OVI
  | [] => (0, sys, ovi)
  | p :: ps =>
      match of_overlay_apply_one_prop nf sys ovi tgt p with
      | (r, sys1, ovi1) =>
          if r != 0 then (r, sys1, ovi1)
          else of_overlay_apply_one_props nf sys1 ovi1 tgt ps

/-- The child phase of `of_overlay_apply_one`, for one fragment child.
`rec` is the recursive overlay application.  A leading dash on the local
name requests detachment; a unit-address suffix anywhere in the full path
makes the code take the base name of the full path instead.  A matching
live child is either detached or recursed into; a missing child is created,
attached and recursed into, the freshly built subtree being torn down again
if the recursion fails. -/
def of_overlay_apply_one_child (nf : Notif)
    (rec : Sys → OVI → Option Nat → FNode → Int × Sys × OVI)
    (sys : Sys) (ovi : OVI) (tgt : Nat) (c : FNode) : Int × Sys × OVI :=
  let rm := strStartsWithDash c.name
  let cname0 := if rm then c.name.drop 1 else c.name
  let cname :=
    if strContains c.fullName '@' then
      let b := kbasename c.fullName
      if strStartsWithDash b then b.drop 1 else b
    else cname0
  match of_get_child_by_name sys.tree tgt cname with
  | some tc =>
      if !rm then rec sys ovi (some tc) c
      else
        let ovi1 := of_overlay_tree_change sys.tree ovi Action.detachNode tc none
        let r := of_detach_node nf sys.tree tc
        (r.1, { sys with tree := r.2 }, ovi1)
  | none =>
      if !rm then
        match treeFind sys.tree tgt with
        | none => (EINVAL, sys, ovi)
        | some ndt =>
            let newid := sys.nextId
            let ndNew : NodeData :=
              { name := cname, fullName := ndt.fullName ++ "/" ++ cname,
                typ := c.typ, phandle := c.phandle,
                props := [], deadprops := [], children := [],
                parent := some tgt, detached := true }
            let sys1 : Sys := { sys with tree := treeIns sys.tree newid ndNew,
                                         nextId := sys.nextId + 1 }
            let ovi1 := of_overlay_tree_change sys1.tree ovi Action.attachNode newid none
            let r := of_attach_node nf sys1.tree newid
            if r.1 != 0 then (r.1, { sys1 with tree := r.2 }, ovi1)
            else
              let sys2 : Sys := { sys1 with tree := r.2 }
              match rec sys2 ovi1 (some newid) c with
              | (r2, sys3, ovi3) =>
                  if r2 != 0 then
                    (r2, { sys3 with
                           tree := __of_free_tree (sys3.tree.length + 1) sys3.tree newid },
                     ovi3)
                  else (0, sys3, ovi3)
      else (0, sys, ovi)

/-- The child loop of `of_overlay_apply_one`, stopping at the first
error. -/
def of_overlay_apply_one_children (nf : Notif)
    (rec : Sys → OVI → Option Nat → FNode → Int × Sys × OVI) :
    Sys → OVI → Nat → List FNode → Int × Sys × OVI
  | sys, ovi, _, [] => (0, sys, ovi)
  | sys, ovi, tgt, c :: cs =>
      match of_overlay_apply_one_child nf rec sys ovi tgt c with
      | (r, sys1, ovi1) =>
          if r != 0 then (r, sys1, ovi1)
          else of_overlay_apply_one_children nf rec sys1 ovi1 tgt cs

/-- Fuelled body of `of_overlay_apply_one`.  The fuel is consumed once per
fragment level, so any fuel at least the fragment size is enough. -/
def of_overlay_apply_one_go (nf : Notif) :
    Nat → Sys → OVI → Option Nat → FNode → Int × Sys × OVI
  | 0, sys, ovi, _, _ => (ENOMEM, sys, ovi)
  | Nat.succ fuel, sys, ovi, target, ov =>
      match target with
      | none => (EINVAL, sys, ovi)
      | some tgt =>
          match of_overlay_apply_one_props nf sys ovi tgt ov.props with
          | (r, sys1, ovi1) =>
              if r != 0 then (r, sys1, ovi1)
              else of_overlay_apply_one_children nf
                     (fun s o t f => of_overlay_apply_one_go nf fuel s o t f)
                     sys1 ovi1 tgt ov.children

/-- overlay.c `of_overlay_apply_one`: apply a single overlay fragment
recursively onto the target (the fuel `FNode.size ov` strictly dominates
the fragment depth). -/
def of_overlay_apply_one (nf : Notif) (sys : Sys) (ovi : OVI)
    (target : Option Nat) (ov : FNode) : Int × Sys × OVI :=
  of_overlay_apply_one_go nf (FNode.size ov) sys ovi target ov

/-- overlay.c `of_overlay_device_entry_change`: dispatch the create/destroy
device notification for a ledger entry; errors are only logged. -/
def of_overlay_device_entry_change (nf : Notif) (de : DevEntry)
    (revert : Bool) : Int :=
  let state := xor de.state revert
  let _ := of_reconfig_notify nf
    (if state then Action.dynamicCreateDev else Action.dynamicDestroyDev) de.np
  0

/-- The per-entry revert step of `of_overlay_revert_one`: the inverse
operation of the journalled edit.  For remove/update entries the property
to relink (the removed property, or the saved old property) is searched on
the owner's dead-property list; not finding it there trips the `WARN_ON`
(the returned flag), after which the inverse operation is attempted
regardless. -/
def of_overlay_revert_one_entry (nf : Notif) (t : Tree) (le : LogEntry) :
    Tree × Bool :=
  match le.action with
  | Action.attachNode => ((of_detach_node nf t le.np).2, false)
  | Action.detachNode => ((of_attach_node nf t le.np).2, false)
  | Action.addProperty =>
      match le.prop with
      | some p => ((of_remove_property nf t le.np p).2, false)
      | none => (t, false)
  | Action.removeProperty | Action.updateProperty =>
      let pr : Option OFProp :=
        if le.action == Action.removeProperty then le.prop else le.old_prop
      match pr with
      | none => (t, true)
      | some p =>
          match treeFind t le.np with
          | none => (t, true)
          | some nd =>
              let t1 :=
                if p ∈ nd.deadprops then
                  treeUpd t le.np (fun nd => { nd with deadprops := nd.deadprops.erase p })
                else t
              let t2 :=
                if le.action == Action.removeProperty then (of_add_property nf t1 le.np p).2
                else (of_update_property nf t1 le.np p).2
              (t2, !(decide (p ∈ nd.deadprops)))
  | _ => (t, false)

/-- The journal walk of `of_overlay_revert_one`: entries are reverted in
reverse insertion order (the head of the journal is undone last). -/
def of_overlay_revert_entries (nf : Notif) : List LogEntry → Tree → Tree
  | [], t => t
  | le :: les, t =>
      (of_overlay_revert_one_entry nf (of_overlay_revert_entries nf les t) le).1

/-- overlay.c `of_overlay_revert_one`: with a null target or fragment
nothing is done; otherwise the device entries are dispatched in reverse and
freed, and every journalled change is reverted in reverse order, the
journal being freed as well. -/
def of_overlay_revert_one (nf : Notif) (sys : Sys) (ovi : OVI) : Sys × OVI :=
  match ovi.target, ovi.frag with
  | some _, some _ =>
      ({ sys with tree := of_overlay_revert_entries nf ovi.le_list sys.tree },
       { ovi with le_list := [], de_list := [] })
  | _, _ => (sys, ovi)

/-- overlay.c `of_overlay_post_one`: on error the (possibly partial)
overlay is reverted; on success ledger entries whose state did not change
are dropped and the remaining ones have their device transition
dispatched. -/
def of_overlay_post_one (nf : Notif) (sys : Sys) (ovi : OVI) (err : Int) :
    Sys × OVI :=
  if err != 0 then of_overlay_revert_one nf sys ovi
  else
    (sys, { ovi with de_list := ovi.de_list.filter (fun de => de.prevstate != de.state) })

/-- overlay.c `of_overlay_apply`: apply the table in order; a failure at
the k-th entry reverts that entry through `of_overlay_post_one` and then
all earlier entries in reverse, and the error is returned. -/
def of_overlay_apply (nf : Notif) (sys : Sys) :
    List OVI → Int × Sys × List OVI
  | [] => (0, sys, [])
  | ovi :: rest =>
      let a :=
        match ovi.frag with
        | none => (EINVAL, sys, ovi)
        | some f => of_overlay_apply_one nf sys ovi ovi.target f
      match a with
      | (r, sys1, ovi1) =>
          match of_overlay_post_one nf sys1 ovi1 r with
          | (sys2, ovi2) =>
              if r != 0 then (r, sys2, ovi2 :: rest)
              else
                match of_overlay_apply nf sys2 rest with
                | (r2, sys3, rest3) =>
                    if r2 != 0 then
                      match of_overlay_revert_one nf sys3 ovi2 with
                      | (sys4, ovi4) => (r2, sys4, ovi4 :: rest3)
                    else (0, sys3, ovi2 :: rest3)

/-- overlay.c `of_overlay_revert`: revert the table entries in reverse. -/
def of_overlay_revert (nf : Notif) (sys : Sys) :
    List OVI → Sys × List OVI
  | [] => (sys, [])
  | ovi :: rest =>
      match of_overlay_revert nf sys rest with
      | (sys1, rest1) =>
          match of_overlay_revert_one nf sys1 ovi with
          | (sys2, ovi2) => (sys2, ovi2 :: rest1)

/-! ### The transaction core API (transaction.c) -/

/-- One `struct of_transaction_entry`. -/
structure TE where
  action : Action
  np : Nat
  prop : Option OFProp
  old_prop : Option OFProp
deriving DecidableEq, Repr

/-- A `struct of_transaction`: the recorded entry journal. -/
structure OFT where
  te_list : List TE
deriving DecidableEq, Repr

/-- The reverse scan of `of_transaction_find_property` over the journal
(the argument list is the journal already reversed, so the scan sees the
latest entry first): the first add/remove/update entry matching the node
and the property name decides the answer. -/
def txnFindScan : List TE → Nat → String → Option (Option OFProp)
  | [], _, _ => none
  | te :: rest, np, n =>
      if te.action == Action.addProperty || te.action == Action.removeProperty ||
         te.action == Action.updateProperty then
        match te.prop with
        | some p =>
            if te.np == np && p.name == n then
              some (if te.action == Action.removeProperty then none else some p)
            else txnFindScan rest np n
        | none => txnFindScan rest np n
      else txnFindScan rest np n

/-- transaction.c `of_transaction_find_property`: consult the recorded
journal (latest entry first) before falling back to the live tree. -/
def of_transaction_find_property (oft : OFT) (t : Tree) (np : Nat)
    (n : String) : Option OFProp :=
  match txnFindScan oft.te_list.reverse np n with
  | some r => r
  | none => of_find_property t np n

/-- transaction.c `of_transaction_device_is_available`: the availability
test against the staged view. -/
def of_transaction_device_is_available (oft : OFT) (t : Tree) (np : Nat) :
    Bool :=
  match of_transaction_find_property oft t np ("status") with
  | none => true
  | some p => decide (0 < p.length) && (p.value == "okay" || p.value == "ok")

/-- transaction.c `__of_transaction_entry_create`: build an entry; for an
update the staged view of the property is captured as `old_prop`. -/
def __of_transaction_entry_create (oft : OFT) (t : Tree) (a : Action)
    (np : Nat) (p : Option OFProp) : TE :=
  let old : Option OFProp :=
    match a, p with
    | Action.updateProperty, some pp => of_transaction_find_property oft t np pp.name
    | _, _ => none
  ⟨a, np, p, old⟩

/-- transaction.c `of_transaction_action`: record an entry at the journal
tail; the live tree is not touched. -/
def of_transaction_action (oft : OFT) (t : Tree) (a : Action) (np : Nat)
    (p : Option OFProp) : OFT :=
  { oft with te_list := oft.te_list ++ [__of_transaction_entry_create oft t a np p] }

/-- transaction.c `__of_transaction_entry_device_state`: decide whether the
entry flips the node's device state, returning the target state (0 or 1)
when it does and -1 when it does not.  Note that the source filter tests
`OF_RECONFIG_ATTACH_NODE` twice, so detach entries are filtered out, and
that for property entries only the `status` value is consulted, never
`compatible`. -/
def __of_transaction_entry_device_state (t : Tree) (oft : OFT) (te : TE)
    (revert : Bool) : Int :=
  if te.action != Action.addProperty && te.action != Action.removeProperty &&
     te.action != Action.updateProperty && te.action != Action.attachNode &&
     te.action != Action.attachNode then -1
  else
    let conv : Action × Option OFProp :=
      if revert then
        if te.action == Action.addProperty then (Action.removeProperty, te.prop)
        else if te.action == Action.removeProperty then (Action.addProperty, te.prop)
        else if te.action == Action.updateProperty then (te.action, te.old_prop)
        else if te.action == Action.attachNode then (Action.detachNode, te.prop)
        else (Action.attachNode, te.prop)
      else (te.action, te.prop)
    match conv with
    | (a, pr) =>
        if (te.action == Action.addProperty || te.action == Action.removeProperty ||
            te.action == Action.updateProperty) &&
           (match pr with
            | some p => p.name != "status"
            | none => true) then -1
        else
          let curr0 : Bool := of_device_is_available t te.np &&
            (of_find_property t te.np ("compatible")).isSome &&
            (of_find_property t te.np ("status")).isSome
          let ct : Bool × Bool :=
            match a with
            | Action.addProperty | Action.removeProperty | Action.updateProperty =>
                (curr0,
                 if a == Action.addProperty || a == Action.updateProperty then
                   (match pr with
                    | some p => p.value == "okay" || p.value == "ok"
                    | none => false)
                 else false)
            | Action.attachNode => (false, curr0)
            | Action.detachNode => (curr0, false)
            | _ => (curr0, false)
          match ct with
          | (curr, target) =>
              if curr != target then (if target then 1 else 0) else -1

/-- transaction.c `__of_transaction_entry_apply`: dispatch the pre-change
notification (veto aborts before any mutation), perform the primitive
under the locks, run the post hooks (external mirrors only) and dispatch
the create/destroy device notification when the state flips (its error is
dropped). -/
def __of_transaction_entry_apply (nf : Notif) (sys : Sys) (oft : OFT)
    (te : TE) : Int × Sys :=
  let state := __of_transaction_entry_device_state sys.tree oft te false
  let r : Int :=
    match te.action with
    | Action.attachNode | Action.detachNode => of_reconfig_notify nf te.action te.np
    | Action.addProperty | Action.removeProperty | Action.updateProperty =>
        match te.prop with
        | some p => of_property_notify nf sys.tree te.action te.np p
        | none => 0
    | _ => 0
  if r != 0 then (r, sys)
  else
    let m : Int × Tree :=
      match te.action with
      | Action.attachNode => (0, __of_attach_node sys.tree te.np)
      | Action.detachNode => (0, __of_detach_node sys.tree te.np)
      | Action.addProperty =>
          match te.prop with
          | some p => __of_add_property sys.tree te.np p
          | none => (EINVAL, sys.tree)
      | Action.removeProperty =>
          match te.prop with
          | some p => __of_remove_property sys.tree te.np p
          | none => (EINVAL, sys.tree)
      | Action.updateProperty =>
          match te.prop with
          | some p =>
              let u := __of_update_property sys.tree te.np p
              (u.1, u.2.2)
          | none => (EINVAL, sys.tree)
      | _ => (0, sys.tree)
    if m.1 != 0 then (m.1, { sys with tree := m.2 })
    else
      let _ : Int :=
        if state != -1 then
          of_reconfig_notify nf
            (if state == 1 then Action.dynamicCreateDev else Action.dynamicDestroyDev)
            te.np
        else 0
      (0, { sys with tree := m.2 })

/-- transaction.c `__of_transaction_entry_revert`: dispatch the inverse
device notification when the state flips, then the inverse pre-change
notification (veto aborts), then perform the inverse primitive.  For
remove/update entries the property to relink is searched on the owner's
dead-property list and unlinked when found, tripping the `WARN_ON`
(returned flag) when it is absent, after which the inverse operation is
attempted regardless. -/
def __of_transaction_entry_revert (nf : Notif) (sys : Sys) (oft : OFT)
    (te : TE) : Int × Sys × Bool :=
  let state := __of_transaction_entry_device_state sys.tree oft te true
  let _ : Int :=
    if state != -1 then
      of_reconfig_notify nf
        (if state == 1 then Action.dynamicCreateDev else Action.dynamicDestroyDev)
        te.np
    else 0
  let r : Int :=
    match te.action with
    | Action.attachNode => of_reconfig_notify nf Action.detachNode te.np
    | Action.detachNode => of_reconfig_notify nf Action.attachNode te.np
    | Action.addProperty =>
        match te.prop with
        | some p => of_property_notify nf sys.tree Action.removeProperty te.np p
        | none => 0
    | Action.removeProperty =>
        match te.prop with
        | some p => of_property_notify nf sys.tree Action.addProperty te.np p
        | none => 0
    | Action.updateProperty =>
        match te.old_prop with
        | some p => of_property_notify nf sys.tree Action.updateProperty te.np p
        | none => 0
    | _ => 0
  if r != 0 then (r, sys, false)
  else
    match te.action with
    | Action.attachNode =>
        (0, { sys with tree := __of_detach_node sys.tree te.np }, false)
    | Action.detachNode =>
        (0, { sys with tree := __of_attach_node sys.tree te.np }, false)
    | Action.addProperty =>
        match te.prop with
        | some p =>
            let m := __of_remove_property sys.tree te.np p
            (m.1, { sys with tree := m.2 }, false)
        | none => (EINVAL, sys, false)
    | Action.removeProperty | Action.updateProperty =>
        let pr : Option OFProp :=
          if te.action == Action.removeProperty then te.prop else te.old_prop
        match pr with
        | none => (EINVAL, sys, true)
        | some p =>
            match treeFind sys.tree te.np with
            | none => (EINVAL, sys, true)
            | some nd =>
                let t1 :=
                  if p ∈ nd.deadprops then
                    treeUpd sys.tree te.np
                      (fun nd => { nd with deadprops := nd.deadprops.erase p })
                  else sys.tree
                let m : Int × Tree :=
                  if te.action == Action.removeProperty then
                    __of_add_property t1 te.np p
                  else
                    let u := __of_update_property t1 te.np p
                    (u.1, u.2.2)
                (m.1, { sys with tree := m.2 }, !(decide (p ∈ nd.deadprops)))
    | _ => (0, sys, false)

/-- The rollback loop of `of_transaction_apply`
(`list_for_each_entry_continue_reverse`): revert the already-applied
entries, latest first; errors of the individual reverts are only logged. -/
def of_transaction_apply_rollback (nf : Notif) (sys : Sys) (oft : OFT) :
    List TE → Sys
  | [] => sys
  | te :: rest =>
      of_transaction_apply_rollback nf
        (__of_transaction_entry_revert nf sys oft te).2.1 oft rest

/-- The entry loop of `of_transaction_apply`.  `done` holds the entries
already applied, latest first. -/
def of_transaction_apply_go (nf : Notif) (sys : Sys) (oft : OFT)
    (force : Bool) (done : List TE) : List TE → Int × Sys
  | [] => (0, sys)
  | te :: rest =>
      match __of_transaction_entry_apply nf sys oft te with
      | (r, sys1) =>
          if r == 0 then of_transaction_apply_go nf sys1 oft force (te :: done) rest
          else if force then of_transaction_apply_go nf sys1 oft force (te :: done) rest
          else (r, of_transaction_apply_rollback nf sys1 oft done)

/-- transaction.c `of_transaction_apply`: apply all recorded entries in
order; on an error (without `force`) the already-applied entries are
reverted in reverse and the error is returned. -/
def of_transaction_apply (nf : Notif) (sys : Sys) (oft : OFT)
    (force : Bool) : Int × Sys :=
  of_transaction_apply_go nf sys oft force [] oft.te_list

/-! ### The overlay registry (overlay.c, `of_overlay_create/destroy`) -/

/-- One `struct of_overlay` registry record: the stable id and the applied
overlay info table (the id also stands for the record's address, which the
source compares by pointer identity). -/
structure OvRec where
  ovId : Nat
  tab : List OVI

/-- The process-wide registry state: the tree world, the ordered overlay
list (`ov_list`, apply order) and the dense id allocator (`ov_idr`; the idr
map itself always holds exactly the overlays of `ov_list`, so it is
represented by the list). -/
structure GState where
  sys : Sys
  ov_list : List OvRec
  nextOvId : Nat

/-- overlay.c `overlay_subtree_check`: does `dn` lie in the live subtree
rooted at `treeId`?  Fuelled recursion over the child links; every call
site passes fuel exceeding the store size, enough for any acyclic tree. -/
def overlay_subtree_check (t : Tree) : Nat → Nat → Nat → Bool
  | 0, _, _ => false
  | Nat.succ fuel, treeId, dn =>
      treeId == dn ||
      (match treeFind t treeId with
       | none => false
       | some nd => nd.children.any (fun c => overlay_subtree_check t fuel c dn))

/-- The reverse walk of `overlay_is_topmost`: scan the registry from the
newest record towards the oldest and stop (successfully) on reaching the
overlay itself; any intervening record one of whose journal entries roots a
subtree containing `dn` defeats the check. -/
def overlay_is_topmost_go (t : Tree) (ovId : Nat) (dn : Nat) :
    List OvRec → Bool
  | [] => true
  | ovt :: rest =>
      if ovt.ovId == ovId then true
      else if ovt.tab.any (fun ovi => ovi.le_list.any (fun le =>
              overlay_subtree_check t (t.length + 1) le.np dn)) then false
      else overlay_is_topmost_go t ovId dn rest

/-- overlay.c `overlay_is_topmost`. -/
def overlay_is_topmost (t : Tree) (reg : List OvRec) (ovId : Nat)
    (dn : Nat) : Bool :=
  overlay_is_topmost_go t ovId dn reg.reverse

/-- overlay.c `overlay_removal_is_ok`: every node mentioned in the
overlay's journal must pass the topmost check. -/
def overlay_removal_is_ok (t : Tree) (reg : List OvRec) (ov : OvRec) : Bool :=
  ov.tab.all (fun ovi => ovi.le_list.all (fun le =>
    overlay_is_topmost t reg ov.ovId le.np))

/-- overlay.c `of_overlay_create` (modelled from the point where the
overlay info table has been built; the `of_build_overlay_info` fragment
parser is bypassed, the table is passed in directly): allocate an id,
apply, and on success append the record to the registry tail.  On failure
the id is released again, so the allocator is unchanged. -/
def of_overlay_create (nf : Notif) (g : GState) (tab : List OVI) :
    Int × GState :=
  let id := g.nextOvId
  match of_overlay_apply nf g.sys tab with
  | (r, sys1, tab1) =>
      if r != 0 then (r, { g with sys := sys1 })
      else (Int.ofNat id,
            { sys := sys1, ov_list := g.ov_list ++ [⟨id, tab1⟩],
              nextOvId := g.nextOvId + 1 })

/-- overlay.c `of_overlay_destroy`: unknown id fails with `ENODEV`; an
overlay that is not topmost-safe fails with `EBUSY` and nothing is
modified; otherwise the record is unlinked, the transaction reverted and
the id released. -/
def of_overlay_destroy (nf : Notif) (g : GState) (id : Nat) : Int × GState :=
  match g.ov_list.find? (fun ov => ov.ovId == id) with
  | none => (ENODEV, g)
  | some ov =>
      if !overlay_removal_is_ok g.sys.tree g.ov_list ov then (EBUSY, g)
      else
        let r := of_overlay_revert nf g.sys ov.tab
        (0, { g with sys := r.1,
                     ov_list := g.ov_list.eraseP (fun o => o.ovId == id) })

/-- The teardown loop of `of_overlay_destroy_all` (the argument is the
registry already reversed: newest first). -/
def of_overlay_destroy_all_go (nf : Notif) (sys : Sys) : List OvRec → Sys
  | [] => sys
  | ov :: rest =>
      of_overlay_destroy_all_go nf (of_overlay_revert nf sys ov.tab).1 rest

/-- overlay.c `of_overlay_destroy_all`: walk the registry from newest to
oldest, reverting each overlay and removing its record and id. -/
def of_overlay_destroy_all (nf : Notif) (g : GState) : Int × GState :=
  (0, { g with sys := of_overlay_destroy_all_go nf g.sys g.ov_list.reverse,
               ov_list := [] })

/-! ### Node reference counting (dynamic.c) -/

/-- Per-node reference counters (the kobject refcounts).  The release path
`of_node_release` (freeing at zero) is outside the claims' scope and not
modelled. -/
abbrev RefState := List (Nat × Nat)

/-- `kobject_get`: increment the counter of the node. -/
def kobject_get (rc : RefState) (id : Nat) : RefState :=
  rc.map (fun p => if p.1 == id then (p.1, p.2 + 1) else p)

/-- `kobject_put`: decrement the counter of the node. -/
def kobject_put (rc : RefState) (id : Nat) : RefState :=
  rc.map (fun p => if p.1 == id then (p.1, p.2 - 1) else p)

/-- dynamic.c `of_node_get`: `NULL` is tolerated and returned as is with
no refcount touched; otherwise the refcount is bumped and the argument
returned. -/
def of_node_get (rc : RefState) (node : Option Nat) : Option Nat × RefState :=
  match node with
  | none => (none, rc)
  | some id => (some id, kobject_get rc id)

/-- dynamic.c `of_node_put`: `NULL` is tolerated as a no-op; otherwise the
refcount is dropped. -/
def of_node_put (rc : RefState) (node : Option Nat) : RefState :=
  match node with
  | none => rc
  | some id => kobject_put rc id

/-! ### Specification-side predicates (defined from the claims' words, for
comparison with the code-side definitions above) -/

/-- The device-present predicate exactly as claims C3/P4/Q2 word it: the
node has a non-empty `compatible` property, and it has no `status` property
or its value is `okay` or `ok`. -/
def specDevicePresent (t : Tree) (np : Nat) : Bool :=
  (match of_find_property t np ("compatible") with
   | none => false
   | some c => decide (0 < c.length)) &&
  (match of_find_property t np ("status") with
   | none => true
   | some s => s.value == "okay" || s.value == "ok")

/-- The registry records strictly later (applied after) the record with
the given id. -/
def afterOv : List OvRec → Nat → List OvRec
  | [], _ => []
  | o :: rest, id => if o.ovId == id then rest else afterOv rest id

/-- Topmost-safe exactly as claim C4 words it: for every node mentioned in
the overlay's journal, no strictly later registry entry also mentions that
same node. -/
def specTopmostSafe (reg : List OvRec) (ov : OvRec) : Bool :=
  ov.tab.all (fun ovi => ovi.le_list.all (fun le =>
    !((afterOv reg ov.ovId).any (fun ovt =>
        ovt.tab.any (fun ovi2 => ovi2.le_list.any (fun le2 => le2.np == le.np))))))

/-- The transaction-aware lookup as claim C7 words it: fold the journal
forward with the latest add/update/remove of the named property on the node
winning (the new property for an add or update, absent for a remove), and
fall back to the live tree when no journal entry mentions it. -/
def specStagedFind (oft : OFT) (t : Tree) (np : Nat) (n : String) :
    Option OFProp :=
  let staged : Option (Option OFProp) :=
    oft.te_list.foldl (fun acc te =>
      if te.action == Action.addProperty || te.action == Action.removeProperty ||
         te.action == Action.updateProperty then
        match te.prop with
        | some p =>
            if te.np == np && p.name == n then
              some (if te.action == Action.removeProperty then none else some p)
            else acc
        | none => acc
      else acc) none
  match staged with
  | some r => r
  | none => of_find_property t np n

/-- Run a sequence of ledger insertions (`of_overlay_device_entry_entry_add`
calls), in order. -/
def devLedgerRun (ovi : OVI) : List (Nat × Bool × Bool) → OVI
  | [] => ovi
  | c :: calls => devLedgerRun (of_overlay_device_entry_entry_add ovi c.1 c.2.1 c.2.2) calls

/-- Length/value coherence of a property record: the stored length is the
length of the byte content.  Every property built from a device-tree blob
or by the property copier satisfies it. -/
def lenOk (p : OFProp) : Prop := p.length = p.value.length

instance (p : OFProp) : Decidable (lenOk p) :=
  inferInstanceAs (Decidable (p.length = p.value.length))

/-- The state recorded by the last call for the node in a ledger call
sequence, `dflt` when no call mentions it. -/
def lastCallSt (np : Nat) (dflt : Bool) : List (Nat × Bool × Bool) → Bool
  | [] => dflt
  | c :: cs => lastCallSt np (if c.1 == np then c.2.2 else dflt) cs

/-! ### The journalled-edit step relation and the restoration relation -/

/-- The exact tree effect of one journalled edit as the engine performs
it: one constructor per action kind, each recording the facts about the
pre-state that the code checked before mutating. -/
inductive EStep : Tree → LogEntry → Tree → Prop where
  | add (t : Tree) (np : Nat) (p : OFProp) (nd : NodeData) :
      treeFind t np = some nd →
      findProp nd.props p.name = none →
      EStep t ⟨Action.addProperty, np, some p, none⟩
        (treeUpd t np (fun nd => { nd with props := p :: nd.props }))
  | remove (t : Tree) (np : Nat) (p : OFProp) (nd : NodeData) :
      treeFind t np = some nd →
      findProp nd.props p.name = some p →
      EStep t ⟨Action.removeProperty, np, some p, none⟩
        (treeUpd t np (fun nd =>
          { nd with props := nd.props.erase p, deadprops := p :: nd.deadprops }))
  | update (t : Tree) (np : Nat) (pn pold : OFProp) (nd : NodeData) :
      treeFind t np = some nd →
      findProp nd.props pn.name = some pold →
      EStep t ⟨Action.updateProperty, np, some pn, some pold⟩
        (treeUpd t np (fun nd =>
          { nd with props := replaceNamed nd.props pn.name pn,
                    deadprops := pold :: nd.deadprops }))
  | attach (t : Tree) (newid : Nat) (ndNew : NodeData) (par : Nat)
      (ndPar : NodeData) :
      treeFind t newid = none →
      treeFind t par = some ndPar →
      newid ≠ par →
      ndNew.parent = some par →
      ndNew.detached = true →
      ndNew.props = [] → ndNew.deadprops = [] → ndNew.children = [] →
      EStep t ⟨Action.attachNode, newid, none, none⟩
        (treeUpd (treeUpd (treeIns t newid ndNew) par
            (fun ndp => { ndp with children := newid :: ndp.children }))
          newid (fun ndn => { ndn with detached := false }))
  | detach (t : Tree) (tc : Nat) (nd : NodeData) (par : Nat) (ndPar : NodeData) :
      treeFind t tc = some nd →
      nd.detached = false →
      nd.parent = some par →
      treeFind t par = some ndPar →
      tc ∈ ndPar.children →
      tc ≠ par →
      EStep t ⟨Action.detachNode, tc, none, none⟩
        (treeUpd (treeUpd t par
            (fun ndp => { ndp with children := ndp.children.erase tc }))
          tc (fun ndn => { ndn with detached := true }))

/-- A sequence of journalled edits, in journal order. -/
inductive Chain : Tree → List LogEntry → Tree → Prop where
  | nil (t : Tree) : Chain t [] t
  | cons {t t1 t2 : Tree} {e : LogEntry} {es : List LogEntry} :
      EStep t e t1 → Chain t1 es t2 → Chain t (e :: es) t2

/-- Each node identifier is stored at most once. -/
def WFkeys (t : Tree) : Prop := (t.map (fun p => p.1)).Nodup

/-- Per-node live property lists carry pairwise distinct names
(invariant I2 of the data model). -/
def WFnames (t : Tree) : Prop :=
  ∀ p ∈ t, ((p.2.props.map OFProp.name).Nodup)

/-- Child lists are consistent: no duplicates, no self-children, and every
child id resolves to a live (non-detached) node whose parent link names the
list's owner. -/
def WFchildren (t : Tree) : Prop :=
  ∀ p ∈ t, (p.2.children.Nodup ∧
    ∀ c ∈ p.2.children, ¬ c = p.1 ∧ ∃ ndc, treeFind t c = some ndc ∧
      ndc.parent = some p.1 ∧ ndc.detached = false)

/-- A node id occurs in the child list of at most one node. -/
def WFonce (t : Tree) : Prop :=
  ∀ p1 ∈ t, ∀ p2 ∈ t, ∀ c : Nat,
    c ∈ p1.2.children → c ∈ p2.2.children → p1.1 = p2.1

/-- The tree-level well-formedness used by the round-trip theorems. -/
def WFt (t : Tree) : Prop := WFkeys t ∧ WFnames t ∧ WFchildren t ∧ WFonce t

/-- System-level well-formedness: the tree invariants plus freshness of
the node-id allocator. -/
def WFsys (sys : Sys) : Prop :=
  WFt sys.tree ∧ ∀ p ∈ sys.tree, p.1 < sys.nextId

/-- Restoration relation: every node of the reference tree `t0` is present
in `s` with identical scalar fields, flag and parent link, the same live
properties and children up to list order, and a dead-property list that
contains the reference one plus possibly retained copies; nodes of `s`
unknown to `t0` are detached leftovers. -/
def Rel (t0 s : Tree) : Prop :=
  (∀ id nd0, treeFind t0 id = some nd0 → ∃ nd, treeFind s id = some nd ∧
    nd.name = nd0.name ∧ nd.fullName = nd0.fullName ∧ nd.typ = nd0.typ ∧
    nd.phandle = nd0.phandle ∧ nd.parent = nd0.parent ∧
    nd.detached = nd0.detached ∧
    (nd.props : Multiset OFProp) = (nd0.props : Multiset OFProp) ∧
    (nd.children : Multiset Nat) = (nd0.children : Multiset Nat) ∧
    ∃ g : Multiset OFProp,
      (nd.deadprops : Multiset OFProp) =
        (nd0.deadprops : Multiset OFProp) + g) ∧
  (∀ id nd, treeFind s id = some nd → treeFind t0 id = none →
    nd.detached = true)

/-- A successfully applied overlay info table: each entry has a resolved
target and fragment and its journal forms a chain. -/
inductive TabApplied : Tree → List OVI → Tree → Prop where
  | nil (t : Tree) : TabApplied t [] t
  | cons {t t1 t2 : Tree} {ovi : OVI} {rest : List OVI} :
      ovi.target.isSome → ovi.frag.isSome →
      Chain t ovi.le_list t1 → TabApplied t1 rest t2 →
      TabApplied t (ovi :: rest) t2

/-- A registry built by successive successful overlay applications. -/
inductive RegApplied : Tree → List OvRec → Tree → Prop where
  | nil (t : Tree) : RegApplied t [] t
  | cons {t t1 t2 : Tree} {ov : OvRec} {rest : List OvRec} :
      TabApplied t ov.tab t1 → RegApplied t1 rest t2 →
      RegApplied t (ov :: rest) t2

/-- Executable check of the tree invariants (used to discharge
well-formedness hypotheses on concrete states). -/
def wfTreeB (t : Tree) : Bool :=
  decide ((t.map (fun p => p.1)).Nodup) &&
  t.all (fun p =>
    decide ((p.2.props.map OFProp.name).Nodup) &&
    decide (p.2.children.Nodup) &&
    p.2.children.all (fun c =>
      !(c == p.1) &&
      match treeFind t c with
      | some ndc => ndc.parent == some p.1 && !ndc.detached
      | none => false)) &&
  t.all (fun p1 => t.all (fun p2 => p1.2.children.all (fun c =>
    !(p2.2.children.contains c) || p1.1 == p2.1)))

/-- Executable check of the system invariants. -/
def wfSysB (sys : Sys) : Bool :=
  wfTreeB sys.tree && sys.tree.all (fun p => decide (p.1 < sys.nextId))

/-- The outcome contract of a successful overlay-walk step or loop:
success, target and fragment untouched, the journal extended by a chain of
edits leading to the new tree, the invariants preserved and the node-id
allocator monotone. -/
def ApplyOk (sys : Sys) (ovi : OVI) (r : Int × Sys × OVI) : Prop :=
  r.1 = 0 ∧ r.2.2.target = ovi.target ∧ r.2.2.frag = ovi.frag ∧
  (∃ es, r.2.2.le_list = ovi.le_list ++ es ∧ Chain sys.tree es r.2.1.tree) ∧
  WFt r.2.1.tree ∧ (∀ q ∈ r.2.1.tree, q.1 < r.2.1.nextId) ∧
  sys.nextId ≤ r.2.1.nextId

/-! ### Concrete states used by the counterexamples and witnesses -/

/-- A two-property node: live list `[alpha, beta]`, nothing dead. -/
def exNode : NodeData :=
  ⟨"root", "/root", "", 0, [⟨1, "alpha", "x", 1⟩, ⟨2, "beta", "y", 1⟩], [], [], none, false⟩

/-- The world holding just `exNode` at identifier 0. -/
def exSys : Sys := ⟨[(0, exNode)], 1, 10⟩

/-- A fragment that removes the property `beta` from its target. -/
def exFragRemove : FNode := FNode.mk "f" "/f" "" 0 [⟨5, "-beta", "", 0⟩] []

/-- The overlay info applying `exFragRemove` to node 0. -/
def exOvi : OVI := ⟨some 0, some exFragRemove, [], []⟩

/-- An overlay info whose target could not be resolved (`NULL` target). -/
def exOviBad : OVI := ⟨none, some (FNode.mk "g" "/g" "" 0 [] []), [], []⟩

/-- A three-node chain: 0 is the root, 1 its child, 2 a child of 1. -/
def exChainTree : Tree :=
  [(0, ⟨"", "/", "", 0, [], [], [1], none, false⟩),
   (1, ⟨"a", "/a", "", 0, [], [], [2], some 0, false⟩),
   (2, ⟨"b", "/a/b", "", 0, [], [], [], some 1, false⟩)]

/-- Registry record 0: an applied overlay whose journal mentions node 2. -/
def exRegA : OvRec :=
  ⟨0, [⟨some 2, some (FNode.mk "f0" "/f0" "" 0 [] []),
       [⟨Action.addProperty, 2, some ⟨21, "p", "v", 1⟩, none⟩], []⟩]⟩

/-- Registry record 1: a later overlay whose journal mentions node 1
(the parent of node 2). -/
def exRegB : OvRec :=
  ⟨1, [⟨some 1, some (FNode.mk "f1" "/f1" "" 0 [] []),
       [⟨Action.addProperty, 1, some ⟨22, "q", "w", 1⟩, none⟩], []⟩]⟩

/-- A registry with overlay 0 journalling node 2 and the strictly later
overlay 1 journalling node 1 (the parent of node 2). -/
def exReg : GState :=
  { sys := ⟨exChainTree, 3, 20⟩, ov_list := [exRegA, exRegB], nextOvId := 2 }

/-- A node with neither `compatible` nor `status`, and a transaction that
adds `status = "okay"` to it. -/
def exBareSys : Sys := ⟨[(5, ⟨"n", "/n", "", 0, [], [], [], none, false⟩)], 6, 30⟩

/-- The transaction adding `status = "okay"` to node 5. -/
def exOft : OFT := ⟨[⟨Action.addProperty, 5, some ⟨31, "status", "okay", 5⟩, none⟩]⟩

/-- A node with live `[alpha]` and dead `[beta]`, for the relink witness. -/
def exC8Node : NodeData :=
  ⟨"n", "/n", "", 0, [⟨1, "alpha", "x", 1⟩], [⟨2, "beta", "y", 1⟩], [], none, false⟩

/-- A node carrying only a non-empty `compatible`, for the C3 witness. -/
def exC3Node : NodeData :=
  ⟨"r", "/r", "", 0, [⟨1, "compatible", "v", 1⟩], [], [], none, false⟩

/-- The tree holding `exC3Node` at identifier 0. -/
def exC3Tree : Tree := [(0, exC3Node)]

/-- A notifier chain that vetoes every change with `EBUSY`. -/
def vetoAll : Notif := fun _ _ _ => EBUSY

/-- The status property added in the C3 witness. -/
def exC3Status : OFProp := ⟨2, "status", "okay", 4⟩

/-! ### Theorems -/

/-! #### General facts about the node store -/

theorem treeFind_cons (a : Nat × NodeData) (t : Tree) (id : Nat) :
    treeFind (a :: t) id = if (a.1 == id) = true then some a.2 else treeFind t id := by
  by_cases h : (a.1 == id) = true <;> simp [treeFind, List.find?, h]

theorem treeUpd_cons (a : Nat × NodeData) (t : Tree) (id : Nat)
    (f : NodeData → NodeData) :
    treeUpd (a :: t) id f =
      (if a.1 == id then (a.1, f a.2) else a) :: treeUpd t id f := rfl

theorem treeFind_upd_self (t : Tree) (id : Nat) (f : NodeData → NodeData) :
    treeFind (treeUpd t id f) id = (treeFind t id).map f := by
  induction t with
  | nil => rfl
  | cons a t ih =>
      rw [treeUpd_cons]
      by_cases h : (a.1 == id) = true
      · simp [treeFind_cons, h]
      · simp only [h, Bool.false_eq_true, if_false]
        rw [treeFind_cons, treeFind_cons]
        simp only [h, Bool.false_eq_true, if_false]
        exact ih

theorem treeFind_upd_ne (t : Tree) (id j : Nat) (f : NodeData → NodeData)
    (h : ¬ id = j) :
    treeFind (treeUpd t j f) id = treeFind t id := by
  induction t with
  | nil => rfl
  | cons a t ih =>
      rw [treeUpd_cons]
      by_cases hj : (a.1 == j) = true
      · have hb : (a.1 == id) = false := by
          rw [beq_iff_eq.mp hj]
          exact beq_eq_false_iff_ne.mpr (Ne.symm h)
        simp only [hj, if_true]
        rw [treeFind_cons, treeFind_cons]
        simp only [hb, Bool.false_eq_true, if_false]
        exact ih
      · simp only [hj, Bool.false_eq_true, if_false]
        rw [treeFind_cons, treeFind_cons]
        by_cases hi : (a.1 == id) = true
        · simp [hi]
        · simp only [hi, Bool.false_eq_true, if_false]
          exact ih

theorem treeUpd_treeUpd (t : Tree) (id : Nat) (f g : NodeData → NodeData) :
    treeUpd (treeUpd t id f) id g = treeUpd t id (fun nd => g (f nd)) := by
  unfold treeUpd
  rw [List.map_map]
  refine congrArg (fun fn => List.map fn t) (funext fun p => ?_)
  by_cases h : (p.1 == id) = true
  · simp [Function.comp, h]
  · simp [Function.comp, h]

theorem treeFind_ins_fresh (t : Tree) (id : Nat) (nd : NodeData)
    (h : treeFind t id = none) :
    treeFind (treeIns t id nd) id = some nd := by
  induction t with
  | nil => simp [treeFind, treeIns, List.find?]
  | cons a t ih =>
      by_cases ha : (a.1 == id) = true
      · simp [treeFind, List.find?, ha] at h
      · have hr : treeFind t id = none := by simpa [treeFind, List.find?, ha] using h
        simpa [treeFind, treeIns, List.find?, ha] using ih hr

theorem treeFind_ins_ne (t : Tree) (id j : Nat) (nd : NodeData)
    (h : ¬ id = j) :
    treeFind (treeIns t j nd) id = treeFind t id := by
  induction t with
  | nil => simp [treeFind, treeIns, List.find?, beq_eq_false_iff_ne.mpr (Ne.symm h)]
  | cons a t ih =>
      by_cases hi : (a.1 == id) = true
      · simp [treeFind, treeIns, List.find?, hi]
      · simpa [treeFind, treeIns, List.find?, hi] using ih

theorem attach_node_eq (t : Tree) (np : Nat) (nd : NodeData) (par : Nat)
    (hf : treeFind t np = some nd) (hp : nd.parent = some par) :
    __of_attach_node t np =
      treeUpd (treeUpd t par (fun ndp => { ndp with children := np :: ndp.children }))
        np (fun ndn => { ndn with detached := false }) := by
  unfold __of_attach_node
  simp only [hf, hp]

theorem detach_node_eq (t : Tree) (np : Nat) (nd : NodeData) (par : Nat)
    (hf : treeFind t np = some nd) (hd : nd.detached = false)
    (hp : nd.parent = some par) :
    __of_detach_node t np =
      treeUpd (treeUpd t par (fun ndp => { ndp with children := ndp.children.erase np }))
        np (fun ndn => { ndn with detached := true }) := by
  unfold __of_detach_node
  simp only [hf, hp, hd, Bool.false_eq_true, if_false]

/-! #### General facts about property lists -/

theorem findProp_cons (q : OFProp) (l : List OFProp) (n : String) :
    findProp (q :: l) n = if (q.name == n) = true then some q else findProp l n := by
  by_cases h : (q.name == n) = true <;> simp [findProp, List.find?, h]

theorem findProp_name {l : List OFProp} {n : String} {q : OFProp}
    (h : findProp l n = some q) : q.name = n ∧ q ∈ l := by
  unfold findProp at h
  have h2 := List.find?_some h
  exact ⟨beq_iff_eq.mp h2, List.mem_of_find?_eq_some h⟩

theorem findProp_eq_none {l : List OFProp} {n : String} :
    findProp l n = none ↔ ∀ q ∈ l, q.name ≠ n := by
  unfold findProp
  rw [List.find?_eq_none]
  constructor
  · intro h q hq he; simpa [he] using h q hq
  · intro h q hq; simpa using h q hq

theorem findProp_replaceNamed_self (l : List OFProp) (n : String) (pn : OFProp)
    (hn : pn.name = n) (h : (findProp l n).isSome) :
    findProp (replaceNamed l n pn) n = some pn := by
  induction l with
  | nil => simp [findProp, List.find?] at h
  | cons q l ih =>
      by_cases hq : (q.name == n) = true
      · simp [replaceNamed, hq, findProp_cons, hn]
      · have h' : (findProp l n).isSome := by simpa [findProp_cons, hq] using h
        simp [replaceNamed, hq, findProp_cons, ih h']

theorem findProp_replaceNamed_ne (l : List OFProp) (n m : String) (pn : OFProp)
    (hn : pn.name = n) (hm : ¬ m = n) :
    findProp (replaceNamed l n pn) m = findProp l m := by
  induction l with
  | nil => rfl
  | cons q l ih =>
      by_cases hq : (q.name == n) = true
      · have h1 : (pn.name == m) = false := by
          rw [hn]; exact beq_eq_false_iff_ne.mpr (Ne.symm hm)
        have h2 : (q.name == m) = false := by
          rw [beq_iff_eq.mp hq]; exact beq_eq_false_iff_ne.mpr (Ne.symm hm)
        simp [replaceNamed, hq, findProp_cons, h1, h2]
      · by_cases hqm : (q.name == m) = true
        · simp [replaceNamed, hq, findProp_cons, hqm]
        · simp [replaceNamed, hq, findProp_cons, hqm, ih]

theorem findProp_erase_ne (l : List OFProp) (q : OFProp) (m : String)
    (h : ¬ q.name = m) :
    findProp (l.erase q) m = findProp l m := by
  induction l with
  | nil => rfl
  | cons r l ih =>
      by_cases hr : (r == q) = true
      · have he := beq_iff_eq.mp hr
        subst he
        have hb : (r.name == m) = false := beq_eq_false_iff_ne.mpr h
        simp [List.erase_cons, findProp_cons, hb]
      · by_cases hrm : (r.name == m) = true
        · simp [List.erase_cons, hr, findProp_cons, hrm]
        · simp [List.erase_cons, hr, findProp_cons, hrm, ih]

theorem findProp_erase_self {l : List OFProp} {n : String} {q : OFProp}
    (hnd : (l.map OFProp.name).Nodup) (h : findProp l n = some q) :
    findProp (l.erase q) n = none := by
  induction l with
  | nil => simp [findProp, List.find?] at h
  | cons r l ih =>
      rw [List.map_cons] at hnd
      by_cases hr : (r.name == n) = true
      · have hq : r = q := by
          rw [findProp_cons, if_pos hr] at h
          exact Option.some_inj.mp h
        subst hq
        have hnone : findProp l n = none := by
          rw [findProp_eq_none]
          intro x hx he
          have hrn : r.name = n := beq_iff_eq.mp hr
          have hmem : n ∈ l.map OFProp.name := List.mem_map.mpr ⟨x, hx, he⟩
          rw [← hrn] at hmem
          exact (List.nodup_cons.mp hnd).1 hmem
        simpa [List.erase_cons] using hnone
      · have hq : findProp l n = some q := by
          rw [findProp_cons, if_neg (by simp [hr])] at h
          exact h
        by_cases hrq : (r == q) = true
        · have hre := beq_iff_eq.mp hrq
          subst hre
          exact absurd (findProp_name hq).1 (by simpa using hr)
        · simp only [List.erase_cons, hrq, Bool.false_eq_true, if_false]
          rw [findProp_cons, if_neg (by simp [hr])]
          exact ih (List.nodup_cons.mp hnd).2 hq

/-- C9: the public refcount interface tolerates the null node:
`of_node_get NULL` returns `NULL` without touching any counter,
`of_node_put NULL` is a no-op, and on a non-null node `of_node_get`
increments that node's counter and returns its argument. -/
theorem C9_refcount_null :
    (∀ rc : RefState, of_node_get rc none = (none, rc)) ∧
    (∀ rc : RefState, of_node_put rc none = rc) ∧
    (∀ (rc : RefState) (id : Nat),
      (of_node_get rc (some id)).1 = some id ∧
      ((of_node_get rc (some id)).2.find? (fun p => p.1 == id)).map (fun p => p.2) =
        ((rc.find? (fun p => p.1 == id)).map (fun p => p.2)).map (fun n => n + 1)) := by
  refine ⟨fun _ => rfl, fun _ => rfl, fun rc id => ⟨rfl, ?_⟩⟩
  show ((kobject_get rc id).find? (fun p => p.1 == id)).map (fun p => p.2) = _
  induction rc with
  | nil => rfl
  | cons a l ih =>
      by_cases h : a.1 = id
      · simp [kobject_get, List.find?, h]
      · have hb : (a.1 == id) = false := by simp [h]
        simpa [kobject_get, List.find?, hb] using ih

/-- C6: a fragment property whose name begins with a dash, where the
target has no live property of the stripped name, makes
`of_overlay_apply_one` perform no tree change, record no journal entry and
report no error: the world and the overlay info are returned unchanged
with status 0. -/
theorem C6_remove_missing_noop (nf : Notif) (sys : Sys) (ovi : OVI)
    (tgt : Nat) (p : OFProp)
    (hd : strStartsWithDash p.name = true)
    (hn : of_find_property sys.tree tgt (p.name.drop 1) = none) :
    of_overlay_apply_one_prop nf sys ovi tgt p = (0, sys, ovi) := by
  by_cases hnm : (p.name == "name") = true
  · simp [of_overlay_apply_one_prop, hnm]
  · simp only [of_overlay_apply_one_prop, hnm, hd, Bool.false_eq_true,
      if_false, if_true, hn]

/-- Witness for C6 at a concrete input. -/
theorem C6_remove_missing_noop_witness :
    strStartsWithDash (OFProp.mk 7 "-zeta" "" 0).name = true ∧
    of_find_property exSys.tree 0 ((OFProp.mk 7 "-zeta" "" 0).name.drop 1) = none ∧
    of_overlay_apply_one_prop allowAll exSys exOvi 0 (OFProp.mk 7 "-zeta" "" 0) =
      (0, exSys, exOvi) :=
  ⟨by decide, by decide,
   C6_remove_missing_noop allowAll exSys exOvi 0 (OFProp.mk 7 "-zeta" "" 0)
     (by decide) (by decide)⟩

/-! #### C10: the device-state ledger keeps one entry per node, first
`prevstate` and latest `state` -/

theorem find?_append_single (l : List DevEntry) (e : DevEntry) (np : Nat) :
    (l ++ [e]).find? (fun de => de.np == np) =
      match l.find? (fun de => de.np == np) with
      | some de => some de
      | none => if e.np == np then some e else none := by
  induction l with
  | nil => by_cases h : (e.np == np) = true <;> simp [List.find?, h]
  | cons a l ih =>
      by_cases h : (a.np == np) = true
      · simp [List.find?, h]
      · simpa [List.find?, h] using ih

theorem updFirstDev_find?_eq (l : List DevEntry) (np : Nat) (st : Bool) :
    (updFirstDev l np st).find? (fun de => de.np == np) =
      match l.find? (fun de => de.np == np) with
      | some de => some { de with state := st }
      | none => none := by
  induction l with
  | nil => simp [updFirstDev, List.find?]
  | cons a l ih =>
      by_cases h : (a.np == np) = true
      · simp [updFirstDev, List.find?, h]
      · simpa [updFirstDev, List.find?, h] using ih

theorem updFirstDev_find?_ne (l : List DevEntry) (np nq : Nat) (st : Bool)
    (h : ¬ np = nq) :
    (updFirstDev l nq st).find? (fun de => de.np == np) =
      l.find? (fun de => de.np == np) := by
  induction l with
  | nil => simp [updFirstDev]
  | cons a l ih =>
      by_cases hq : (a.np == nq) = true
      · have hanp : (a.np == np) = false := by
          rw [beq_iff_eq.mp hq]
          exact beq_eq_false_iff_ne.mpr (Ne.symm h)
        simp [updFirstDev, List.find?, hq, hanp]
      · by_cases hp : (a.np == np) = true
        · simp [updFirstDev, List.find?, hq, hp]
        · simpa [updFirstDev, List.find?, hq, hp] using ih

theorem updFirstDev_map_np (l : List DevEntry) (np : Nat) (st : Bool) :
    (updFirstDev l np st).map DevEntry.np = l.map DevEntry.np := by
  induction l with
  | nil => rfl
  | cons a l ih =>
      by_cases h : (a.np == np) = true
      · simp [updFirstDev, h]
      · simp [updFirstDev, h, ih]

theorem dev_add_lookup (ovi : OVI) (np nq : Nat) (pv st : Bool) :
    of_overlay_device_entry_lookup (of_overlay_device_entry_entry_add ovi nq pv st) np =
      if np = nq then
        (match of_overlay_device_entry_lookup ovi nq with
         | some de => some { de with state := st }
         | none => some ⟨nq, pv, st⟩)
      else of_overlay_device_entry_lookup ovi np := by
  unfold of_overlay_device_entry_entry_add
  by_cases he : np = nq
  · subst he
    cases h : of_overlay_device_entry_lookup ovi np with
    | none =>
        have hl : ovi.de_list.find? (fun de => de.np == np) = none := h
        simp only [of_overlay_device_entry_lookup] at h ⊢
        simp [h, find?_append_single, hl]
    | some de =>
        have hl : ovi.de_list.find? (fun de => de.np == np) = some de := h
        simp only [of_overlay_device_entry_lookup] at h ⊢
        simp [h, updFirstDev_find?_eq, hl]
  · cases h : of_overlay_device_entry_lookup ovi nq with
    | none =>
        simp only [of_overlay_device_entry_lookup] at h ⊢
        have hb : (nq == np) = false := beq_eq_false_iff_ne.mpr (Ne.symm he)
        simp [h, find?_append_single, he, hb]
    | some de =>
        simp only [of_overlay_device_entry_lookup] at h ⊢
        simp [h, he, updFirstDev_find?_ne _ _ _ _ he]

theorem dev_add_nodup (ovi : OVI) (np : Nat) (pv st : Bool)
    (h : (ovi.de_list.map DevEntry.np).Nodup) :
    ((of_overlay_device_entry_entry_add ovi np pv st).de_list.map DevEntry.np).Nodup := by
  unfold of_overlay_device_entry_entry_add
  cases hq : of_overlay_device_entry_lookup ovi np with
  | none =>
      have hn : np ∉ ovi.de_list.map DevEntry.np := by
        intro hmem
        rcases List.mem_map.mp hmem with ⟨de, hde, hdn⟩
        have := List.find?_eq_none.mp hq de hde
        simp [hdn] at this
      simpa [List.nodup_append] using ⟨h, by simpa using hn⟩
  | some de => simpa [updFirstDev_map_np] using h

theorem devLedgerRun_nodup (calls : List (Nat × Bool × Bool)) (ovi : OVI)
    (h : (ovi.de_list.map DevEntry.np).Nodup) :
    ((devLedgerRun ovi calls).de_list.map DevEntry.np).Nodup := by
  induction calls generalizing ovi with
  | nil => exact h
  | cons c cs ih => exact ih _ (dev_add_nodup _ _ _ _ h)

theorem devLedgerRun_lookup (calls : List (Nat × Bool × Bool)) (ovi : OVI)
    (np : Nat) :
    of_overlay_device_entry_lookup (devLedgerRun ovi calls) np =
      match of_overlay_device_entry_lookup ovi np with
      | some de => some { de with state := lastCallSt np de.state calls }
      | none =>
          match calls.find? (fun c => c.1 == np) with
          | some cf => some ⟨np, cf.2.1, lastCallSt np cf.2.2 calls⟩
          | none => none := by
  induction calls generalizing ovi with
  | nil =>
      cases h : of_overlay_device_entry_lookup ovi np <;> simp [devLedgerRun, h, lastCallSt]
  | cons c cs ih =>
      show of_overlay_device_entry_lookup
          (devLedgerRun (of_overlay_device_entry_entry_add ovi c.1 c.2.1 c.2.2) cs) np = _
      rw [ih]
      rw [dev_add_lookup]
      by_cases he : np = c.1
      · have hb : (c.1 == np) = true := by simp [he]
        cases h : of_overlay_device_entry_lookup ovi np with
        | some de =>
            subst he
            simp [h, lastCallSt, hb, List.find?]
        | none =>
            subst he
            simp [h, lastCallSt, hb, List.find?]
      · have hb : (c.1 == np) = false := beq_eq_false_iff_ne.mpr (Ne.symm he)
        cases h : of_overlay_device_entry_lookup ovi np with
        | some de => simp [he, h, lastCallSt, hb]
        | none => simp [he, h, lastCallSt, hb, List.find?]

/-- C10: starting from an empty ledger, any sequence of
`of_overlay_device_entry_entry_add` calls leaves at most one entry per
node, and the entry for a node carries the `prevstate` passed by the first
call that mentioned it and the `state` passed by the last call that
mentioned it. -/
theorem C10_ledger_first_last (calls : List (Nat × Bool × Bool)) (np : Nat) :
    (((devLedgerRun ⟨none, none, [], []⟩ calls).de_list.map DevEntry.np).Nodup) ∧
    of_overlay_device_entry_lookup (devLedgerRun ⟨none, none, [], []⟩ calls) np =
      (match calls.find? (fun c => c.1 == np) with
       | some cf => some ⟨np, cf.2.1, lastCallSt np cf.2.2 calls⟩
       | none => none) := by
  constructor
  · exact devLedgerRun_nodup calls _ (by simp)
  · rw [devLedgerRun_lookup]
    simp [of_overlay_device_entry_lookup, List.find?]

/-! #### C7: transaction-aware property lookup -/

theorem txnFindScan_append (xs ys : List TE) (np : Nat) (n : String) :
    txnFindScan (xs ++ ys) np n =
      match txnFindScan xs np n with
      | some r => some r
      | none => txnFindScan ys np n := by
  induction xs with
  | nil => simp [txnFindScan]
  | cons te rest ih =>
      simp only [List.cons_append, txnFindScan]
      by_cases h1 : (te.action == Action.addProperty || te.action == Action.removeProperty ||
          te.action == Action.updateProperty) = true
      · simp only [h1, if_true]
        cases hp : te.prop with
        | none => exact ih
        | some p =>
            by_cases h2 : (te.np == np && p.name == n) = true
            · simp [h2]
            · simp only [h2, Bool.false_eq_true, if_false]
              exact ih
      · simp only [h1, Bool.false_eq_true, if_false]
        exact ih

theorem txn_foldl_scan (np : Nat) (n : String) (l : List TE)
    (acc : Option (Option OFProp)) :
    l.foldl (fun acc te =>
      if te.action == Action.addProperty || te.action == Action.removeProperty ||
         te.action == Action.updateProperty then
        match te.prop with
        | some p =>
            if te.np == np && p.name == n then
              some (if te.action == Action.removeProperty then none else some p)
            else acc
        | none => acc
      else acc) acc =
      match txnFindScan l.reverse np n with
      | some r => some r
      | none => acc := by
  induction l generalizing acc with
  | nil => simp [txnFindScan]
  | cons te rest ih =>
      simp only [List.foldl_cons, List.reverse_cons]
      rw [ih, txnFindScan_append]
      cases hs : txnFindScan rest.reverse np n with
      | some r => rfl
      | none =>
          by_cases h1 : (te.action == Action.addProperty || te.action == Action.removeProperty ||
              te.action == Action.updateProperty) = true
          · cases hp : te.prop with
            | none => simp [txnFindScan, h1, hp]
            | some p =>
                by_cases h2 : (te.np == np && p.name == n) = true
                · simp [txnFindScan, h1, hp, h2]
                · simp [txnFindScan, h1, hp, h2]
          · simp [txnFindScan, h1]

/-- C7: `of_transaction_find_property` returns exactly the staged view of
the journal — the latest add/update/remove entry for the node and name
wins, the new property for an add or update, absence for a remove, with
fallback to the live tree — in particular an uncommitted recorded add is
visible through it; and recording through `of_transaction_action` only
appends the entry to the journal, leaving the live tree untouched, so the
non-transactional `of_find_property` still answers from the unmodified
live tree. -/
theorem C7_transaction_find :
    (∀ (oft : OFT) (t : Tree) (np : Nat) (n : String),
      of_transaction_find_property oft t np n = specStagedFind oft t np n) ∧
    (∀ (oft : OFT) (t : Tree) (np : Nat) (p : OFProp),
      of_transaction_find_property
        (of_transaction_action oft t Action.addProperty np (some p)) t np p.name
        = some p) ∧
    (∀ (oft : OFT) (t : Tree) (a : Action) (np : Nat) (p : Option OFProp),
      (of_transaction_action oft t a np p).te_list =
        oft.te_list ++ [__of_transaction_entry_create oft t a np p]) := by
  refine ⟨fun oft t np n => ?_, fun oft t np p => ?_, fun _ _ _ _ _ => rfl⟩
  · show _ = specStagedFind oft t np n
    unfold specStagedFind
    rw [txn_foldl_scan]
    unfold of_transaction_find_property
    cases hs : txnFindScan oft.te_list.reverse np n <;> simp [hs]
  · unfold of_transaction_find_property of_transaction_action
    simp only [List.reverse_append, List.reverse_cons, List.reverse_nil,
      List.nil_append, List.singleton_append]
    simp [txnFindScan, __of_transaction_entry_create]

/-! #### C8: dead-property relinking discipline on revert -/

/-- C8: when a `RemoveProp` or `UpdateProp` journal entry is reverted (in
either engine), the property to relink is looked up on the owning node's
dead-property list; when present, that same property object — not a copy —
is unlinked from the dead list and relinked live (at the head for a
remove, in place for an update, the displaced one going dead), and the
warning flag stays clear; when absent, the `WARN_ON` assertion fires (the
flag is set) rather than the situation being silently ignored. -/
theorem C8_deadprop_relink :
    (∀ (t : Tree) (np : Nat) (p : OFProp) (op : Option OFProp) (nd : NodeData),
      treeFind t np = some nd → p ∈ nd.deadprops →
      findProp nd.props p.name = none →
      of_overlay_revert_one_entry allowAll t ⟨Action.removeProperty, np, some p, op⟩ =
        (treeUpd t np (fun nd =>
          { nd with props := p :: nd.props,
                    deadprops := nd.deadprops.erase p }), false)) ∧
    (∀ (t : Tree) (np : Nat) (p : OFProp) (op : Option OFProp) (nd : NodeData),
      treeFind t np = some nd → p ∉ nd.deadprops →
      (of_overlay_revert_one_entry allowAll t ⟨Action.removeProperty, np, some p, op⟩).2
        = true) ∧
    (∀ (t : Tree) (np : Nat) (pn pold : OFProp) (nd : NodeData) (q : OFProp),
      treeFind t np = some nd → pold ∈ nd.deadprops →
      findProp nd.props pold.name = some q →
      of_overlay_revert_one_entry allowAll t ⟨Action.updateProperty, np, some pn, some pold⟩ =
        (treeUpd t np (fun nd =>
          { nd with props := replaceNamed nd.props pold.name pold,
                    deadprops := q :: nd.deadprops.erase pold }), false)) ∧
    (∀ (t : Tree) (np : Nat) (pn pold : OFProp) (nd : NodeData),
      treeFind t np = some nd → pold ∉ nd.deadprops →
      (of_overlay_revert_one_entry allowAll t
          ⟨Action.updateProperty, np, some pn, some pold⟩).2 = true) ∧
    (∀ (sys : Sys) (oft : OFT) (np : Nat) (p : OFProp) (op : Option OFProp)
        (nd : NodeData),
      treeFind sys.tree np = some nd → p ∈ nd.deadprops →
      findProp nd.props p.name = none →
      __of_transaction_entry_revert allowAll sys oft ⟨Action.removeProperty, np, some p, op⟩ =
        (0, { sys with tree := treeUpd sys.tree np (fun nd =>
                { nd with props := p :: nd.props,
                          deadprops := nd.deadprops.erase p }) }, false)) ∧
    (∀ (sys : Sys) (oft : OFT) (np : Nat) (p : OFProp) (op : Option OFProp)
        (nd : NodeData),
      treeFind sys.tree np = some nd → p ∉ nd.deadprops →
      (__of_transaction_entry_revert allowAll sys oft
          ⟨Action.removeProperty, np, some p, op⟩).2.2 = true) := by
  refine ⟨?_, ?_, ?_, ?_, ?_, ?_⟩
  · intro t np p op nd hf hm hn
    simp [of_overlay_revert_one_entry, of_add_property, of_property_notify,
      allowAll, __of_add_property, hf, hm, hn, treeFind_upd_self, treeUpd_treeUpd]
  · intro t np p op nd hf hm
    simp [of_overlay_revert_one_entry, hf, hm]
  · intro t np pn pold nd q hf hm hn
    simp [of_overlay_revert_one_entry, of_update_property, of_property_notify,
      allowAll, __of_update_property, hf, hm, hn, treeFind_upd_self, treeUpd_treeUpd]
  · intro t np pn pold nd hf hm
    simp [of_overlay_revert_one_entry, hf, hm]
  · intro sys oft np p op nd hf hm hn
    simp [__of_transaction_entry_revert, of_property_notify, allowAll,
      __of_add_property, hf, hm, hn, treeFind_upd_self, treeUpd_treeUpd]
  · intro sys oft np p op nd hf hm
    simp [__of_transaction_entry_revert, of_property_notify, allowAll,
      __of_add_property, hf, hm]

/-- Witness for C8: a node with live `[alpha]` and dead `[beta]`;
reverting the removal of `beta` relinks the same object at the head of the
live list, and a revert entry naming the unrelated `gamma` trips the
assertion flag. -/
theorem C8_deadprop_relink_witness :
    treeFind [(0, exC8Node)] 0 = some exC8Node ∧
    (⟨2, "beta", "y", 1⟩ : OFProp) ∈ exC8Node.deadprops ∧
    of_overlay_revert_one_entry allowAll [(0, exC8Node)]
        ⟨Action.removeProperty, 0, some ⟨2, "beta", "y", 1⟩, none⟩ =
      (treeUpd [(0, exC8Node)] 0
        (fun nd => { nd with props := (⟨2, "beta", "y", 1⟩ : OFProp) :: nd.props,
                             deadprops := nd.deadprops.erase ⟨2, "beta", "y", 1⟩ }),
       false) ∧
    (of_overlay_revert_one_entry allowAll [(0, exC8Node)]
        ⟨Action.removeProperty, 0, some ⟨3, "gamma", "z", 1⟩, none⟩).2 = true :=
  ⟨by decide, by decide,
   C8_deadprop_relink.1 _ 0 ⟨2, "beta", "y", 1⟩ none exC8Node
     (by decide) (by decide) (by decide),
   C8_deadprop_relink.2.1 _ 0 ⟨3, "gamma", "z", 1⟩ none exC8Node
     (by decide) (by decide)⟩

/-! #### C3: the device-state ledger versus the claimed predicate -/

theorem statusClause_eq (p : OFProp) (h : lenOk p) :
    (decide (0 < p.length) && (p.value == "okay" || p.value == "ok")) =
      (p.value == "okay" || p.value == "ok") := by
  simp only [lenOk] at h
  by_cases h1 : (p.value == "okay") = true
  · have hl : 0 < p.length := by
      rw [h, beq_iff_eq.mp h1]
      decide
    simp [hl, h1]
  · by_cases h2 : (p.value == "ok") = true
    · have hl : 0 < p.length := by
        rw [h, beq_iff_eq.mp h2]
        decide
      simp [hl, h2]
    · simp [h1, h2]

/-- C3 amended: the overlay engine's ledger `state` for a
`status`/`compatible` property entry equals the claimed predicate evaluated
on the tree just after that entry's own mutation (for length/value-coherent
properties and name-unique live lists); for a freshly created (empty)
node the attach entry's state is 0 and so is the predicate; but the
transaction engine's device-state for a `status` add consults only the new
status value — never `compatible` — so its reported new state can disagree
with the claimed predicate (see the counterexample). -/
theorem C3_amended :
    (∀ (t : Tree) (np : Nat) (p : OFProp) (nd : NodeData),
      treeFind t np = some nd →
      (nd.props.map OFProp.name).Nodup →
      lenOk p → (∀ q ∈ nd.props, lenOk q) →
      (p.name = "status" ∨ p.name = "compatible") →
      ((findProp nd.props p.name = none →
        overlayPropDevState t np Action.addProperty p =
          specDevicePresent
            (treeUpd t np (fun nd => { nd with props := p :: nd.props })) np) ∧
       (∀ q, findProp nd.props p.name = some q →
        overlayPropDevState t np Action.updateProperty p =
          specDevicePresent
            (treeUpd t np (fun nd =>
              { nd with props := replaceNamed nd.props p.name p,
                        deadprops := q :: nd.deadprops })) np) ∧
       (findProp nd.props p.name = some p →
        overlayPropDevState t np Action.removeProperty p =
          specDevicePresent
            (treeUpd t np (fun nd =>
              { nd with props := nd.props.erase p,
                        deadprops := p :: nd.deadprops })) np))) ∧
    (∀ (t : Tree) (np : Nat) (nd : NodeData),
      treeFind t np = some nd → nd.props = [] →
      overlayNodeDevState t np = false ∧
      specDevicePresent (__of_attach_node t np) np = false) ∧
    (∀ (t : Tree) (oft : OFT) (np : Nat) (p : OFProp) (op : Option OFProp),
      p.name = "status" →
      of_find_property t np ("status") = none →
      __of_transaction_entry_device_state t oft
          ⟨Action.addProperty, np, some p, op⟩ false =
        (if (p.value == "okay" || p.value == "ok") = true then 1 else -1)) := by
  have hsc : (("status" : String) == "compatible") = false := by decide
  have hss : (("status" : String) == "status") = true := by decide
  have hcc : (("compatible" : String) == "compatible") = true := by decide
  have hcs : (("compatible" : String) == "status") = false := by decide
  refine ⟨?_, ?_, ?_⟩
  · intro t np p nd hf hnd hlp hlq hname
    rcases hname with hst | hcp
    · -- a status property
      refine ⟨?_, ?_, ?_⟩
      · intro hnone
        have hT : treeFind (treeUpd t np
            (fun nd => { nd with props := p :: nd.props })) np =
            some { nd with props := p :: nd.props } := by
          rw [treeFind_upd_self, hf]
          rfl
        have hc : findProp ((p : OFProp) :: nd.props) ("compatible") =
            findProp nd.props ("compatible") := by
          rw [findProp_cons, if_neg]
          rw [hst, hsc]
          simp
        have hs : findProp ((p : OFProp) :: nd.props) ("status") = some p := by
          rw [findProp_cons, if_pos (by rw [hst, hss])]
        simp only [specDevicePresent, of_find_property, hT, hc, hs]
        simp only [overlayPropDevState, hst, hss, if_true, of_find_property, hf]
        have hrm : (Action.addProperty != Action.removeProperty) = true := by decide
        simp only [hrm, if_true]
        rw [statusClause_eq p hlp]
      · intro q hq
        have hT : treeFind (treeUpd t np
            (fun nd => { nd with props := replaceNamed nd.props p.name p,
                                 deadprops := q :: nd.deadprops })) np =
            some { nd with props := replaceNamed nd.props p.name p,
                           deadprops := q :: nd.deadprops } := by
          rw [treeFind_upd_self, hf]
          rfl
        have hc : findProp (replaceNamed nd.props p.name p) ("compatible") =
            findProp nd.props ("compatible") := by
          rw [hst]
          exact findProp_replaceNamed_ne _ _ _ _ hst (by decide)
        have hs : findProp (replaceNamed nd.props p.name p) ("status") = some p := by
          rw [hst]
          exact findProp_replaceNamed_self _ _ _ hst (by rw [hst] at hq; simp [hq])
        simp only [specDevicePresent, of_find_property, hT, hc, hs]
        simp only [overlayPropDevState, hst, hss, if_true, of_find_property, hf]
        have hrm : (Action.updateProperty != Action.removeProperty) = true := by decide
        simp only [hrm, if_true]
        rw [statusClause_eq p hlp]
      · intro hp
        have hT : treeFind (treeUpd t np
            (fun nd => { nd with props := nd.props.erase p,
                                 deadprops := p :: nd.deadprops })) np =
            some { nd with props := nd.props.erase p,
                           deadprops := p :: nd.deadprops } := by
          rw [treeFind_upd_self, hf]
          rfl
        have hc : findProp (nd.props.erase p) ("compatible") =
            findProp nd.props ("compatible") := by
          refine findProp_erase_ne _ _ _ ?_
          rw [(findProp_name hp).1, hst]
          decide
        have hs : findProp (nd.props.erase p) ("status") = none := by
          rw [hst] at hp
          exact findProp_erase_self hnd hp
        simp only [specDevicePresent, of_find_property, hT, hc, hs]
        simp only [overlayPropDevState, hst, hss, if_true, of_find_property, hf]
        have hrm : (Action.removeProperty != Action.removeProperty) = false := by decide
        simp only [hrm, Bool.false_eq_true, if_false]
    · -- a compatible property
      refine ⟨?_, ?_, ?_⟩
      · intro hnone
        have hT : treeFind (treeUpd t np
            (fun nd => { nd with props := p :: nd.props })) np =
            some { nd with props := p :: nd.props } := by
          rw [treeFind_upd_self, hf]
          rfl
        have hc : findProp ((p : OFProp) :: nd.props) ("compatible") = some p := by
          rw [findProp_cons, if_pos (by rw [hcp, hcc])]
        have hs : findProp ((p : OFProp) :: nd.props) ("status") =
            findProp nd.props ("status") := by
          rw [findProp_cons, if_neg]
          rw [hcp, hcs]
          simp
        simp only [specDevicePresent, of_find_property, hT, hc, hs]
        simp only [overlayPropDevState, hcp, hcs, Bool.false_eq_true, if_false,
          of_find_property, hf]
        have hrm : (Action.addProperty != Action.removeProperty) = true := by decide
        simp only [hrm, if_true]
        cases hfs : findProp nd.props ("status") with
        | none => simp [hfs]
        | some s =>
            simp only [hfs]
            rw [statusClause_eq s (hlq s (findProp_name hfs).2)]
      · intro q hq
        have hT : treeFind (treeUpd t np
            (fun nd => { nd with props := replaceNamed nd.props p.name p,
                                 deadprops := q :: nd.deadprops })) np =
            some { nd with props := replaceNamed nd.props p.name p,
                           deadprops := q :: nd.deadprops } := by
          rw [treeFind_upd_self, hf]
          rfl
        have hc : findProp (replaceNamed nd.props p.name p) ("compatible") = some p := by
          rw [hcp]
          exact findProp_replaceNamed_self _ _ _ hcp (by rw [hcp] at hq; simp [hq])
        have hs : findProp (replaceNamed nd.props p.name p) ("status") =
            findProp nd.props ("status") := by
          rw [hcp]
          exact findProp_replaceNamed_ne _ _ _ _ hcp (by decide)
        simp only [specDevicePresent, of_find_property, hT, hc, hs]
        simp only [overlayPropDevState, hcp, hcs, Bool.false_eq_true, if_false,
          of_find_property, hf]
        have hrm : (Action.updateProperty != Action.removeProperty) = true := by decide
        simp only [hrm, if_true]
        cases hfs : findProp nd.props ("status") with
        | none => simp [hfs]
        | some s =>
            simp only [hfs]
            rw [statusClause_eq s (hlq s (findProp_name hfs).2)]
      · intro hp
        have hT : treeFind (treeUpd t np
            (fun nd => { nd with props := nd.props.erase p,
                                 deadprops := p :: nd.deadprops })) np =
            some { nd with props := nd.props.erase p,
                           deadprops := p :: nd.deadprops } := by
          rw [treeFind_upd_self, hf]
          rfl
        have hc : findProp (nd.props.erase p) ("compatible") = none := by
          rw [hcp] at hp
          exact findProp_erase_self hnd hp
        simp only [specDevicePresent, of_find_property, hT, hc]
        simp only [overlayPropDevState, hcp, hcs, Bool.false_eq_true, if_false,
          of_find_property, hf]
        have hrm : (Action.removeProperty != Action.removeProperty) = false := by decide
        simp only [hrm, Bool.false_eq_true, if_false]
        simp
  · intro t np nd hf hprops
    have key : ∀ (t2 : Tree) (nd2 : NodeData), treeFind t2 np = some nd2 →
        nd2.props = [] → specDevicePresent t2 np = false := by
      intro t2 nd2 h2 hp2
      simp [specDevicePresent, of_find_property, h2, hp2, findProp, List.find?]
    constructor
    · simp [overlayNodeDevState, of_find_property, hf, hprops, findProp, List.find?]
    · cases hp : nd.parent with
      | none =>
          have : __of_attach_node t np = t := by
            unfold __of_attach_node
            simp only [hf, hp]
          rw [this]
          exact key t nd hf hprops
      | some par =>
          rw [attach_node_eq t np nd par hf hp]
          by_cases he : np = par
          · subst he
            refine key _ { nd with children := np :: nd.children, detached := false } ?_ ?_
            · rw [treeFind_upd_self, treeFind_upd_self, hf]
              rfl
            · simpa using hprops
          · refine key _ { nd with detached := false } ?_ ?_
            · rw [treeFind_upd_self, treeFind_upd_ne _ _ _ _ he, hf]
              rfl
            · simpa using hprops
  · intro t oft np p op hpn hs
    simp only [__of_transaction_entry_device_state, of_device_is_available, hs, hpn]
    cases htar : (p.value == "okay" || p.value == "ok") <;> simp [htar, hpn]

/-- Witness for C3 amended, at a concrete node carrying only a non-empty
`compatible`: adding `status = "okay"` gives ledger state equal to the
predicate on the post-change tree, and the transaction device-state for the
same add on the bare node 5 is decided by the status value alone. -/
theorem C3_amended_witness :
    treeFind exC3Tree 0 = some exC3Node ∧
    findProp exC3Node.props (exC3Status.name) = none ∧
    overlayPropDevState exC3Tree 0 Action.addProperty exC3Status =
      specDevicePresent
        (treeUpd exC3Tree 0 (fun nd => { nd with props := exC3Status :: nd.props })) 0 ∧
    __of_transaction_entry_device_state exBareSys.tree exOft
        ⟨Action.addProperty, 5, some ⟨31, "status", "okay", 5⟩, none⟩ false =
      (if (((OFProp.mk 31 "status" "okay" 5).value == "okay" ||
            (OFProp.mk 31 "status" "okay" 5).value == "ok")) = true then 1 else -1) :=
  ⟨by decide, by decide,
   (C3_amended.1 exC3Tree 0 exC3Status exC3Node (by decide) (by decide)
     (by decide) (by decide) (Or.inl (by decide))).1 (by decide),
   C3_amended.2.2 exBareSys.tree exOft 5 ⟨31, "status", "okay", 5⟩ none
     (by decide) (by decide)⟩

/-- Counterexample to C1 as stated: applying the fragment that removes the
non-head property `beta` and then reverting does return success, but the
revert re-links the property at the head of the live list, so the
property list order `[alpha, beta]` is not restored (the result is
`[beta, alpha]`): the tree is not structurally equal to the original. -/
theorem C1_counterexample :
    (of_overlay_apply_one allowAll exSys exOvi (some 0) exFragRemove).1 = 0 ∧
    (of_overlay_revert_one allowAll
        (of_overlay_apply_one allowAll exSys exOvi (some 0) exFragRemove).2.1
        (of_overlay_apply_one allowAll exSys exOvi (some 0) exFragRemove).2.2).1.tree
      ≠ exSys.tree := by
  decide

/-- Counterexample to C2 as stated: an `of_overlay_apply` of two entries
whose first succeeds (removing the non-head property `beta`) and whose
second fails (null target) returns the error and rolls back, but the
rolled-back live tree is not byte-identical to the original: the re-added
property sits at the head of the list. -/
theorem C2_counterexample :
    (of_overlay_apply allowAll exSys [exOvi, exOviBad]).1 = EINVAL ∧
    (of_overlay_apply allowAll exSys [exOvi, exOviBad]).2.1.tree ≠ exSys.tree := by
  decide

/-- Counterexample to C3 as stated: a transaction that adds
`status = "okay"` to a node with no `compatible` property computes
device-state 1 (device present, a create event) although the claimed
predicate on the post-apply tree is false (no non-empty `compatible`). -/
theorem C3_counterexample :
    __of_transaction_entry_device_state exBareSys.tree exOft
        ⟨Action.addProperty, 5, some ⟨31, "status", "okay", 5⟩, none⟩ false = 1 ∧
    (of_transaction_apply allowAll exBareSys exOft false).1 = 0 ∧
    specDevicePresent (of_transaction_apply allowAll exBareSys exOft false).2.tree 5
      = false := by
  decide

/-- Counterexample to C4 as stated: in `exReg` the later overlay 1 does
not mention any node of overlay 0's journal (it mentions only node 1,
overlay 0 mentions only node 2), so overlay 0 is topmost-safe in the
claim's exact-mention sense; yet `of_overlay_destroy` refuses it with
`EBUSY`, because the code's check uses subtree containment and node 2 lies
in the subtree of the mentioned node 1. -/
theorem C4_counterexample :
    (match exReg.ov_list.find? (fun ov => ov.ovId == 0) with
     | some ov => specTopmostSafe exReg.ov_list ov
     | none => false) = true ∧
    (of_overlay_destroy allowAll exReg 0).1 = EBUSY := by
  decide

/-! #### C4: overlay removal and the topmost check -/

theorem afterOv_append_not_mem (l1 l2 : List OvRec) (id : Nat)
    (h : id ∉ l1.map OvRec.ovId) :
    afterOv (l1 ++ l2) id = afterOv l2 id := by
  induction l1 with
  | nil => rfl
  | cons o l ih =>
      rw [List.map_cons] at h
      simp only [List.mem_cons, not_or] at h
      have hb : (o.ovId == id) = false := beq_eq_false_iff_ne.mpr (Ne.symm h.1)
      simp only [List.cons_append, afterOv, hb, Bool.false_eq_true, if_false]
      exact ih h.2

theorem afterOv_append_mem (l1 l2 : List OvRec) (id : Nat)
    (h : id ∈ l1.map OvRec.ovId) :
    afterOv (l1 ++ l2) id = afterOv l1 id ++ l2 := by
  induction l1 with
  | nil => simp at h
  | cons o l ih =>
      by_cases hb : (o.ovId == id) = true
      · simp [afterOv, hb]
      · have h2 : id ∈ l.map OvRec.ovId := by
          rw [List.map_cons] at h
          rcases List.mem_cons.mp h with he | hm
          · exact absurd (beq_iff_eq.mpr he.symm) (by simp [hb])
          · exact hm
        simp only [List.cons_append, afterOv, hb, Bool.false_eq_true, if_false]
        exact ih h2

theorem overlay_is_topmost_iff (t : Tree) (reg : List OvRec) (ovId dn : Nat)
    (hnd : (reg.map OvRec.ovId).Nodup) (hmem : ovId ∈ reg.map OvRec.ovId) :
    overlay_is_topmost t reg ovId dn = true ↔
      ∀ ovt ∈ afterOv reg ovId,
        (ovt.tab.any (fun ovi => ovi.le_list.any (fun le =>
          overlay_subtree_check t (t.length + 1) le.np dn))) = false := by
  unfold overlay_is_topmost
  induction reg using List.reverseRecOn with
  | nil => simp at hmem
  | append_singleton l last ih =>
      rw [List.reverse_append, List.reverse_singleton, List.singleton_append]
      rw [List.map_append, List.map_singleton] at hnd hmem
      by_cases hb : (last.ovId == ovId) = true
      · have hii : ovId ∉ l.map OvRec.ovId := by
          intro hin
          have := List.disjoint_of_nodup_append hnd
          exact this hin (by simp [beq_iff_eq.mp hb])
        have ha : afterOv (l ++ [last]) ovId = [] := by
          rw [afterOv_append_not_mem l [last] ovId hii]
          simp [afterOv, hb]
        rw [ha]
        simp [overlay_is_topmost_go, hb]
      · have hm2 : ovId ∈ l.map OvRec.ovId := by
          rcases List.mem_append.mp hmem with hm | hm
          · exact hm
          · rw [List.mem_singleton] at hm
            exact absurd (beq_iff_eq.mpr hm.symm) (by simp [hb])
        have ha : afterOv (l ++ [last]) ovId = afterOv l ovId ++ [last] :=
          afterOv_append_mem l [last] ovId hm2
        rw [ha]
        have hnd2 : (l.map OvRec.ovId).Nodup := (List.nodup_append.mp hnd).1
        simp only [overlay_is_topmost_go, hb, Bool.false_eq_true, if_false]
        by_cases hcl : (last.tab.any (fun ovi => ovi.le_list.any (fun le =>
            overlay_subtree_check t (t.length + 1) le.np dn))) = true
        · simp only [hcl, if_true]
          constructor
          · intro hfalse; cases hfalse
          · intro hall
            have := hall last (by simp)
            rw [this] at hcl
            cases hcl
        · simp only [hcl, Bool.false_eq_true, if_false]
          rw [ih hnd2 hm2]
          constructor
          · intro hall
            intro ovt hm
            rcases List.mem_append.mp hm with hh | hh
            · exact hall ovt hh
            · rw [List.mem_singleton] at hh
              subst hh
              exact Bool.eq_false_iff.mpr (fun hc => hcl (by rw [hc]))
          · intro hall ovt hm
            exact hall ovt (List.mem_append.mpr (Or.inl hm))

/-- C4 amended: `of_overlay_destroy` fails with `ENODEV` on an unknown id;
on a known overlay it succeeds — reverting the overlay's table and
unlinking the registry record — exactly when the code's removal check
passes, and otherwise fails with `EBUSY` leaving the whole state (tree,
registry and id allocator) untouched; and the removal check passes if and
only if, for every node mentioned in the overlay's journal, no strictly
later registry record journals a node whose live subtree contains it
(subtree containment, not exact mention as the claim stated). -/
theorem C4_amended (nf : Notif) (g : GState) (id : Nat) :
    (g.ov_list.find? (fun ov => ov.ovId == id) = none →
      of_overlay_destroy nf g id = (ENODEV, g)) ∧
    (∀ ov, g.ov_list.find? (fun ov => ov.ovId == id) = some ov →
      (overlay_removal_is_ok g.sys.tree g.ov_list ov = false →
        of_overlay_destroy nf g id = (EBUSY, g)) ∧
      (overlay_removal_is_ok g.sys.tree g.ov_list ov = true →
        of_overlay_destroy nf g id =
          (0, { g with sys := (of_overlay_revert nf g.sys ov.tab).1,
                       ov_list := g.ov_list.eraseP (fun o => o.ovId == id) }))) ∧
    (∀ ov, (g.ov_list.map OvRec.ovId).Nodup → ov ∈ g.ov_list →
      (overlay_removal_is_ok g.sys.tree g.ov_list ov = true ↔
        ∀ ovi ∈ ov.tab, ∀ le ∈ ovi.le_list,
        ∀ ovt ∈ afterOv g.ov_list ov.ovId, ∀ ovi2 ∈ ovt.tab,
        ∀ le2 ∈ ovi2.le_list,
          overlay_subtree_check g.sys.tree (g.sys.tree.length + 1) le2.np le.np
            = false)) := by
  refine ⟨?_, ?_, ?_⟩
  · intro h
    unfold of_overlay_destroy
    rw [h]
  · intro ov h
    constructor
    · intro hok
      unfold of_overlay_destroy
      simp only [h, hok, Bool.not_false, if_true]
    · intro hok
      unfold of_overlay_destroy
      simp only [h, hok, Bool.not_true, Bool.false_eq_true, if_false]
  · intro ov hnd hmem
    have hidmem : ov.ovId ∈ g.ov_list.map OvRec.ovId :=
      List.mem_map.mpr ⟨ov, hmem, rfl⟩
    unfold overlay_removal_is_ok
    simp only [List.all_eq_true]
    constructor
    · intro h ovi hovi le hle ovt hovt ovi2 hovi2 le2 hle2
      have h1 := (overlay_is_topmost_iff g.sys.tree g.ov_list ov.ovId le.np
        hnd hidmem).mp (h ovi hovi le hle) ovt hovt
      have h2 := List.any_eq_false.mp h1 ovi2 hovi2
      have h2b : (ovi2.le_list.any (fun le2 =>
          overlay_subtree_check g.sys.tree (g.sys.tree.length + 1) le2.np le.np))
          = false := Bool.eq_false_iff.mpr h2
      have h3 := List.any_eq_false.mp h2b le2 hle2
      exact Bool.eq_false_iff.mpr h3
    · intro h ovi hovi le hle
      rw [overlay_is_topmost_iff g.sys.tree g.ov_list ov.ovId le.np hnd hidmem]
      intro ovt hovt
      rw [List.any_eq_false]
      intro ovi2 hovi2
      simp only [Bool.not_eq_true]
      rw [List.any_eq_false]
      intro le2 hle2
      simp only [Bool.not_eq_true]
      exact h ovi hovi le hle ovt hovt ovi2 hovi2 le2 hle2

/-- Witness for C4 amended at the concrete registry `exReg`: an unknown id
fails with `ENODEV`; destroying overlay 0 (whose journalled node 2 lies
under the later overlay 1's journalled node 1) fails with `EBUSY` and
leaves the state untouched; and the removal check for the topmost overlay
1 passes. -/
theorem C4_amended_witness :
    of_overlay_destroy allowAll exReg 7 = (ENODEV, exReg) ∧
    of_overlay_destroy allowAll exReg 0 = (EBUSY, exReg) ∧
    overlay_removal_is_ok exReg.sys.tree exReg.ov_list exRegB = true :=
  ⟨(C4_amended allowAll exReg 7).1 (by rfl),
   ((C4_amended allowAll exReg 0).2.1 exRegA (by rfl)).1 (by rfl),
   ((C4_amended allowAll exReg 0).2.2 exRegB (by decide)
      (List.mem_cons_of_mem _ (List.mem_cons_self _ _))).mpr (by decide)⟩

/-- Counterexample to C5 as stated: create the single overlay removing the
non-head property `beta`, then `of_overlay_destroy_all`; the final tree is
not equal to the initial tree (the property list order changed). -/
theorem C5_counterexample :
    (of_overlay_create allowAll ⟨exSys, [], 0⟩ [exOvi]).1 = 0 ∧
    (of_overlay_destroy_all allowAll
        (of_overlay_create allowAll ⟨exSys, [], 0⟩ [exOvi]).2).2.sys.tree
      ≠ exSys.tree := by
  decide

/-! #### The overlay round trip: notifier and store preliminaries -/

theorem of_property_notify_allowAll (t : Tree) (a : Action) (np : Nat)
    (p : OFProp) : of_property_notify allowAll t a np p = 0 := by
  unfold of_property_notify allowAll
  cases treeFind t np <;> simp

theorem of_add_property_allowAll (t : Tree) (np : Nat) (p : OFProp) :
    of_add_property allowAll t np p = __of_add_property t np p := by
  unfold of_add_property
  rw [of_property_notify_allowAll]
  simp

theorem of_remove_property_allowAll (t : Tree) (np : Nat) (p : OFProp) :
    of_remove_property allowAll t np p = __of_remove_property t np p := by
  unfold of_remove_property
  rw [of_property_notify_allowAll]
  simp

theorem of_update_property_allowAll (t : Tree) (np : Nat) (pn : OFProp) :
    of_update_property allowAll t np pn =
      ((__of_update_property t np pn).1, (__of_update_property t np pn).2.2) := by
  unfold of_update_property
  rw [of_property_notify_allowAll]
  simp

theorem of_attach_node_allowAll (t : Tree) (np : Nat) :
    of_attach_node allowAll t np = (0, __of_attach_node t np) := by
  simp [of_attach_node, of_reconfig_notify, allowAll]

theorem of_detach_node_allowAll (t : Tree) (np : Nat) :
    of_detach_node allowAll t np = (0, __of_detach_node t np) := by
  simp [of_detach_node, of_reconfig_notify, allowAll]

theorem treeFind_mem {t : Tree} {id : Nat} {nd : NodeData}
    (h : treeFind t id = some nd) : (id, nd) ∈ t := by
  unfold treeFind at h
  cases hf : t.find? (fun p => p.1 == id) with
  | none => rw [hf] at h; cases h
  | some q =>
      rw [hf] at h
      have h1 := List.find?_some hf
      have h2 := List.mem_of_find?_eq_some hf
      have h3 : q.2 = nd := by simpa using h
      have h4 : q.1 = id := beq_iff_eq.mp h1
      have : q = (id, nd) := by
        cases q
        simp only [Prod.mk.injEq]
        exact ⟨h4, h3⟩
      rw [← this]
      exact h2

theorem treeFind_none_keys {t : Tree} {id : Nat} (h : treeFind t id = none) :
    ∀ p ∈ t, ¬ p.1 = id := by
  unfold treeFind at h
  have h0 : t.find? (fun p => p.1 == id) = none := by
    cases hf : t.find? (fun p => p.1 == id) with
    | none => rfl
    | some q => rw [hf] at h; cases h
  intro p hp
  have := List.find?_eq_none.mp h0 p hp
  simpa using this

theorem treeFind_isSome_of_mem {t : Tree} {p : Nat × NodeData} (hp : p ∈ t) :
    ∃ nd, treeFind t p.1 = some nd := by
  cases hf : treeFind t p.1 with
  | none => exact absurd rfl (treeFind_none_keys hf p hp)
  | some nd => exact ⟨nd, rfl⟩

theorem treeFind_eq_none_of_lt {t : Tree} {n : Nat}
    (h : ∀ p ∈ t, p.1 < n) : treeFind t n = none := by
  have h0 : t.find? (fun p => p.1 == n) = none := by
    rw [List.find?_eq_none]
    intro p hp
    simp [Nat.ne_of_lt (h p hp)]
  simp [treeFind, h0]

theorem mem_eq_of_keys_nodup {t : Tree} (hk : WFkeys t) {p : Nat × NodeData}
    (hp : p ∈ t) {nd : NodeData} (hf : treeFind t p.1 = some nd) : p.2 = nd := by
  induction t with
  | nil => cases hp
  | cons a t ih =>
      rw [WFkeys, List.map_cons, List.nodup_cons] at hk
      rcases List.mem_cons.mp hp with he | hm
      · subst he
        rw [treeFind_cons, if_pos (by simp)] at hf
        exact Option.some_inj.mp hf
      · have hne : ¬ (a.1 == p.1) = true := by
          intro hb
          exact hk.1 (beq_iff_eq.mp hb ▸ List.mem_map.mpr ⟨p, hm, rfl⟩)
        rw [treeFind_cons, if_neg hne] at hf
        exact ih hk.2 hm hf

theorem mem_treeUpd {t : Tree} {np : Nat} {f : NodeData → NodeData}
    {p : Nat × NodeData} (hp : p ∈ treeUpd t np f) :
    ∃ nd, (p.1, nd) ∈ t ∧ p.2 = (if p.1 = np then f nd else nd) := by
  unfold treeUpd at hp
  obtain ⟨q, hq, he⟩ := List.mem_map.mp hp
  by_cases h : (q.1 == np) = true
  · rw [if_pos h] at he
    refine ⟨q.2, ?_, ?_⟩
    · rw [← he]
      simpa using hq
    · rw [← he]
      simp [beq_iff_eq.mp h]
  · rw [if_neg h] at he
    refine ⟨q.2, ?_, ?_⟩
    · rw [← he]
      simpa using hq
    · rw [← he, if_neg (by simpa using h)]

theorem treeUpd_mem {t : Tree} {np : Nat} {f : NodeData → NodeData}
    {q : Nat × NodeData} (hq : q ∈ t) :
    (q.1, if q.1 = np then f q.2 else q.2) ∈ treeUpd t np f := by
  unfold treeUpd
  by_cases h : (q.1 == np) = true
  · have : (q.1, if q.1 = np then f q.2 else q.2) = (q.1, f q.2) := by
      rw [if_pos (beq_iff_eq.mp h)]
    rw [this]
    refine List.mem_map.mpr ⟨q, hq, ?_⟩
    rw [if_pos h]
  · have : (q.1, if q.1 = np then f q.2 else q.2) = q := by
      rw [if_neg (by simpa using h)]
    rw [this]
    refine List.mem_map.mpr ⟨q, hq, ?_⟩
    rw [if_neg h]

theorem treeUpd_keys (t : Tree) (np : Nat) (f : NodeData → NodeData) :
    (treeUpd t np f).map (fun p => p.1) = t.map (fun p => p.1) := by
  unfold treeUpd
  rw [List.map_map]
  refine List.map_congr_left (fun q _ => ?_)
  by_cases h : (q.1 == np) = true <;> simp [Function.comp, h]

/-! #### Multiset transfer lemmas for property lists -/

theorem mem_of_coe_eq {α : Type} {l1 l2 : List α}
    (h : (l1 : Multiset α) = (l2 : Multiset α)) {x : α} (hx : x ∈ l2) :
    x ∈ l1 :=
  (Multiset.coe_eq_coe.mp h).mem_iff.mpr hx

theorem findProp_none_of_perm {l1 l2 : List OFProp} {n : String}
    (h : (l1 : Multiset OFProp) = (l2 : Multiset OFProp))
    (hn : findProp l2 n = none) : findProp l1 n = none := by
  rw [findProp_eq_none] at hn ⊢
  intro q hq
  exact hn q ((Multiset.coe_eq_coe.mp h).mem_iff.mp hq)

theorem findProp_some_unique {l : List OFProp} {n : String} {x q : OFProp}
    (hnd : (l.map OFProp.name).Nodup) (hf : findProp l n = some x)
    (hq : q ∈ l) (hqn : q.name = n) : q = x := by
  induction l with
  | nil => cases hq
  | cons r l ih =>
      rw [List.map_cons, List.nodup_cons] at hnd
      by_cases hr : (r.name == n) = true
      · rw [findProp_cons, if_pos hr] at hf
        rcases List.mem_cons.mp hq with he | hm
        · rw [he]; exact Option.some_inj.mp hf
        · have hmem : n ∈ l.map OFProp.name := List.mem_map.mpr ⟨q, hm, hqn⟩
          have hrn : r.name = n := beq_iff_eq.mp hr
          exact absurd hmem (hrn ▸ hnd.1)
      · rw [findProp_cons, if_neg hr] at hf
        rcases List.mem_cons.mp hq with he | hm
        · exact absurd (he ▸ hqn) (by simpa using hr)
        · exact ih hnd.2 hf hm

theorem findProp_some_of_perm {l1 l2 : List OFProp} {n : String} {x : OFProp}
    (h : (l1 : Multiset OFProp) = (l2 : Multiset OFProp))
    (hnd : (l2.map OFProp.name).Nodup) (hf : findProp l2 n = some x) :
    findProp l1 n = some x := by
  cases hc : findProp l1 n with
  | none =>
      have hx1 : x ∈ l1 :=
        (Multiset.coe_eq_coe.mp h).mem_iff.mpr (findProp_name hf).2
      exact absurd (findProp_name hf).1 (findProp_eq_none.mp hc x hx1)
  | some q =>
      have hq := findProp_name hc
      have hq2 : q ∈ l2 := (Multiset.coe_eq_coe.mp h).mem_iff.mp hq.2
      rw [findProp_some_unique hnd hf hq2 hq.1]

theorem names_nodup_of_perm {l1 l2 : List OFProp}
    (h : (l1 : Multiset OFProp) = (l2 : Multiset OFProp))
    (hnd : (l2.map OFProp.name).Nodup) : (l1.map OFProp.name).Nodup :=
  (((Multiset.coe_eq_coe.mp h).map OFProp.name).nodup_iff).mpr hnd

theorem names_nodup_erase {l : List OFProp} (q : OFProp)
    (hnd : (l.map OFProp.name).Nodup) : ((l.erase q).map OFProp.name).Nodup :=
  hnd.sublist ((l.erase_sublist q).map OFProp.name)

theorem names_replaceNamed {l : List OFProp} {n : String} {pn : OFProp}
    (hn : pn.name = n) :
    (replaceNamed l n pn).map OFProp.name = l.map OFProp.name := by
  induction l with
  | nil => rfl
  | cons q l ih =>
      by_cases hq : (q.name == n) = true
      · simp [replaceNamed, hq, hn, beq_iff_eq.mp hq]
      · simp [replaceNamed, hq, ih]

theorem replaceNamed_perm {l : List OFProp} {n : String} {x : OFProp}
    (pn : OFProp) (hf : findProp l n = some x) :
    ((replaceNamed l n pn : List OFProp) : Multiset OFProp) =
      pn ::ₘ ((l : Multiset OFProp).erase x) := by
  induction l with
  | nil => simp [findProp, List.find?] at hf
  | cons q l ih =>
      by_cases hq : (q.name == n) = true
      · have hx : q = x := by
          rw [findProp_cons, if_pos hq] at hf
          exact Option.some_inj.mp hf
        subst hx
        simp only [replaceNamed, hq, if_true, ← Multiset.cons_coe,
          Multiset.erase_cons_head]
      · rw [findProp_cons, if_neg hq] at hf
        have hqx : q ≠ x := by
          intro he
          have hxn := (findProp_name hf).1
          rw [← he] at hxn
          exact absurd hxn (by simpa using hq)
        simp only [replaceNamed, hq, Bool.false_eq_true, if_false,
          ← Multiset.cons_coe, ih hf, Multiset.erase_cons_tail _ hqx,
          Multiset.cons_swap]

/-! #### The restoration relation -/

theorem Rel_refl (t : Tree) : Rel t t := by
  constructor
  · intro id nd0 h
    exact ⟨nd0, h, rfl, rfl, rfl, rfl, rfl, rfl, rfl, rfl, 0, by simp⟩
  · intro id nd h h0
    rw [h0] at h
    cases h

/-! #### Lookup computations for the node operations -/

theorem attach_lookup_new {t : Tree} {newid par : Nat} {ndNew : NodeData}
    (hfresh : treeFind t newid = none) (hne : newid ≠ par) :
    treeFind (treeUpd (treeUpd (treeIns t newid ndNew) par
        (fun ndp => { ndp with children := newid :: ndp.children }))
      newid (fun ndn => { ndn with detached := false })) newid =
      some { ndNew with detached := false } := by
  rw [treeFind_upd_self, treeFind_upd_ne _ _ _ _ hne,
    treeFind_ins_fresh _ _ _ hfresh]
  rfl

theorem attach_lookup_par {t : Tree} {newid par : Nat} {ndNew ndPar : NodeData}
    (hpar : treeFind t par = some ndPar) (hne : newid ≠ par) :
    treeFind (treeUpd (treeUpd (treeIns t newid ndNew) par
        (fun ndp => { ndp with children := newid :: ndp.children }))
      newid (fun ndn => { ndn with detached := false })) par =
      some { ndPar with children := newid :: ndPar.children } := by
  rw [treeFind_upd_ne _ _ _ _ (fun h => hne h.symm), treeFind_upd_self,
    treeFind_ins_ne _ _ _ _ (fun h => hne h.symm), hpar]
  rfl

theorem attach_lookup_other {t : Tree} {newid par : Nat} {ndNew : NodeData}
    (c : Nat) (hc1 : ¬ c = newid) (hc2 : ¬ c = par) :
    treeFind (treeUpd (treeUpd (treeIns t newid ndNew) par
        (fun ndp => { ndp with children := newid :: ndp.children }))
      newid (fun ndn => { ndn with detached := false })) c = treeFind t c := by
  rw [treeFind_upd_ne _ _ _ _ hc1, treeFind_upd_ne _ _ _ _ hc2,
    treeFind_ins_ne _ _ _ _ hc1]

theorem detach_lookup_tc {t : Tree} {tc par : Nat} {nd : NodeData}
    (htc : treeFind t tc = some nd) (hne : tc ≠ par) :
    treeFind (treeUpd (treeUpd t par
        (fun ndp => { ndp with children := ndp.children.erase tc }))
      tc (fun ndn => { ndn with detached := true })) tc =
      some { nd with detached := true } := by
  rw [treeFind_upd_self, treeFind_upd_ne _ _ _ _ hne, htc]
  rfl

theorem detach_lookup_par {t : Tree} {tc par : Nat} {ndPar : NodeData}
    (hpar : treeFind t par = some ndPar) (hne : tc ≠ par) :
    treeFind (treeUpd (treeUpd t par
        (fun ndp => { ndp with children := ndp.children.erase tc }))
      tc (fun ndn => { ndn with detached := true })) par =
      some { ndPar with children := ndPar.children.erase tc } := by
  rw [treeFind_upd_ne _ _ _ _ (fun h => hne h.symm), treeFind_upd_self, hpar]
  rfl

theorem detach_lookup_other {t : Tree} {tc par : Nat}
    (c : Nat) (hc1 : ¬ c = tc) (hc2 : ¬ c = par) :
    treeFind (treeUpd (treeUpd t par
        (fun ndp => { ndp with children := ndp.children.erase tc }))
      tc (fun ndn => { ndn with detached := true })) c = treeFind t c := by
  rw [treeFind_upd_ne _ _ _ _ hc1, treeFind_upd_ne _ _ _ _ hc2]

/-! #### Preservation of the invariants by the journalled edits -/

theorem wfkeys_upd (t : Tree) (np : Nat) (f : NodeData → NodeData)
    (hk : WFkeys t) : WFkeys (treeUpd t np f) := by
  unfold WFkeys
  rw [treeUpd_keys]
  exact hk

theorem wfnames_upd_props {t : Tree} {np : Nat} {f : NodeData → NodeData}
    {nd0 : NodeData} (hk : WFkeys t) (hfind : treeFind t np = some nd0)
    (hnew : ((f nd0).props.map OFProp.name).Nodup) (hw : WFnames t) :
    WFnames (treeUpd t np f) := by
  intro p hp
  obtain ⟨nd, hmem, he⟩ := mem_treeUpd hp
  by_cases h : p.1 = np
  · have hnd : nd = nd0 :=
      mem_eq_of_keys_nodup hk hmem
        (show treeFind t p.1 = some nd0 by rw [h]; exact hfind)
    rw [he, if_pos h, hnd]
    exact hnew
  · rw [he, if_neg h]
    exact hw (p.1, nd) hmem

theorem wfnames_upd_keep {t : Tree} {np : Nat} {f : NodeData → NodeData}
    (hf : ∀ nd, (f nd).props = nd.props) (hw : WFnames t) :
    WFnames (treeUpd t np f) := by
  intro p hp
  obtain ⟨nd, hmem, he⟩ := mem_treeUpd hp
  by_cases h : p.1 = np
  · rw [he, if_pos h, hf]
    exact hw (p.1, nd) hmem
  · rw [he, if_neg h]
    exact hw (p.1, nd) hmem

theorem wfchildren_upd_keep {t : Tree} {np : Nat} {f : NodeData → NodeData}
    (hf : ∀ nd, (f nd).children = nd.children ∧ (f nd).parent = nd.parent ∧
      (f nd).detached = nd.detached)
    (hw : WFchildren t) : WFchildren (treeUpd t np f) := by
  intro p hp
  obtain ⟨nd, hmem, he⟩ := mem_treeUpd hp
  have hch : p.2.children = nd.children := by
    by_cases h : p.1 = np
    · rw [he, if_pos h]; exact (hf nd).1
    · rw [he, if_neg h]
  obtain ⟨hnd1, hnd2⟩ := hw (p.1, nd) hmem
  rw [hch]
  refine ⟨hnd1, fun c hc => ?_⟩
  obtain ⟨hcp, ndc, hfc, hpar, hdet⟩ := hnd2 c hc
  refine ⟨hcp, ?_⟩
  by_cases h : c = np
  · refine ⟨f ndc, ?_, ?_, ?_⟩
    · rw [h, treeFind_upd_self, ← h, hfc]; rfl
    · rw [(hf ndc).2.1]; exact hpar
    · rw [(hf ndc).2.2]; exact hdet
  · exact ⟨ndc, by rw [treeFind_upd_ne _ _ _ _ h]; exact hfc, hpar, hdet⟩

theorem wfonce_upd_keep {t : Tree} {np : Nat} {f : NodeData → NodeData}
    (hf : ∀ nd, (f nd).children = nd.children) (hw : WFonce t) :
    WFonce (treeUpd t np f) := by
  intro p1 hp1 p2 hp2 c hc1 hc2
  obtain ⟨nd1, hm1, he1⟩ := mem_treeUpd hp1
  obtain ⟨nd2, hm2, he2⟩ := mem_treeUpd hp2
  have hc1' : c ∈ nd1.children := by
    by_cases h : p1.1 = np
    · rw [he1, if_pos h, hf] at hc1; exact hc1
    · rw [he1, if_neg h] at hc1; exact hc1
  have hc2' : c ∈ nd2.children := by
    by_cases h : p2.1 = np
    · rw [he2, if_pos h, hf] at hc2; exact hc2
    · rw [he2, if_neg h] at hc2; exact hc2
  exact hw (p1.1, nd1) hm1 (p2.1, nd2) hm2 c hc1' hc2'

theorem wft_upd_props {t : Tree} {np : Nat} {f : NodeData → NodeData}
    {nd0 : NodeData} (hfind : treeFind t np = some nd0)
    (hkeep : ∀ nd, (f nd).children = nd.children ∧ (f nd).parent = nd.parent ∧
      (f nd).detached = nd.detached)
    (hnew : ((f nd0).props.map OFProp.name).Nodup)
    (hw : WFt t) : WFt (treeUpd t np f) :=
  ⟨wfkeys_upd t np f hw.1,
   wfnames_upd_props hw.1 hfind hnew hw.2.1,
   wfchildren_upd_keep hkeep hw.2.2.1,
   wfonce_upd_keep (fun nd => (hkeep nd).1) hw.2.2.2⟩

theorem mem_attach_cases {t : Tree} {newid par : Nat} {ndNew : NodeData}
    (hfresh : treeFind t newid = none) (hne : newid ≠ par)
    {p : Nat × NodeData}
    (hp : p ∈ treeUpd (treeUpd (treeIns t newid ndNew) par
        (fun ndp => { ndp with children := newid :: ndp.children }))
      newid (fun ndn => { ndn with detached := false })) :
    (p.1 = newid ∧ p.2 = { ndNew with detached := false }) ∨
    (p.1 = par ∧ ∃ nd, (par, nd) ∈ t ∧
      p.2 = { nd with children := newid :: nd.children }) ∨
    (¬ p.1 = newid ∧ ¬ p.1 = par ∧ (p.1, p.2) ∈ t) := by
  obtain ⟨nd1, hm1, he1⟩ := mem_treeUpd hp
  obtain ⟨nd2, hm2, he2⟩ := mem_treeUpd hm1
  rcases List.mem_append.mp hm2 with hbase | hnew
  · by_cases h1 : p.1 = newid
    · exact absurd h1 (treeFind_none_keys hfresh (p.1, nd2) hbase)
    · by_cases h2 : p.1 = par
      · refine Or.inr (Or.inl ⟨h2, nd2, ?_, ?_⟩)
        · rw [← h2]; exact hbase
        · have he2' : nd1 = if p.1 = par then
              { nd2 with children := newid :: nd2.children } else nd2 := he2
          rw [he1, if_neg h1, he2', if_pos h2]
      · refine Or.inr (Or.inr ⟨h1, h2, ?_⟩)
        have he2' : nd1 = if p.1 = par then
            { nd2 with children := newid :: nd2.children } else nd2 := he2
        have hp2 : p.2 = nd2 := by rw [he1, if_neg h1, he2', if_neg h2]
        rw [hp2]; exact hbase
  · have hpair : p.1 = newid ∧ nd2 = ndNew := by
      have := List.mem_singleton.mp hnew
      exact ⟨congrArg Prod.fst this, congrArg Prod.snd this⟩
    refine Or.inl ⟨hpair.1, ?_⟩
    have hnp : ¬ p.1 = par := by rw [hpair.1]; exact hne
    have he2' : nd1 = if p.1 = par then
        { nd2 with children := newid :: nd2.children } else nd2 := he2
    rw [he1, if_pos hpair.1, he2', if_neg hnp, hpair.2]

theorem mem_detach_cases {t : Tree} {tc par : Nat} (hne : tc ≠ par)
    {p : Nat × NodeData}
    (hp : p ∈ treeUpd (treeUpd t par
        (fun ndp => { ndp with children := ndp.children.erase tc }))
      tc (fun ndn => { ndn with detached := true })) :
    (p.1 = tc ∧ ∃ nd, (tc, nd) ∈ t ∧ p.2 = { nd with detached := true }) ∨
    (p.1 = par ∧ ∃ nd, (par, nd) ∈ t ∧
      p.2 = { nd with children := nd.children.erase tc }) ∨
    (¬ p.1 = tc ∧ ¬ p.1 = par ∧ (p.1, p.2) ∈ t) := by
  obtain ⟨nd1, hm1, he1⟩ := mem_treeUpd hp
  obtain ⟨nd2, hm2, he2⟩ := mem_treeUpd hm1
  have he2' : nd1 = if p.1 = par then
      { nd2 with children := nd2.children.erase tc } else nd2 := he2
  by_cases h1 : p.1 = tc
  · have hnp : ¬ p.1 = par := by rw [h1]; exact hne
    refine Or.inl ⟨h1, nd2, ?_, ?_⟩
    · rw [← h1]; exact hm2
    · rw [he1, if_pos h1, he2', if_neg hnp]
  · by_cases h2 : p.1 = par
    · refine Or.inr (Or.inl ⟨h2, nd2, ?_, ?_⟩)
      · rw [← h2]; exact hm2
      · rw [he1, if_neg h1, he2', if_pos h2]
    · refine Or.inr (Or.inr ⟨h1, h2, ?_⟩)
      have hp2 : p.2 = nd2 := by rw [he1, if_neg h1, he2', if_neg h2]
      rw [hp2]; exact hm2

theorem attach_children_newid {t : Tree} {newid par : Nat} {ndNew : NodeData}
    (hfresh : treeFind t newid = none) (hne : newid ≠ par)
    (hch : ndNew.children = []) (hc : WFchildren t)
    {p : Nat × NodeData}
    (hp : p ∈ treeUpd (treeUpd (treeIns t newid ndNew) par
        (fun ndp => { ndp with children := newid :: ndp.children }))
      newid (fun ndn => { ndn with detached := false }))
    (hmem : newid ∈ p.2.children) : p.1 = par := by
  rcases mem_attach_cases hfresh hne hp with ⟨h1, h2⟩ | ⟨h1, nd, hm, h2⟩ |
    ⟨h1, h2, h3⟩
  · rw [h2] at hmem
    have hcn : ({ ndNew with detached := false } : NodeData).children = [] := hch
    rw [hcn] at hmem
    cases hmem
  · exact h1
  · obtain ⟨_, ndc, hfc, _, _⟩ := (hc (p.1, p.2) h3).2 newid hmem
    rw [hfresh] at hfc
    cases hfc

theorem attach_children_base {t : Tree} {newid par : Nat} {ndNew : NodeData}
    (hfresh : treeFind t newid = none) (hne : newid ≠ par)
    (hch : ndNew.children = [])
    {p : Nat × NodeData}
    (hp : p ∈ treeUpd (treeUpd (treeIns t newid ndNew) par
        (fun ndp => { ndp with children := newid :: ndp.children }))
      newid (fun ndn => { ndn with detached := false }))
    {c : Nat} (hcm : c ∈ p.2.children) (hcne : ¬ c = newid) :
    ∃ nd, (p.1, nd) ∈ t ∧ c ∈ nd.children := by
  rcases mem_attach_cases hfresh hne hp with ⟨h1, h2⟩ | ⟨h1, nd, hm, h2⟩ |
    ⟨h1, h2, h3⟩
  · rw [h2] at hcm
    have hcn : ({ ndNew with detached := false } : NodeData).children = [] := hch
    rw [hcn] at hcm
    cases hcm
  · rw [h2] at hcm
    have hcm2 : c ∈ newid :: nd.children := hcm
    rcases List.mem_cons.mp hcm2 with he | hcm3
    · exact absurd he hcne
    · exact ⟨nd, by rw [h1]; exact hm, hcm3⟩
  · exact ⟨p.2, h3, hcm⟩

theorem detach_children_base {t : Tree} {tc par : Nat} (hne : tc ≠ par)
    {p : Nat × NodeData}
    (hp : p ∈ treeUpd (treeUpd t par
        (fun ndp => { ndp with children := ndp.children.erase tc }))
      tc (fun ndn => { ndn with detached := true }))
    {c : Nat} (hcm : c ∈ p.2.children) :
    ∃ nd, (p.1, nd) ∈ t ∧ c ∈ nd.children := by
  rcases mem_detach_cases hne hp with ⟨h1, nd, hm, h2⟩ | ⟨h1, nd, hm, h2⟩ |
    ⟨h1, h2, h3⟩
  · rw [h2] at hcm
    exact ⟨nd, by rw [h1]; exact hm, hcm⟩
  · rw [h2] at hcm
    have hcm2 : c ∈ nd.children.erase tc := hcm
    exact ⟨nd, by rw [h1]; exact hm, List.mem_of_mem_erase hcm2⟩
  · exact ⟨p.2, h3, hcm⟩

theorem attach_wft {t : Tree} {newid par : Nat} {ndNew ndPar : NodeData}
    (hfresh : treeFind t newid = none) (hpar : treeFind t par = some ndPar)
    (hne : newid ≠ par) (hp : ndNew.parent = some par)
    (hprops : ndNew.props = []) (hch : ndNew.children = [])
    (hw : WFt t) :
    WFt (treeUpd (treeUpd (treeIns t newid ndNew) par
        (fun ndp => { ndp with children := newid :: ndp.children }))
      newid (fun ndn => { ndn with detached := false })) := by
  obtain ⟨hk, hn, hc, ho⟩ := hw
  refine ⟨?_, ?_, ?_, ?_⟩
  · unfold WFkeys
    rw [treeUpd_keys, treeUpd_keys]
    unfold treeIns
    rw [List.map_append, List.nodup_append]
    refine ⟨hk, List.nodup_singleton _, ?_⟩
    intro a ha hb
    have hb' : a = newid := by simpa using hb
    obtain ⟨q, hq, he⟩ := List.mem_map.mp ha
    exact treeFind_none_keys hfresh q hq (he.trans hb')
  · intro p hpm
    rcases mem_attach_cases hfresh hne hpm with ⟨h1, h2⟩ | ⟨h1, nd, hm, h2⟩ |
      ⟨h1, h2, h3⟩
    · rw [h2]
      have hpn : ({ ndNew with detached := false } : NodeData).props = [] := hprops
      rw [hpn]
      exact List.nodup_nil
    · rw [h2]
      exact hn (par, nd) hm
    · exact hn (p.1, p.2) h3
  · intro p hpm
    rcases mem_attach_cases hfresh hne hpm with ⟨h1, h2⟩ | ⟨h1, nd, hm, h2⟩ |
      ⟨h1, h2, h3⟩
    · have hcn : ({ ndNew with detached := false } : NodeData).children = [] := hch
      rw [h2, hcn]
      exact ⟨List.nodup_nil, fun c hcm => absurd hcm (List.not_mem_nil c)⟩
    · have hnd : nd = ndPar := mem_eq_of_keys_nodup hk hm hpar
      subst hnd
      rw [h2, h1]
      obtain ⟨hpc1, hpc2⟩ := hc (par, nd) hm
      constructor
      · refine List.nodup_cons.mpr ⟨?_, hpc1⟩
        intro hmem
        obtain ⟨_, ndc, hfc, _, _⟩ := hpc2 newid hmem
        rw [hfresh] at hfc
        cases hfc
      · intro c hcm
        rcases List.mem_cons.mp hcm with he | hcm2
        · subst he
          refine ⟨hne, { ndNew with detached := false }, ?_, ?_, rfl⟩
          · exact attach_lookup_new hfresh hne
          · exact hp
        · obtain ⟨hcp, ndc, hfc, hcpar, hcdet⟩ := hpc2 c hcm2
          refine ⟨hcp, ndc, ?_, hcpar, hcdet⟩
          have hcnew : ¬ c = newid := fun he => by
            rw [he, hfresh] at hfc; cases hfc
          rw [attach_lookup_other c hcnew hcp]
          exact hfc
    · obtain ⟨hnd1, hnd2⟩ := hc (p.1, p.2) h3
      refine ⟨hnd1, fun c hcm => ?_⟩
      obtain ⟨hcp, ndc, hfc, hcpar, hcdet⟩ := hnd2 c hcm
      have hcnew : ¬ c = newid := fun he => by
        rw [he, hfresh] at hfc; cases hfc
      by_cases hcpar2 : c = par
      · have hndc : ndc = ndPar := by
          rw [hcpar2] at hfc
          rw [hfc] at hpar
          exact Option.some_inj.mp hpar
        refine ⟨hcp, { ndPar with children := newid :: ndPar.children }, ?_, ?_, ?_⟩
        · rw [hcpar2]
          exact attach_lookup_par hpar hne
        · exact hndc ▸ hcpar
        · exact hndc ▸ hcdet
      · refine ⟨hcp, ndc, ?_, hcpar, hcdet⟩
        rw [attach_lookup_other c hcnew hcpar2]
        exact hfc
  · intro p1 hp1 p2 hp2 c hc1 hc2
    by_cases hcnew : c = newid
    · subst hcnew
      rw [attach_children_newid hfresh hne hch hc hp1 hc1,
        attach_children_newid hfresh hne hch hc hp2 hc2]
    · obtain ⟨nd1, hm1, hc1'⟩ := attach_children_base hfresh hne hch hp1 hc1 hcnew
      obtain ⟨nd2, hm2, hc2'⟩ := attach_children_base hfresh hne hch hp2 hc2 hcnew
      exact ho (p1.1, nd1) hm1 (p2.1, nd2) hm2 c hc1' hc2'

theorem detach_wft {t : Tree} {tc par : Nat} {nd ndPar : NodeData}
    (htc : treeFind t tc = some nd) (hpar : treeFind t par = some ndPar)
    (hne : tc ≠ par) (hmemc : tc ∈ ndPar.children)
    (hw : WFt t) :
    WFt (treeUpd (treeUpd t par
        (fun ndp => { ndp with children := ndp.children.erase tc }))
      tc (fun ndn => { ndn with detached := true })) := by
  obtain ⟨hk, hn, hc, ho⟩ := hw
  refine ⟨?_, ?_, ?_, ?_⟩
  · exact wfkeys_upd _ _ _ (wfkeys_upd _ _ _ hk)
  · exact wfnames_upd_keep (fun nd' => rfl)
      (wfnames_upd_keep (fun nd' => rfl) hn)
  · intro p hpm
    rcases mem_detach_cases hne hpm with ⟨h1, nd', hm, h2⟩ | ⟨h1, nd', hm, h2⟩ |
      ⟨h1, h2, h3⟩
    · rw [h2, h1]
      obtain ⟨hpc1, hpc2⟩ := hc (tc, nd') hm
      refine ⟨hpc1, fun c hcm => ?_⟩
      obtain ⟨hcp, ndc, hfc, hcpar, hcdet⟩ := hpc2 c hcm
      refine ⟨hcp, ?_⟩
      by_cases hcpar2 : c = par
      · have hndc : ndc = ndPar := by
          rw [hcpar2] at hfc
          rw [hfc] at hpar
          exact Option.some_inj.mp hpar
        refine ⟨{ ndPar with children := ndPar.children.erase tc }, ?_, ?_, ?_⟩
        · rw [hcpar2]
          exact detach_lookup_par hpar hne
        · exact hndc ▸ hcpar
        · exact hndc ▸ hcdet
      · refine ⟨ndc, ?_, hcpar, hcdet⟩
        rw [detach_lookup_other c hcp hcpar2]
        exact hfc
    · rw [h2, h1]
      obtain ⟨hpc1, hpc2⟩ := hc (par, nd') hm
      refine ⟨hpc1.sublist (nd'.children.erase_sublist tc), fun c hcm => ?_⟩
      have hcm2 := (List.Nodup.mem_erase_iff hpc1).mp hcm
      obtain ⟨hcp, ndc, hfc, hcpar, hcdet⟩ := hpc2 c hcm2.2
      refine ⟨hcp, ndc, ?_, hcpar, hcdet⟩
      rw [detach_lookup_other c hcm2.1 hcp]
      exact hfc
    · obtain ⟨hnd1, hnd2⟩ := hc (p.1, p.2) h3
      refine ⟨hnd1, fun c hcm => ?_⟩
      obtain ⟨hcp, ndc, hfc, hcpar, hcdet⟩ := hnd2 c hcm
      have hctc : ¬ c = tc := by
        intro he
        subst he
        exact h2 (ho (p.1, p.2) h3 (par, ndPar) (treeFind_mem hpar) c hcm hmemc)
      refine ⟨hcp, ?_⟩
      by_cases hcpar2 : c = par
      · have hndc : ndc = ndPar := by
          rw [hcpar2] at hfc
          rw [hfc] at hpar
          exact Option.some_inj.mp hpar
        refine ⟨{ ndPar with children := ndPar.children.erase tc }, ?_, ?_, ?_⟩
        · rw [hcpar2]
          exact detach_lookup_par hpar hne
        · exact hndc ▸ hcpar
        · exact hndc ▸ hcdet
      · refine ⟨ndc, ?_, hcpar, hcdet⟩
        rw [detach_lookup_other c hctc hcpar2]
        exact hfc
  · intro p1 hp1 p2 hp2 c hc1 hc2
    obtain ⟨nd1, hm1, hc1'⟩ := detach_children_base hne hp1 hc1
    obtain ⟨nd2, hm2, hc2'⟩ := detach_children_base hne hp2 hc2
    exact ho (p1.1, nd1) hm1 (p2.1, nd2) hm2 c hc1' hc2'

theorem estep_wft {t t1 : Tree} {e : LogEntry} (hs : EStep t e t1)
    (hw : WFt t) : WFt t1 := by
  cases hs with
  | add np p nd hfind hnone =>
      refine wft_upd_props hfind (fun nd' => ⟨rfl, rfl, rfl⟩) ?_ hw
      show ((p :: nd.props).map OFProp.name).Nodup
      rw [List.map_cons, List.nodup_cons]
      refine ⟨?_, hw.2.1 (np, nd) (treeFind_mem hfind)⟩
      intro hmem
      obtain ⟨q, hq, he⟩ := List.mem_map.mp hmem
      exact (findProp_eq_none.mp hnone q hq) he
  | remove np p nd hfind hfp =>
      refine wft_upd_props hfind (fun nd' => ⟨rfl, rfl, rfl⟩) ?_ hw
      show ((nd.props.erase p).map OFProp.name).Nodup
      exact names_nodup_erase p (hw.2.1 (np, nd) (treeFind_mem hfind))
  | update np pn pold nd hfind hfp =>
      refine wft_upd_props hfind (fun nd' => ⟨rfl, rfl, rfl⟩) ?_ hw
      show ((replaceNamed nd.props pn.name pn).map OFProp.name).Nodup
      rw [names_replaceNamed rfl]
      exact hw.2.1 (np, nd) (treeFind_mem hfind)
  | attach newid ndNew par ndPar hfresh hpar hne hp hdet hprops hdead hch =>
      exact attach_wft hfresh hpar hne hp hprops hch hw
  | detach tc nd par ndPar htc hdet hp hpar hmemc hne =>
      exact detach_wft htc hpar hne hmemc hw

theorem chain_wft {t t1 : Tree} {es : List LogEntry} (hch : Chain t es t1)
    (hw : WFt t) : WFt t1 := by
  induction hch with
  | nil t => exact hw
  | cons hs _ ih => exact ih (estep_wft hs hw)

theorem keysLt_upd {t : Tree} {np : Nat} {f : NodeData → NodeData} {n : Nat}
    (h : ∀ p ∈ t, p.1 < n) : ∀ p ∈ treeUpd t np f, p.1 < n := by
  intro p hp
  obtain ⟨nd, hm, _⟩ := mem_treeUpd hp
  exact h (p.1, nd) hm

theorem keysLt_ins {t : Tree} {id : Nat} {nd : NodeData} {n : Nat}
    (h : ∀ p ∈ t, p.1 < n) (hid : id < n) :
    ∀ p ∈ treeIns t id nd, p.1 < n := by
  intro p hp
  rcases List.mem_append.mp hp with h1 | h1
  · exact h p h1
  · have hp1 : p = (id, nd) := List.mem_singleton.mp h1
    rw [hp1]
    exact hid

theorem keysLt_mono {t : Tree} {n m : Nat} (h : ∀ p ∈ t, p.1 < n)
    (hnm : n ≤ m) : ∀ p ∈ t, p.1 < m :=
  fun p hp => Nat.lt_of_lt_of_le (h p hp) hnm

/-! #### Computation lemmas for the revert walk and the primitives -/

theorem revert_entry_add_eq (nf : Notif) (s : Tree) (np : Nat) (p : OFProp) :
    of_overlay_revert_one_entry nf s ⟨Action.addProperty, np, some p, none⟩ =
      ((of_remove_property nf s np p).2, false) := rfl

theorem revert_entry_attach_eq (nf : Notif) (s : Tree) (np : Nat) :
    of_overlay_revert_one_entry nf s ⟨Action.attachNode, np, none, none⟩ =
      ((of_detach_node nf s np).2, false) := rfl

theorem revert_entry_detach_eq (nf : Notif) (s : Tree) (np : Nat) :
    of_overlay_revert_one_entry nf s ⟨Action.detachNode, np, none, none⟩ =
      ((of_attach_node nf s np).2, false) := rfl

theorem revert_entry_remove_eq (nf : Notif) (s : Tree) (np : Nat) (p : OFProp)
    {nds : NodeData} (hsf : treeFind s np = some nds)
    (hd : p ∈ nds.deadprops) :
    of_overlay_revert_one_entry nf s ⟨Action.removeProperty, np, some p, none⟩ =
      ((of_add_property nf (treeUpd s np
          (fun nd' => { nd' with deadprops := nd'.deadprops.erase p })) np p).2,
       false) := by
  simp [of_overlay_revert_one_entry, hsf, hd]

theorem revert_entry_update_eq (nf : Notif) (s : Tree) (np : Nat)
    (pn pold : OFProp) {nds : NodeData} (hsf : treeFind s np = some nds)
    (hd : pold ∈ nds.deadprops) :
    of_overlay_revert_one_entry nf s
        ⟨Action.updateProperty, np, some pn, some pold⟩ =
      ((of_update_property nf (treeUpd s np
          (fun nd' => { nd' with deadprops := nd'.deadprops.erase pold }))
          np pold).2,
       false) := by
  simp [of_overlay_revert_one_entry, hsf, hd]

theorem add_property_eq {t : Tree} {np : Nat} {p : OFProp} {nd : NodeData}
    (hf : treeFind t np = some nd) (hn : findProp nd.props p.name = none) :
    __of_add_property t np p =
      (0, treeUpd t np (fun nd' => { nd' with props := p :: nd'.props })) := by
  unfold __of_add_property
  simp only [hf, hn, Option.isSome_none, Bool.false_eq_true, if_false]

theorem remove_property_eq {t : Tree} {np : Nat} {p : OFProp} {nd : NodeData}
    (hf : treeFind t np = some nd) (hm : p ∈ nd.props) :
    __of_remove_property t np p =
      (0, treeUpd t np (fun nd' =>
        { nd' with props := nd'.props.erase p,
                   deadprops := p :: nd'.deadprops })) := by
  unfold __of_remove_property
  simp only [hf, if_pos hm]

theorem update_property_eq {t : Tree} {np : Nat} {pn : OFProp} {nd : NodeData}
    {old : OFProp} (hf : treeFind t np = some nd)
    (hfp : findProp nd.props pn.name = some old) :
    __of_update_property t np pn =
      (0, some old, treeUpd t np (fun nd' =>
        { nd' with props := replaceNamed nd'.props pn.name pn,
                   deadprops := old :: nd'.deadprops })) := by
  unfold __of_update_property
  simp only [hf, hfp]

/-! #### The per-entry backward simulation (revert undoes a journalled
edit, up to the restoration relation) -/

theorem revert_step_add {t s : Tree} {np : Nat} {p : OFProp} {nd : NodeData}
    (hfind : treeFind t np = some nd) (hnone : findProp nd.props p.name = none)
    (hr : Rel (treeUpd t np
      (fun nd' => { nd' with props := p :: nd'.props })) s) :
    Rel t (of_overlay_revert_one_entry allowAll s
      ⟨Action.addProperty, np, some p, none⟩).1 := by
  have ht1 : treeFind (treeUpd t np
      (fun nd' => { nd' with props := p :: nd'.props })) np
      = some { nd with props := p :: nd.props } := by
    rw [treeFind_upd_self, hfind]; rfl
  obtain ⟨nds, hsf, hname, hfull, htyp, hph, hpar, hdet, hprops, hch, g, hdead⟩ :=
    hr.1 np _ ht1
  have hprops' : (nds.props : Multiset OFProp) =
      ((p :: nd.props : List OFProp) : Multiset OFProp) := hprops
  have hdead' : (nds.deadprops : Multiset OFProp) =
      ((nd.deadprops : List OFProp) : Multiset OFProp) + g := hdead
  have hmem : p ∈ nds.props := mem_of_coe_eq hprops' (List.mem_cons_self p nd.props)
  simp only [revert_entry_add_eq, of_remove_property_allowAll,
    remove_property_eq hsf hmem]
  constructor
  · intro id nd0 h0
    by_cases hid : id = np
    · subst hid
      have hnd0 : nd0 = nd := by
        rw [hfind] at h0
        exact (Option.some_inj.mp h0).symm
      subst hnd0
      refine ⟨({ nds with
                 props := nds.props.erase p,
                 deadprops := p :: nds.deadprops } : NodeData), ?_, hname, hfull,
        htyp, hph, hpar, hdet, ?_, hch, p ::ₘ g, ?_⟩
      · rw [treeFind_upd_self, hsf]; rfl
      · show ((nds.props.erase p : List OFProp) : Multiset OFProp) =
          ((nd0.props : List OFProp) : Multiset OFProp)
        rw [← Multiset.coe_erase, hprops', ← Multiset.cons_coe,
          Multiset.erase_cons_head]
      · show ((p :: nds.deadprops : List OFProp) : Multiset OFProp) =
          ((nd0.deadprops : List OFProp) : Multiset OFProp) + (p ::ₘ g)
        rw [← Multiset.cons_coe, hdead', ← Multiset.singleton_add,
          ← Multiset.singleton_add, add_left_comm]
    · obtain ⟨ns, hns, hrest⟩ := hr.1 id nd0 (by
        rw [treeFind_upd_ne _ _ _ _ hid]; exact h0)
      exact ⟨ns, by rw [treeFind_upd_ne _ _ _ _ hid]; exact hns, hrest⟩
  · intro id ndx hx hnone0
    by_cases hid : id = np
    · subst hid
      rw [hfind] at hnone0
      cases hnone0
    · have hx' : treeFind s id = some ndx := by
        rw [treeFind_upd_ne _ _ _ _ hid] at hx
        exact hx
      exact hr.2 id ndx hx' (by rw [treeFind_upd_ne _ _ _ _ hid]; exact hnone0)

theorem revert_step_remove {t s : Tree} {np : Nat} {p : OFProp}
    {nd : NodeData}
    (hfind : treeFind t np = some nd) (hfp : findProp nd.props p.name = some p)
    (hnames : (nd.props.map OFProp.name).Nodup)
    (hr : Rel (treeUpd t np (fun nd' =>
      { nd' with props := nd'.props.erase p,
                 deadprops := p :: nd'.deadprops })) s) :
    Rel t (of_overlay_revert_one_entry allowAll s
      ⟨Action.removeProperty, np, some p, none⟩).1 := by
  have ht1 : treeFind (treeUpd t np (fun nd' =>
      { nd' with props := nd'.props.erase p,
                 deadprops := p :: nd'.deadprops })) np
      = some { nd with props := nd.props.erase p,
                       deadprops := p :: nd.deadprops } := by
    rw [treeFind_upd_self, hfind]; rfl
  obtain ⟨nds, hsf, hname, hfull, htyp, hph, hpar, hdet, hprops, hch, g, hdead⟩ :=
    hr.1 np _ ht1
  have hprops' : (nds.props : Multiset OFProp) =
      ((nd.props.erase p : List OFProp) : Multiset OFProp) := hprops
  have hdead' : (nds.deadprops : Multiset OFProp) =
      ((p :: nd.deadprops : List OFProp) : Multiset OFProp) + g := hdead
  have hdmem : p ∈ nds.deadprops := by
    rw [← Multiset.mem_coe, hdead']
    refine Multiset.mem_add.mpr (Or.inl ?_)
    rw [← Multiset.cons_coe]
    exact Multiset.mem_cons_self _ _
  have hnone3 : findProp nds.props p.name = none :=
    findProp_none_of_perm hprops' (findProp_erase_self hnames hfp)
  have hpmem : p ∈ nd.props := (findProp_name hfp).2
  rw [revert_entry_remove_eq allowAll s np p hsf hdmem]
  have hfd : treeFind (treeUpd s np (fun nd' =>
      { nd' with deadprops := nd'.deadprops.erase p })) np
      = some { nds with deadprops := nds.deadprops.erase p } := by
    rw [treeFind_upd_self, hsf]; rfl
  rw [of_add_property_allowAll, add_property_eq hfd hnone3]
  show Rel t (treeUpd (treeUpd s np (fun nd' =>
      { nd' with deadprops := nd'.deadprops.erase p })) np
    (fun nd' => { nd' with props := p :: nd'.props }))
  constructor
  · intro id nd0 h0
    by_cases hid : id = np
    · subst hid
      have hnd0 : nd0 = nd := by
        rw [hfind] at h0
        exact (Option.some_inj.mp h0).symm
      subst hnd0
      refine ⟨({ nds with
                 props := p :: nds.props,
                 deadprops := nds.deadprops.erase p } : NodeData), ?_, hname,
        hfull, htyp, hph, hpar, hdet, ?_, hch, g, ?_⟩
      · rw [treeFind_upd_self, treeFind_upd_self, hsf]; rfl
      · show ((p :: nds.props : List OFProp) : Multiset OFProp) =
          ((nd0.props : List OFProp) : Multiset OFProp)
        rw [← Multiset.cons_coe, hprops', ← Multiset.coe_erase,
          Multiset.cons_erase (Multiset.mem_coe.mpr hpmem)]
      · show ((nds.deadprops.erase p : List OFProp) : Multiset OFProp) =
          ((nd0.deadprops : List OFProp) : Multiset OFProp) + g
        rw [← Multiset.coe_erase, hdead', ← Multiset.cons_coe,
          Multiset.cons_add, Multiset.erase_cons_head]
    · obtain ⟨ns, hns, hrest⟩ := hr.1 id nd0 (by
        rw [treeFind_upd_ne _ _ _ _ hid]; exact h0)
      exact ⟨ns, by
        rw [treeFind_upd_ne _ _ _ _ hid, treeFind_upd_ne _ _ _ _ hid]
        exact hns, hrest⟩
  · intro id ndx hx hnone0
    by_cases hid : id = np
    · subst hid
      rw [hfind] at hnone0
      cases hnone0
    · have hx' : treeFind s id = some ndx := by
        rw [treeFind_upd_ne _ _ _ _ hid, treeFind_upd_ne _ _ _ _ hid] at hx
        exact hx
      exact hr.2 id ndx hx' (by rw [treeFind_upd_ne _ _ _ _ hid]; exact hnone0)

theorem revert_step_update {t s : Tree} {np : Nat} {pn pold : OFProp}
    {nd : NodeData}
    (hfind : treeFind t np = some nd)
    (hfp : findProp nd.props pn.name = some pold)
    (hnames : (nd.props.map OFProp.name).Nodup)
    (hr : Rel (treeUpd t np (fun nd' =>
      { nd' with props := replaceNamed nd'.props pn.name pn,
                 deadprops := pold :: nd'.deadprops })) s) :
    Rel t (of_overlay_revert_one_entry allowAll s
      ⟨Action.updateProperty, np, some pn, some pold⟩).1 := by
  have ht1 : treeFind (treeUpd t np (fun nd' =>
      { nd' with props := replaceNamed nd'.props pn.name pn,
                 deadprops := pold :: nd'.deadprops })) np
      = some { nd with props := replaceNamed nd.props pn.name pn,
                       deadprops := pold :: nd.deadprops } := by
    rw [treeFind_upd_self, hfind]; rfl
  obtain ⟨nds, hsf, hname, hfull, htyp, hph, hpar, hdet, hprops, hch, g, hdead⟩ :=
    hr.1 np _ ht1
  have hprops' : (nds.props : Multiset OFProp) =
      ((replaceNamed nd.props pn.name pn : List OFProp) : Multiset OFProp) :=
    hprops
  have hdead' : (nds.deadprops : Multiset OFProp) =
      ((pold :: nd.deadprops : List OFProp) : Multiset OFProp) + g := hdead
  have hdmem : pold ∈ nds.deadprops := by
    rw [← Multiset.mem_coe, hdead']
    refine Multiset.mem_add.mpr (Or.inl ?_)
    rw [← Multiset.cons_coe]
    exact Multiset.mem_cons_self _ _
  have hpoldn : pold.name = pn.name := (findProp_name hfp).1
  have hpoldmem : pold ∈ nd.props := (findProp_name hfp).2
  have hrnodup : ((replaceNamed nd.props pn.name pn).map OFProp.name).Nodup := by
    rw [names_replaceNamed rfl]
    exact hnames
  have hfrepl : findProp (replaceNamed nd.props pn.name pn) pold.name
      = some pn := by
    rw [hpoldn]
    exact findProp_replaceNamed_self nd.props pn.name pn rfl (by rw [hfp]; rfl)
  have hfnds : findProp nds.props pold.name = some pn :=
    findProp_some_of_perm hprops' hrnodup hfrepl
  rw [revert_entry_update_eq allowAll s np pn pold hsf hdmem]
  have hfd : treeFind (treeUpd s np (fun nd' =>
      { nd' with deadprops := nd'.deadprops.erase pold })) np
      = some { nds with deadprops := nds.deadprops.erase pold } := by
    rw [treeFind_upd_self, hsf]; rfl
  rw [of_update_property_allowAll, update_property_eq hfd hfnds]
  show Rel t (treeUpd (treeUpd s np (fun nd' =>
      { nd' with deadprops := nd'.deadprops.erase pold })) np
    (fun nd' =>
      { nd' with
        props := replaceNamed nd'.props pold.name pold,
        deadprops := pn :: nd'.deadprops }))
  constructor
  · intro id nd0 h0
    by_cases hid : id = np
    · subst hid
      have hnd0 : nd0 = nd := by
        rw [hfind] at h0
        exact (Option.some_inj.mp h0).symm
      subst hnd0
      refine ⟨({ nds with
                 props := replaceNamed nds.props pold.name pold,
                 deadprops := pn :: nds.deadprops.erase pold } : NodeData), ?_,
        hname, hfull, htyp, hph, hpar, hdet, ?_, hch, pn ::ₘ g, ?_⟩
      · rw [treeFind_upd_self, treeFind_upd_self, hsf]; rfl
      · show ((replaceNamed nds.props pold.name pold : List OFProp) :
            Multiset OFProp) = ((nd0.props : List OFProp) : Multiset OFProp)
        rw [replaceNamed_perm pold hfnds, hprops', replaceNamed_perm pn hfp,
          Multiset.erase_cons_head,
          Multiset.cons_erase (Multiset.mem_coe.mpr hpoldmem)]
      · show ((pn :: nds.deadprops.erase pold : List OFProp) :
            Multiset OFProp) =
          ((nd0.deadprops : List OFProp) : Multiset OFProp) + (pn ::ₘ g)
        rw [← Multiset.cons_coe, ← Multiset.coe_erase, hdead',
          ← Multiset.cons_coe, Multiset.cons_add, Multiset.erase_cons_head,
          ← Multiset.singleton_add, ← Multiset.singleton_add, add_left_comm]
    · obtain ⟨ns, hns, hrest⟩ := hr.1 id nd0 (by
        rw [treeFind_upd_ne _ _ _ _ hid]; exact h0)
      exact ⟨ns, by
        rw [treeFind_upd_ne _ _ _ _ hid, treeFind_upd_ne _ _ _ _ hid]
        exact hns, hrest⟩
  · intro id ndx hx hnone0
    by_cases hid : id = np
    · subst hid
      rw [hfind] at hnone0
      cases hnone0
    · have hx' : treeFind s id = some ndx := by
        rw [treeFind_upd_ne _ _ _ _ hid, treeFind_upd_ne _ _ _ _ hid] at hx
        exact hx
      exact hr.2 id ndx hx' (by rw [treeFind_upd_ne _ _ _ _ hid]; exact hnone0)

theorem revert_step_attach {t s : Tree} {newid par : Nat}
    {ndNew ndPar : NodeData}
    (hfresh : treeFind t newid = none) (hpart : treeFind t par = some ndPar)
    (hne : newid ≠ par) (hpnew : ndNew.parent = some par)
    (hr : Rel (treeUpd (treeUpd (treeIns t newid ndNew) par
        (fun ndp => { ndp with children := newid :: ndp.children }))
      newid (fun ndn => { ndn with detached := false })) s) :
    Rel t (of_overlay_revert_one_entry allowAll s
      ⟨Action.attachNode, newid, none, none⟩).1 := by
  have ht1new := @attach_lookup_new t newid par ndNew hfresh hne
  have ht1par := @attach_lookup_par t newid par ndNew ndPar hpart hne
  obtain ⟨ndsN, hsfN, hnameN, hfullN, htypN, hphN, hparN, hdetN, hpropsN, hchN,
    gN, hdeadN⟩ := hr.1 newid _ ht1new
  obtain ⟨ndsP, hsfP, hnameP, hfullP, htypP, hphP, hparP, hdetP, hpropsP, hchP,
    gP, hdeadP⟩ := hr.1 par _ ht1par
  have hparN' : ndsN.parent = some par := hparN.trans hpnew
  have hdetN' : ndsN.detached = false := hdetN
  rw [revert_entry_attach_eq, of_detach_node_allowAll,
    detach_node_eq s newid ndsN par hsfN hdetN' hparN']
  show Rel t (treeUpd (treeUpd s par
      (fun ndp => { ndp with children := ndp.children.erase newid }))
    newid (fun ndn => { ndn with detached := true }))
  constructor
  · intro id nd0 h0
    by_cases hidn : id = newid
    · subst hidn
      rw [hfresh] at h0
      cases h0
    · by_cases hidp : id = par
      · subst hidp
        have hnd0 : nd0 = ndPar := by
          rw [hpart] at h0
          exact (Option.some_inj.mp h0).symm
        subst hnd0
        refine ⟨({ ndsP with children := ndsP.children.erase newid } :
            NodeData), ?_, hnameP, hfullP, htypP, hphP, hparP, hdetP, hpropsP,
          ?_, gP, hdeadP⟩
        · exact detach_lookup_par hsfP hne
        · show ((ndsP.children.erase newid : List Nat) : Multiset Nat) =
            ((nd0.children : List Nat) : Multiset Nat)
          have hchP' : (ndsP.children : Multiset Nat) =
              ((newid :: nd0.children : List Nat) : Multiset Nat) := hchP
          rw [← Multiset.coe_erase, hchP', ← Multiset.cons_coe,
            Multiset.erase_cons_head]
      · obtain ⟨ns, hns, hrest⟩ := hr.1 id nd0 (by
          rw [attach_lookup_other id hidn hidp]; exact h0)
        exact ⟨ns, by rw [detach_lookup_other id hidn hidp]; exact hns, hrest⟩
  · intro id ndx hx hnone0
    by_cases hidn : id = newid
    · subst hidn
      rw [detach_lookup_tc hsfN hne] at hx
      have hxe : ndx = { ndsN with detached := true } :=
        (Option.some_inj.mp hx).symm
      rw [hxe]
    · by_cases hidp : id = par
      · subst hidp
        rw [hpart] at hnone0
        cases hnone0
      · have hx' : treeFind s id = some ndx := by
          rw [detach_lookup_other id hidn hidp] at hx
          exact hx
        refine hr.2 id ndx hx' ?_
        rw [attach_lookup_other id hidn hidp]
        exact hnone0

theorem revert_step_detach {t s : Tree} {tc par : Nat} {nd ndPar : NodeData}
    (htc : treeFind t tc = some nd) (hdet : nd.detached = false)
    (hpa : nd.parent = some par) (hpart : treeFind t par = some ndPar)
    (hmemc : tc ∈ ndPar.children) (hne : tc ≠ par)
    (hr : Rel (treeUpd (treeUpd t par
        (fun ndp => { ndp with children := ndp.children.erase tc }))
      tc (fun ndn => { ndn with detached := true })) s) :
    Rel t (of_overlay_revert_one_entry allowAll s
      ⟨Action.detachNode, tc, none, none⟩).1 := by
  have ht1tc := detach_lookup_tc htc hne
  have ht1par := @detach_lookup_par t tc par ndPar hpart hne
  obtain ⟨ndsC, hsfC, hnameC, hfullC, htypC, hphC, hparC, hdetC, hpropsC, hchC,
    gC, hdeadC⟩ := hr.1 tc _ ht1tc
  obtain ⟨ndsP, hsfP, hnameP, hfullP, htypP, hphP, hparP, hdetP, hpropsP, hchP,
    gP, hdeadP⟩ := hr.1 par _ ht1par
  have hparC' : ndsC.parent = some par := hparC.trans hpa
  rw [revert_entry_detach_eq, of_attach_node_allowAll,
    attach_node_eq s tc ndsC par hsfC hparC']
  show Rel t (treeUpd (treeUpd s par
      (fun ndp => { ndp with children := tc :: ndp.children }))
    tc (fun ndn => { ndn with detached := false }))
  constructor
  · intro id nd0 h0
    by_cases hidc : id = tc
    · subst hidc
      have hnd0 : nd0 = nd := by
        rw [htc] at h0
        exact (Option.some_inj.mp h0).symm
      subst hnd0
      refine ⟨({ ndsC with detached := false } : NodeData), ?_, hnameC, hfullC,
        htypC, hphC, hparC, ?_, hpropsC, hchC, gC, hdeadC⟩
      · rw [treeFind_upd_self, treeFind_upd_ne _ _ _ _ hne, hsfC]
        rfl
      · show false = nd0.detached
        exact hdet.symm
    · by_cases hidp : id = par
      · subst hidp
        have hnd0 : nd0 = ndPar := by
          rw [hpart] at h0
          exact (Option.some_inj.mp h0).symm
        subst hnd0
        refine ⟨({ ndsP with children := tc :: ndsP.children } : NodeData), ?_,
          hnameP, hfullP, htypP, hphP, hparP, hdetP, hpropsP, ?_, gP, hdeadP⟩
        · rw [treeFind_upd_ne _ _ _ _ (fun h => hne h.symm), treeFind_upd_self,
            hsfP]
          rfl
        · show ((tc :: ndsP.children : List Nat) : Multiset Nat) =
            ((nd0.children : List Nat) : Multiset Nat)
          have hchP' : (ndsP.children : Multiset Nat) =
              ((nd0.children.erase tc : List Nat) : Multiset Nat) := hchP
          rw [← Multiset.cons_coe, hchP', ← Multiset.coe_erase,
            Multiset.cons_erase (Multiset.mem_coe.mpr hmemc)]
      · obtain ⟨ns, hns, hrest⟩ := hr.1 id nd0 (by
          rw [detach_lookup_other id hidc hidp]; exact h0)
        refine ⟨ns, ?_, hrest⟩
        rw [treeFind_upd_ne _ _ _ _ hidc, treeFind_upd_ne _ _ _ _ hidp]
        exact hns
  · intro id ndx hx hnone0
    by_cases hidc : id = tc
    · subst hidc
      rw [htc] at hnone0
      cases hnone0
    · by_cases hidp : id = par
      · subst hidp
        rw [hpart] at hnone0
        cases hnone0
      · have hx' : treeFind s id = some ndx := by
          rw [treeFind_upd_ne _ _ _ _ hidc, treeFind_upd_ne _ _ _ _ hidp] at hx
          exact hx
        refine hr.2 id ndx hx' ?_
        rw [detach_lookup_other id hidc hidp]
        exact hnone0

theorem revert_step {t t1 s : Tree} {e : LogEntry}
    (hs : EStep t e t1) (hw : WFt t) (hr : Rel t1 s) :
    Rel t (of_overlay_revert_one_entry allowAll s e).1 := by
  cases hs with
  | add np p nd hfind hnone => exact revert_step_add hfind hnone hr
  | remove np p nd hfind hfp =>
      exact revert_step_remove hfind hfp
        (hw.2.1 (np, nd) (treeFind_mem hfind)) hr
  | update np pn pold nd hfind hfp =>
      exact revert_step_update hfind hfp
        (hw.2.1 (np, nd) (treeFind_mem hfind)) hr
  | attach newid ndNew par ndPar hfresh hpar hne hp hdet hprops hdead hch =>
      exact revert_step_attach hfresh hpar hne hp hr
  | detach tc nd par ndPar htc hdet hp hpar hmemc hne =>
      exact revert_step_detach htc hdet hp hpar hmemc hne hr

theorem revert_entries_rel {t t1 : Tree} {es : List LogEntry}
    (hch : Chain t es t1) : WFt t → ∀ {s : Tree}, Rel t1 s →
    Rel t (of_overlay_revert_entries allowAll es s) := by
  induction hch with
  | nil t =>
      intro _ s hr
      exact hr
  | cons hs hc ih =>
      intro hw s hr
      exact revert_step hs hw (ih (estep_wft hs hw) hr)

/-! #### The forward direction: a successful overlay walk journals a
chain of edits -/

theorem chain_append {t t1 : Tree} {es1 : List LogEntry}
    (h1 : Chain t es1 t1) :
    ∀ {t2 : Tree} {es2 : List LogEntry}, Chain t1 es2 t2 →
      Chain t (es1 ++ es2) t2 := by
  induction h1 with
  | nil t =>
      intro t2 es2 h2
      exact h2
  | cons hs hc ih =>
      intro t2 es2 h2
      exact Chain.cons hs (ih h2)

theorem estep_dom_mono {t t1 : Tree} {e : LogEntry} (hs : EStep t e t1)
    {id : Nat} {nd : NodeData} (h : treeFind t id = some nd) :
    ∃ nd', treeFind t1 id = some nd' := by
  cases hs with
  | add np p nd0 hfind hnone =>
      by_cases hid : id = np
      · subst hid
        exact ⟨_, by rw [treeFind_upd_self, h]; rfl⟩
      · exact ⟨nd, by rw [treeFind_upd_ne _ _ _ _ hid]; exact h⟩
  | remove np p nd0 hfind hfp =>
      by_cases hid : id = np
      · subst hid
        exact ⟨_, by rw [treeFind_upd_self, h]; rfl⟩
      · exact ⟨nd, by rw [treeFind_upd_ne _ _ _ _ hid]; exact h⟩
  | update np pn pold nd0 hfind hfp =>
      by_cases hid : id = np
      · subst hid
        exact ⟨_, by rw [treeFind_upd_self, h]; rfl⟩
      · exact ⟨nd, by rw [treeFind_upd_ne _ _ _ _ hid]; exact h⟩
  | attach newid ndNew par ndPar hfresh hpar hne hp hdet hprops hdead hch =>
      by_cases hid1 : id = newid
      · subst hid1
        rw [hfresh] at h
        cases h
      · by_cases hid2 : id = par
        · subst hid2
          exact ⟨_, attach_lookup_par hpar hne⟩
        · exact ⟨nd, by rw [attach_lookup_other id hid1 hid2]; exact h⟩
  | detach tc nd0 par ndPar htc hdetx hp hpar hmemc hne =>
      by_cases hid1 : id = tc
      · subst hid1
        exact ⟨_, detach_lookup_tc h hne⟩
      · by_cases hid2 : id = par
        · subst hid2
          exact ⟨_, detach_lookup_par hpar hne⟩
        · exact ⟨nd, by rw [detach_lookup_other id hid1 hid2]; exact h⟩

theorem chain_dom_mono {t t1 : Tree} {es : List LogEntry}
    (hc : Chain t es t1) :
    ∀ {id : Nat} {nd : NodeData}, treeFind t id = some nd →
      ∃ nd', treeFind t1 id = some nd' := by
  induction hc with
  | nil t =>
      intro id nd h
      exact ⟨nd, h⟩
  | cons hs hc2 ih =>
      intro id nd h
      obtain ⟨nd', h'⟩ := estep_dom_mono hs h
      exact ih h'

theorem log_entry_add_proj (t : Tree) (ovi : OVI) (a : Action) (np : Nat)
    (p : Option OFProp) :
    (of_overlay_log_entry_entry_add t ovi a np p).le_list =
      ovi.le_list ++ [⟨a, np, p,
        match a, p with
        | Action.updateProperty, some pq => of_find_property t np pq.name
        | _, _ => none⟩] ∧
    (of_overlay_log_entry_entry_add t ovi a np p).target = ovi.target ∧
    (of_overlay_log_entry_entry_add t ovi a np p).frag = ovi.frag :=
  ⟨rfl, rfl, rfl⟩

theorem dev_entry_add_proj (ovi : OVI) (np : Nat) (pv st : Bool) :
    (of_overlay_device_entry_entry_add ovi np pv st).le_list = ovi.le_list ∧
    (of_overlay_device_entry_entry_add ovi np pv st).target = ovi.target ∧
    (of_overlay_device_entry_entry_add ovi np pv st).frag = ovi.frag := by
  unfold of_overlay_device_entry_entry_add
  cases of_overlay_device_entry_lookup ovi np <;> exact ⟨rfl, rfl, rfl⟩

theorem tree_change_proj (t : Tree) (ovi : OVI) (a : Action) (np : Nat)
    (p : Option OFProp) :
    (of_overlay_tree_change t ovi a np p).le_list =
      ovi.le_list ++ [⟨a, np, p,
        match a, p with
        | Action.updateProperty, some pq => of_find_property t np pq.name
        | _, _ => none⟩] ∧
    (of_overlay_tree_change t ovi a np p).target = ovi.target ∧
    (of_overlay_tree_change t ovi a np p).frag = ovi.frag := by
  have hl := log_entry_add_proj t ovi a np p
  have hd := fun np2 pv st =>
    dev_entry_add_proj (of_overlay_log_entry_entry_add t ovi a np p) np2 pv st
  unfold of_overlay_tree_change
  cases a <;> cases p <;>
    simp only [] <;>
    first
      | exact hl
      | (refine ⟨(hd _ _ _).1.trans hl.1, (hd _ _ _).2.1.trans hl.2.1,
          (hd _ _ _).2.2.trans hl.2.2⟩)
      | (split
         · exact hl
         · refine ⟨(hd _ _ _).1.trans hl.1, (hd _ _ _).2.1.trans hl.2.1,
             (hd _ _ _).2.2.trans hl.2.2⟩)

theorem tree_change_proj_upd (t : Tree) (ovi : OVI) (np : Nat) (pp : OFProp) :
    (of_overlay_tree_change t ovi Action.updateProperty np (some pp)).le_list =
      ovi.le_list ++ [⟨Action.updateProperty, np, some pp,
        of_find_property t np pp.name⟩] :=
  (tree_change_proj t ovi Action.updateProperty np (some pp)).1

theorem applyOk_id {sys : Sys} {ovi : OVI} (hw : WFt sys.tree)
    (hk : ∀ q ∈ sys.tree, q.1 < sys.nextId) : ApplyOk sys ovi (0, sys, ovi) :=
  ⟨rfl, rfl, rfl, ⟨[], (List.append_nil _).symm, Chain.nil _⟩, hw, hk,
    le_refl _⟩

theorem applyOk_comp {sys : Sys} {ovi : OVI} {a b : Int × Sys × OVI}
    (h1 : ApplyOk sys ovi a) (h2 : ApplyOk a.2.1 a.2.2 b) :
    ApplyOk sys ovi b := by
  obtain ⟨_, ht1, hf1, ⟨es1, hle1, hc1⟩, _, _, hn1⟩ := h1
  obtain ⟨hr2, ht2, hf2, ⟨es2, hle2, hc2⟩, hw2, hk2, hn2⟩ := h2
  exact ⟨hr2, ht2.trans ht1, hf2.trans hf1,
    ⟨es1 ++ es2, by rw [hle2, hle1, List.append_assoc], chain_append hc1 hc2⟩,
    hw2, hk2, le_trans hn1 hn2⟩

theorem apply_one_prop_name_eq (nf : Notif) (sys : Sys) (ovi : OVI)
    (tgt : Nat) (p : OFProp) (h : (p.name == "name") = true) :
    of_overlay_apply_one_prop nf sys ovi tgt p = (0, sys, ovi) := by
  unfold of_overlay_apply_one_prop
  simp only [h, if_true]

theorem apply_one_prop_rm_miss_eq (nf : Notif) (sys : Sys) (ovi : OVI)
    (tgt : Nat) (p : OFProp)
    (h1 : (p.name == "name") = false) (h2 : strStartsWithDash p.name = true)
    (h3 : of_find_property sys.tree tgt (p.name.drop 1) = none) :
    of_overlay_apply_one_prop nf sys ovi tgt p = (0, sys, ovi) := by
  unfold of_overlay_apply_one_prop
  simp only [h1, h2, h3, Bool.false_eq_true, if_false, if_true]

theorem apply_one_prop_rm_hit_eq (nf : Notif) (sys : Sys) (ovi : OVI)
    (tgt : Nat) (p : OFProp) (tp : OFProp)
    (h1 : (p.name == "name") = false) (h2 : strStartsWithDash p.name = true)
    (h3 : of_find_property sys.tree tgt (p.name.drop 1) = some tp) :
    of_overlay_apply_one_prop nf sys ovi tgt p =
      ((of_remove_property nf sys.tree tgt tp).1,
       { sys with tree := (of_remove_property nf sys.tree tgt tp).2 },
       of_overlay_tree_change sys.tree ovi Action.removeProperty tgt
         (some tp)) := by
  unfold of_overlay_apply_one_prop
  simp only [h1, h2, h3, Bool.false_eq_true, if_false, if_true]

theorem apply_one_prop_upd_eq (nf : Notif) (sys : Sys) (ovi : OVI)
    (tgt : Nat) (p : OFProp) (tp : OFProp)
    (h1 : (p.name == "name") = false) (h2 : strStartsWithDash p.name = false)
    (h3 : of_find_property sys.tree tgt p.name = some tp) :
    of_overlay_apply_one_prop nf sys ovi tgt p =
      ((of_update_property nf sys.tree tgt
          (__of_copy_property sys.nextPid p)).1,
       { sys with
         tree := (of_update_property nf sys.tree tgt
           (__of_copy_property sys.nextPid p)).2,
         nextPid := sys.nextPid + 1 },
       of_overlay_tree_change sys.tree ovi Action.updateProperty tgt
         (some (__of_copy_property sys.nextPid p))) := by
  unfold of_overlay_apply_one_prop
  simp only [h1, h2, h3, Bool.false_eq_true, if_false, if_true]

theorem apply_one_prop_add_eq (nf : Notif) (sys : Sys) (ovi : OVI)
    (tgt : Nat) (p : OFProp)
    (h1 : (p.name == "name") = false) (h2 : strStartsWithDash p.name = false)
    (h3 : of_find_property sys.tree tgt p.name = none) :
    of_overlay_apply_one_prop nf sys ovi tgt p =
      ((of_add_property nf sys.tree tgt
          (__of_copy_property sys.nextPid p)).1,
       { sys with
         tree := (of_add_property nf sys.tree tgt
           (__of_copy_property sys.nextPid p)).2,
         nextPid := sys.nextPid + 1 },
       of_overlay_tree_change sys.tree ovi Action.addProperty tgt
         (some (__of_copy_property sys.nextPid p))) := by
  unfold of_overlay_apply_one_prop
  simp only [h1, h2, h3, Bool.false_eq_true, if_false, if_true]

theorem apply_one_prop_spec {sys : Sys} (ovi : OVI) {tgt : Nat} (p : OFProp)
    {ndt : NodeData} (htgt : treeFind sys.tree tgt = some ndt)
    (hw : WFt sys.tree) (hk : ∀ q ∈ sys.tree, q.1 < sys.nextId) :
    ApplyOk sys ovi (of_overlay_apply_one_prop allowAll sys ovi tgt p) := by
  by_cases hnm : (p.name == "name") = true
  · rw [apply_one_prop_name_eq allowAll sys ovi tgt p hnm]
    exact applyOk_id hw hk
  · have hnm' : (p.name == "name") = false := Bool.eq_false_iff.mpr hnm
    by_cases hrm : strStartsWithDash p.name = true
    · cases h3 : of_find_property sys.tree tgt (p.name.drop 1) with
      | none =>
          rw [apply_one_prop_rm_miss_eq allowAll sys ovi tgt p hnm' hrm h3]
          exact applyOk_id hw hk
      | some tp =>
          rw [apply_one_prop_rm_hit_eq allowAll sys ovi tgt p tp hnm' hrm h3]
          have hfp : findProp ndt.props (p.name.drop 1) = some tp := by
            unfold of_find_property at h3
            rw [htgt] at h3
            exact h3
          obtain ⟨htpn, htpm⟩ := findProp_name hfp
          have hfp2 : findProp ndt.props tp.name = some tp := by
            rw [htpn]
            exact hfp
          have hstep : EStep sys.tree
              ⟨Action.removeProperty, tgt, some tp, none⟩
              (treeUpd sys.tree tgt (fun nd =>
                { nd with props := nd.props.erase tp,
                          deadprops := tp :: nd.deadprops })) :=
            EStep.remove sys.tree tgt tp ndt htgt hfp2
          obtain ⟨hcl, hct, hcf⟩ :=
            tree_change_proj sys.tree ovi Action.removeProperty tgt (some tp)
          rw [of_remove_property_allowAll, remove_property_eq htgt htpm]
          refine ⟨rfl, hct, hcf,
            ⟨[⟨Action.removeProperty, tgt, some tp, none⟩], hcl,
              Chain.cons hstep (Chain.nil _)⟩,
            estep_wft hstep hw, ?_, le_refl _⟩
          show ∀ q ∈ treeUpd sys.tree tgt (fun nd' =>
            { nd' with props := nd'.props.erase tp,
                       deadprops := tp :: nd'.deadprops }), q.1 < sys.nextId
          exact keysLt_upd hk
    · have hrm' : strStartsWithDash p.name = false := Bool.eq_false_iff.mpr hrm
      cases h3 : of_find_property sys.tree tgt p.name with
      | some tp =>
          rw [apply_one_prop_upd_eq allowAll sys ovi tgt p tp hnm' hrm' h3]
          have hfp : findProp ndt.props p.name = some tp := by
            unfold of_find_property at h3
            rw [htgt] at h3
            exact h3
          have hfp2 : findProp ndt.props
              (__of_copy_property sys.nextPid p).name = some tp := hfp
          have hfind2 : of_find_property sys.tree tgt
              (__of_copy_property sys.nextPid p).name = some tp := h3
          have hstep : EStep sys.tree
              ⟨Action.updateProperty, tgt,
                some (__of_copy_property sys.nextPid p), some tp⟩
              (treeUpd sys.tree tgt (fun nd =>
                { nd with
                  props := replaceNamed nd.props
                    (__of_copy_property sys.nextPid p).name
                    (__of_copy_property sys.nextPid p),
                  deadprops := tp :: nd.deadprops })) :=
            EStep.update sys.tree tgt (__of_copy_property sys.nextPid p) tp
              ndt htgt hfp2
          obtain ⟨hcl, hct, hcf⟩ :=
            tree_change_proj sys.tree ovi Action.updateProperty tgt
              (some (__of_copy_property sys.nextPid p))
          rw [of_update_property_allowAll, update_property_eq htgt hfp2]
          refine ⟨rfl, hct, hcf,
            ⟨[⟨Action.updateProperty, tgt,
               some (__of_copy_property sys.nextPid p), some tp⟩], ?_,
              Chain.cons hstep (Chain.nil _)⟩,
            estep_wft hstep hw, ?_, le_refl _⟩
          · rw [tree_change_proj_upd sys.tree ovi tgt
              (__of_copy_property sys.nextPid p), hfind2]
          · show ∀ q ∈ treeUpd sys.tree tgt (fun nd' =>
              { nd' with
                props := replaceNamed nd'.props
                  (__of_copy_property sys.nextPid p).name
                  (__of_copy_property sys.nextPid p),
                deadprops := tp :: nd'.deadprops }), q.1 < sys.nextId
            exact keysLt_upd hk
      | none =>
          rw [apply_one_prop_add_eq allowAll sys ovi tgt p hnm' hrm' h3]
          have hfp : findProp ndt.props p.name = none := by
            unfold of_find_property at h3
            rw [htgt] at h3
            exact h3
          have hfp2 : findProp ndt.props
              (__of_copy_property sys.nextPid p).name = none := hfp
          have hstep : EStep sys.tree
              ⟨Action.addProperty, tgt,
                some (__of_copy_property sys.nextPid p), none⟩
              (treeUpd sys.tree tgt (fun nd =>
                { nd with
                  props := __of_copy_property sys.nextPid p :: nd.props })) :=
            EStep.add sys.tree tgt (__of_copy_property sys.nextPid p) ndt
              htgt hfp2
          obtain ⟨hcl, hct, hcf⟩ :=
            tree_change_proj sys.tree ovi Action.addProperty tgt
              (some (__of_copy_property sys.nextPid p))
          rw [of_add_property_allowAll, add_property_eq htgt hfp2]
          refine ⟨rfl, hct, hcf,
            ⟨[⟨Action.addProperty, tgt,
               some (__of_copy_property sys.nextPid p), none⟩], hcl,
              Chain.cons hstep (Chain.nil _)⟩,
            estep_wft hstep hw, ?_, le_refl _⟩
          show ∀ q ∈ treeUpd sys.tree tgt (fun nd' =>
            { nd' with props := __of_copy_property sys.nextPid p :: nd'.props }),
            q.1 < sys.nextId
          exact keysLt_upd hk

theorem apply_one_props_spec (tgt : Nat) (ps : List OFProp) :
    ∀ (sys : Sys) (ovi : OVI), (∃ ndt, treeFind sys.tree tgt = some ndt) →
    WFt sys.tree → (∀ q ∈ sys.tree, q.1 < sys.nextId) →
    ApplyOk sys ovi (of_overlay_apply_one_props allowAll sys ovi tgt ps) := by
  induction ps with
  | nil =>
      intro sys ovi _ hw hk
      exact applyOk_id hw hk
  | cons p ps ih =>
      intro sys ovi htgt0 hw hk
      obtain ⟨ndt, htgt⟩ := htgt0
      have ha := apply_one_prop_spec ovi p htgt hw hk
      have heq : of_overlay_apply_one_props allowAll sys ovi tgt (p :: ps) =
          of_overlay_apply_one_props allowAll
            (of_overlay_apply_one_prop allowAll sys ovi tgt p).2.1
            (of_overlay_apply_one_prop allowAll sys ovi tgt p).2.2 tgt ps := by
        show (if (of_overlay_apply_one_prop allowAll sys ovi tgt p).1 != 0
            then of_overlay_apply_one_prop allowAll sys ovi tgt p
            else of_overlay_apply_one_props allowAll
              (of_overlay_apply_one_prop allowAll sys ovi tgt p).2.1
              (of_overlay_apply_one_prop allowAll sys ovi tgt p).2.2 tgt ps)
          = _
        rw [ha.1]
        rfl
      rw [heq]
      obtain ⟨ndt', htgt'⟩ := chain_dom_mono ha.2.2.2.1.choose_spec.2 htgt
      exact applyOk_comp ha
        (ih _ _ ⟨ndt', htgt'⟩ ha.2.2.2.2.1 ha.2.2.2.2.2.1)

theorem apply_one_child_spec (fuel : Nat)
    (hrec : ∀ (c : FNode), FNode.size c ≤ fuel →
      ∀ (sys : Sys) (ovi : OVI) (tgt : Nat) (ndt : NodeData),
      treeFind sys.tree tgt = some ndt → WFt sys.tree →
      (∀ q ∈ sys.tree, q.1 < sys.nextId) →
      ApplyOk sys ovi (of_overlay_apply_one_go allowAll fuel sys ovi
        (some tgt) c))
    (c : FNode) (hsz : FNode.size c ≤ fuel)
    (sys : Sys) (ovi : OVI) (tgt : Nat) (ndt : NodeData)
    (htgt : treeFind sys.tree tgt = some ndt)
    (hw : WFt sys.tree) (hk : ∀ q ∈ sys.tree, q.1 < sys.nextId) :
    ApplyOk sys ovi (of_overlay_apply_one_child allowAll
      (fun s o t f => of_overlay_apply_one_go allowAll fuel s o t f)
      sys ovi tgt c) := by
  simp only [of_overlay_apply_one_child]
  generalize (if strContains c.fullName '@' = true then
      (if strStartsWithDash (kbasename c.fullName) = true then
        (kbasename c.fullName).drop 1 else kbasename c.fullName)
      else (if strStartsWithDash c.name = true then c.name.drop 1
        else c.name)) = cn
  split
  next tc heq =>
    split
    next hif =>
      have htc : ∃ ndc, treeFind sys.tree tc = some ndc := by
        unfold of_get_child_by_name at heq
        simp only [htgt] at heq
        have h2 := List.find?_some heq
        cases hf : treeFind sys.tree tc with
        | none =>
            simp only [hf, Bool.false_eq_true] at h2
        | some ndc => exact ⟨ndc, rfl⟩
      obtain ⟨ndc, htc⟩ := htc
      exact hrec c hsz sys ovi tc ndc htc hw hk
    next hif =>
      have hmemc : tc ∈ ndt.children := by
        unfold of_get_child_by_name at heq
        simp only [htgt] at heq
        exact List.mem_of_find?_eq_some heq
      obtain ⟨hnc, hpc⟩ := hw.2.2.1 (tgt, ndt) (treeFind_mem htgt)
      obtain ⟨hcpne, ndc, htc, hcpar, hcdet⟩ := hpc tc hmemc
      have hstep : EStep sys.tree ⟨Action.detachNode, tc, none, none⟩
          (treeUpd (treeUpd sys.tree tgt
              (fun ndp => { ndp with children := ndp.children.erase tc }))
            tc (fun ndn => { ndn with detached := true })) :=
        EStep.detach sys.tree tc ndc tgt ndt htc hcdet hcpar htgt hmemc hcpne
      rw [of_detach_node_allowAll, detach_node_eq sys.tree tc ndc tgt htc
        hcdet hcpar]
      obtain ⟨hcl, hct, hcf⟩ :=
        tree_change_proj sys.tree ovi Action.detachNode tc none
      refine ⟨rfl, hct, hcf,
        ⟨[⟨Action.detachNode, tc, none, none⟩], hcl,
          Chain.cons hstep (Chain.nil _)⟩,
        estep_wft hstep hw, ?_, le_refl _⟩
      show ∀ q ∈ treeUpd (treeUpd sys.tree tgt
          (fun ndp => { ndp with children := ndp.children.erase tc }))
        tc (fun ndn => { ndn with detached := true }), q.1 < sys.nextId
      exact keysLt_upd (keysLt_upd hk)
  next heq =>
    split
    next hif =>
      simp only [htgt]
      have hfresh : treeFind sys.tree sys.nextId = none :=
        treeFind_eq_none_of_lt hk
      have hne : sys.nextId ≠ tgt := by
        intro he
        have hlt := hk (tgt, ndt) (treeFind_mem htgt)
        rw [← he] at hlt
        exact lt_irrefl _ hlt
      have hins := treeFind_ins_fresh sys.tree sys.nextId
        ({ name := cn, fullName := ndt.fullName ++ "/" ++ cn, typ := c.typ,
           phandle := c.phandle, props := [], deadprops := [], children := [],
           parent := some tgt, detached := true } : NodeData) hfresh
      rw [of_attach_node_allowAll, attach_node_eq _ sys.nextId _ tgt hins rfl]
      have hstep : EStep sys.tree ⟨Action.attachNode, sys.nextId, none, none⟩
          (treeUpd (treeUpd (treeIns sys.tree sys.nextId
              ({ name := cn, fullName := ndt.fullName ++ "/" ++ cn,
                 typ := c.typ, phandle := c.phandle, props := [],
                 deadprops := [], children := [], parent := some tgt,
                 detached := true } : NodeData)) tgt
              (fun ndp => { ndp with children := sys.nextId :: ndp.children }))
            sys.nextId (fun ndn => { ndn with detached := false })) :=
        EStep.attach sys.tree sys.nextId _ tgt ndt hfresh htgt hne rfl rfl
          rfl rfl rfl
      simp only [bne_self_eq_false, Bool.false_eq_true, if_false]
      have hw2 := estep_wft hstep hw
      have hk2 : ∀ q ∈ treeUpd (treeUpd (treeIns sys.tree sys.nextId
          ({ name := cn, fullName := ndt.fullName ++ "/" ++ cn, typ := c.typ,
             phandle := c.phandle, props := [], deadprops := [],
             children := [], parent := some tgt, detached := true } :
             NodeData)) tgt
          (fun ndp => { ndp with children := sys.nextId :: ndp.children }))
          sys.nextId (fun ndn => { ndn with detached := false }),
          q.1 < sys.nextId + 1 :=
        keysLt_upd (keysLt_upd (keysLt_ins
          (keysLt_mono hk (Nat.le_succ _)) (Nat.lt_succ_self _)))
      have hf2 := @attach_lookup_new sys.tree sys.nextId tgt
        ({ name := cn, fullName := ndt.fullName ++ "/" ++ cn, typ := c.typ,
           phandle := c.phandle, props := [], deadprops := [], children := [],
           parent := some tgt, detached := true } : NodeData) hfresh hne
      have hb := hrec c hsz
        ({ sys with
           tree := treeUpd (treeUpd (treeIns sys.tree sys.nextId
               ({ name := cn, fullName := ndt.fullName ++ "/" ++ cn,
                  typ := c.typ, phandle := c.phandle, props := [],
                  deadprops := [], children := [], parent := some tgt,
                  detached := true } : NodeData)) tgt
               (fun ndp =>
                 { ndp with children := sys.nextId :: ndp.children }))
             sys.nextId (fun ndn => { ndn with detached := false }),
           nextId := sys.nextId + 1 } : Sys)
        (of_overlay_tree_change (treeIns sys.tree sys.nextId
            ({ name := cn, fullName := ndt.fullName ++ "/" ++ cn,
               typ := c.typ, phandle := c.phandle, props := [],
               deadprops := [], children := [], parent := some tgt,
               detached := true } : NodeData)) ovi Action.attachNode
          sys.nextId none)
        sys.nextId _ hf2 hw2 hk2
      obtain ⟨hcl, hct, hcf⟩ := tree_change_proj
        (treeIns sys.tree sys.nextId
          ({ name := cn, fullName := ndt.fullName ++ "/" ++ cn, typ := c.typ,
             phandle := c.phandle, props := [], deadprops := [],
             children := [], parent := some tgt, detached := true } :
             NodeData))
        ovi Action.attachNode sys.nextId none
      have h1 : ApplyOk sys ovi (0,
          { sys with
            tree := treeUpd (treeUpd (treeIns sys.tree sys.nextId
                ({ name := cn, fullName := ndt.fullName ++ "/" ++ cn,
                   typ := c.typ, phandle := c.phandle, props := [],
                   deadprops := [], children := [], parent := some tgt,
                   detached := true } : NodeData)) tgt
                (fun ndp =>
                  { ndp with children := sys.nextId :: ndp.children }))
              sys.nextId (fun ndn => { ndn with detached := false }),
            nextId := sys.nextId + 1 },
          of_overlay_tree_change (treeIns sys.tree sys.nextId
            ({ name := cn, fullName := ndt.fullName ++ "/" ++ cn,
               typ := c.typ, phandle := c.phandle, props := [],
               deadprops := [], children := [], parent := some tgt,
               detached := true } : NodeData)) ovi Action.attachNode
            sys.nextId none) :=
        ⟨rfl, hct, hcf,
          ⟨[⟨Action.attachNode, sys.nextId, none, none⟩], hcl,
            Chain.cons hstep (Chain.nil _)⟩,
          hw2, hk2, Nat.le_succ _⟩
      split
      next hif2 =>
        rw [hb.1] at hif2
        simp at hif2
      next hif2 =>
        rw [← hb.1]
        exact applyOk_comp h1 hb
    next hif =>
      exact applyOk_id hw hk

theorem size_le_sizeList {c : FNode} {cs : List FNode} (h : c ∈ cs) :
    FNode.size c ≤ FNode.sizeList cs := by
  induction cs with
  | nil => cases h
  | cons d ds ih =>
      rcases List.mem_cons.mp h with he | hm
      · subst he
        show FNode.size c ≤ FNode.size c + FNode.sizeList ds
        exact Nat.le_add_right _ _
      · calc FNode.size c ≤ FNode.sizeList ds := ih hm
          _ ≤ FNode.size d + FNode.sizeList ds := Nat.le_add_left _ _

theorem apply_one_children_spec (fuel : Nat)
    (hrec : ∀ (c : FNode), FNode.size c ≤ fuel →
      ∀ (sys : Sys) (ovi : OVI) (tgt : Nat) (ndt : NodeData),
      treeFind sys.tree tgt = some ndt → WFt sys.tree →
      (∀ q ∈ sys.tree, q.1 < sys.nextId) →
      ApplyOk sys ovi (of_overlay_apply_one_go allowAll fuel sys ovi
        (some tgt) c))
    (tgt : Nat) (cs : List FNode) (hsz : ∀ c ∈ cs, FNode.size c ≤ fuel) :
    ∀ (sys : Sys) (ovi : OVI) (ndt : NodeData),
      treeFind sys.tree tgt = some ndt → WFt sys.tree →
      (∀ q ∈ sys.tree, q.1 < sys.nextId) →
      ApplyOk sys ovi (of_overlay_apply_one_children allowAll
        (fun s o t f => of_overlay_apply_one_go allowAll fuel s o t f)
        sys ovi tgt cs) := by
  induction cs with
  | nil =>
      intro sys ovi ndt htgt hw hk
      exact applyOk_id hw hk
  | cons c cs ih =>
      intro sys ovi ndt htgt hw hk
      have ha := apply_one_child_spec fuel hrec c
        (hsz c (List.mem_cons_self c cs)) sys ovi tgt ndt htgt hw hk
      have heq : of_overlay_apply_one_children allowAll
          (fun s o t f => of_overlay_apply_one_go allowAll fuel s o t f)
          sys ovi tgt (c :: cs) =
          of_overlay_apply_one_children allowAll
            (fun s o t f => of_overlay_apply_one_go allowAll fuel s o t f)
            (of_overlay_apply_one_child allowAll
              (fun s o t f => of_overlay_apply_one_go allowAll fuel s o t f)
              sys ovi tgt c).2.1
            (of_overlay_apply_one_child allowAll
              (fun s o t f => of_overlay_apply_one_go allowAll fuel s o t f)
              sys ovi tgt c).2.2 tgt cs := by
        show (if (of_overlay_apply_one_child allowAll
            (fun s o t f => of_overlay_apply_one_go allowAll fuel s o t f)
            sys ovi tgt c).1 != 0
          then of_overlay_apply_one_child allowAll
            (fun s o t f => of_overlay_apply_one_go allowAll fuel s o t f)
            sys ovi tgt c
          else _) = _
        rw [ha.1]
        rfl
      rw [heq]
      obtain ⟨ndt', htgt'⟩ := chain_dom_mono ha.2.2.2.1.choose_spec.2 htgt
      exact applyOk_comp ha
        (ih (fun c' hc' => hsz c' (List.mem_cons_of_mem _ hc')) _ _ ndt'
          htgt' ha.2.2.2.2.1 ha.2.2.2.2.2.1)

theorem apply_one_go_spec (fuel : Nat) :
    ∀ (ov : FNode), FNode.size ov ≤ fuel →
    ∀ (sys : Sys) (ovi : OVI) (tgt : Nat) (ndt : NodeData),
    treeFind sys.tree tgt = some ndt → WFt sys.tree →
    (∀ q ∈ sys.tree, q.1 < sys.nextId) →
    ApplyOk sys ovi (of_overlay_apply_one_go allowAll fuel sys ovi
      (some tgt) ov) := by
  induction fuel with
  | zero =>
      intro ov hsz
      cases ov with
      | mk n f t ph ps cs =>
          exact absurd hsz (by
            show ¬ 1 + FNode.sizeList cs ≤ 0
            omega)
  | succ fuel ih =>
      intro ov hsz sys ovi tgt ndt htgt hw hk
      have haP := apply_one_props_spec tgt ov.props sys ovi ⟨ndt, htgt⟩ hw hk
      have heq : of_overlay_apply_one_go allowAll (fuel + 1) sys ovi
          (some tgt) ov =
          of_overlay_apply_one_children allowAll
            (fun s o t f => of_overlay_apply_one_go allowAll fuel s o t f)
            (of_overlay_apply_one_props allowAll sys ovi tgt ov.props).2.1
            (of_overlay_apply_one_props allowAll sys ovi tgt ov.props).2.2
            tgt ov.children := by
        show (if (of_overlay_apply_one_props allowAll sys ovi tgt
              ov.props).1 != 0
          then of_overlay_apply_one_props allowAll sys ovi tgt ov.props
          else _) = _
        rw [haP.1]
        rfl
      rw [heq]
      have hszc : ∀ c ∈ ov.children, FNode.size c ≤ fuel := by
        intro c hc
        have h1 := size_le_sizeList hc
        have h2 : 1 + FNode.sizeList ov.children ≤ fuel + 1 := by
          cases ov
          exact hsz
        omega
      obtain ⟨ndt', htgt'⟩ := chain_dom_mono haP.2.2.2.1.choose_spec.2 htgt
      exact applyOk_comp haP
        (apply_one_children_spec fuel ih tgt ov.children hszc _ _ ndt' htgt'
          haP.2.2.2.2.1 haP.2.2.2.2.2.1)

/-! #### The overlay table loop -/

theorem post_one_success (nf : Notif) (sys : Sys) (ovi : OVI) :
    of_overlay_post_one nf sys ovi 0 =
      (sys, { ovi with de_list := ovi.de_list.filter
                          (fun de => de.prevstate != de.state) }) := rfl

theorem apply_one_tgt_none (nf : Notif) (sys : Sys) (ovi : OVI) (f : FNode) :
    of_overlay_apply_one nf sys ovi none f = (EINVAL, sys, ovi) := by
  cases f with
  | mk n t fn ph ps cs =>
      show of_overlay_apply_one_go nf (1 + FNode.sizeList cs) sys ovi none _
        = _
      rw [Nat.add_comm]
      rfl

theorem revert_one_tgt_frag (nf : Notif) (sys : Sys) (ovi : OVI) (tgt : Nat)
    (f : FNode) (h1 : ovi.target = some tgt) (h2 : ovi.frag = some f) :
    of_overlay_revert_one nf sys ovi =
      ({ sys with
         tree := of_overlay_revert_entries nf ovi.le_list sys.tree },
       { ovi with le_list := [], de_list := [] }) := by
  unfold of_overlay_revert_one
  simp only [h1, h2]

theorem of_overlay_apply_cons_nofrag (nf : Notif) (sys : Sys) (ovi : OVI)
    (rest : List OVI) (hf : ovi.frag = none) :
    of_overlay_apply nf sys (ovi :: rest) = (EINVAL, sys, ovi :: rest) := by
  obtain ⟨otgt, ofr, ole, ode⟩ := ovi
  have hf' : ofr = none := hf
  subst hf'
  cases otgt <;> rfl

theorem of_overlay_apply_cons_notgt (nf : Notif) (sys : Sys) (ovi : OVI)
    (rest : List OVI) (f : FNode) (hf : ovi.frag = some f)
    (ht : ovi.target = none) :
    of_overlay_apply nf sys (ovi :: rest) = (EINVAL, sys, ovi :: rest) := by
  obtain ⟨otgt, ofr, ole, ode⟩ := ovi
  have hf' : ofr = some f := hf
  have ht' : otgt = none := ht
  subst hf'
  subst ht'
  show (if (of_overlay_apply_one nf sys ⟨none, some f, ole, ode⟩ none f).1
      != 0
    then ((of_overlay_apply_one nf sys ⟨none, some f, ole, ode⟩ none f).1,
      (of_overlay_post_one nf
        (of_overlay_apply_one nf sys ⟨none, some f, ole, ode⟩ none f).2.1
        (of_overlay_apply_one nf sys ⟨none, some f, ole, ode⟩ none f).2.2
        (of_overlay_apply_one nf sys ⟨none, some f, ole, ode⟩ none f).1).1,
      (of_overlay_post_one nf
        (of_overlay_apply_one nf sys ⟨none, some f, ole, ode⟩ none f).2.1
        (of_overlay_apply_one nf sys ⟨none, some f, ole, ode⟩ none f).2.2
        (of_overlay_apply_one nf sys ⟨none, some f, ole, ode⟩ none
          f).1).2 :: rest)
    else _) = _
  rw [apply_one_tgt_none]
  rfl

theorem of_overlay_apply_cons_ok (nf : Notif) (sys : Sys) (ovi : OVI)
    (rest : List OVI) (f : FNode) (tgt : Nat)
    (hf : ovi.frag = some f) (ht : ovi.target = some tgt)
    (h0 : (of_overlay_apply_one nf sys ovi (some tgt) f).1 = 0) :
    of_overlay_apply nf sys (ovi :: rest) =
      (if (of_overlay_apply nf
            (of_overlay_apply_one nf sys ovi (some tgt) f).2.1 rest).1 != 0
       then
        ((of_overlay_apply nf
            (of_overlay_apply_one nf sys ovi (some tgt) f).2.1 rest).1,
         (of_overlay_revert_one nf
           (of_overlay_apply nf
             (of_overlay_apply_one nf sys ovi (some tgt) f).2.1 rest).2.1
           { (of_overlay_apply_one nf sys ovi (some tgt) f).2.2 with
             de_list := ((of_overlay_apply_one nf sys ovi (some tgt)
               f).2.2).de_list.filter
                 (fun de => de.prevstate != de.state) }).1,
         (of_overlay_revert_one nf
           (of_overlay_apply nf
             (of_overlay_apply_one nf sys ovi (some tgt) f).2.1 rest).2.1
           { (of_overlay_apply_one nf sys ovi (some tgt) f).2.2 with
             de_list := ((of_overlay_apply_one nf sys ovi (some tgt)
               f).2.2).de_list.filter
                 (fun de => de.prevstate != de.state) }).2 ::
         (of_overlay_apply nf
           (of_overlay_apply_one nf sys ovi (some tgt) f).2.1 rest).2.2)
       else
        (0,
         (of_overlay_apply nf
           (of_overlay_apply_one nf sys ovi (some tgt) f).2.1 rest).2.1,
         { (of_overlay_apply_one nf sys ovi (some tgt) f).2.2 with
           de_list := ((of_overlay_apply_one nf sys ovi (some tgt)
             f).2.2).de_list.filter
               (fun de => de.prevstate != de.state) } ::
         (of_overlay_apply nf
           (of_overlay_apply_one nf sys ovi (some tgt) f).2.1 rest).2.2)) := by
  obtain ⟨otgt, ofr, ole, ode⟩ := ovi
  have hf' : ofr = some f := hf
  have ht' : otgt = some tgt := ht
  subst hf'
  subst ht'
  show (if (of_overlay_apply_one nf sys ⟨some tgt, some f, ole, ode⟩ (some tgt) f).1 != 0 then ((of_overlay_apply_one nf sys ⟨some tgt, some f, ole, ode⟩ (some tgt) f).1, (of_overlay_post_one nf (of_overlay_apply_one nf sys ⟨some tgt, some f, ole, ode⟩ (some tgt) f).2.1 (of_overlay_apply_one nf sys ⟨some tgt, some f, ole, ode⟩ (some tgt) f).2.2 (of_overlay_apply_one nf sys ⟨some tgt, some f, ole, ode⟩ (some tgt) f).1).1, (of_overlay_post_one nf (of_overlay_apply_one nf sys ⟨some tgt, some f, ole, ode⟩ (some tgt) f).2.1 (of_overlay_apply_one nf sys ⟨some tgt, some f, ole, ode⟩ (some tgt) f).2.2 (of_overlay_apply_one nf sys ⟨some tgt, some f, ole, ode⟩ (some tgt) f).1).2 :: rest)
    else if (of_overlay_apply nf (of_overlay_post_one nf (of_overlay_apply_one nf sys ⟨some tgt, some f, ole, ode⟩ (some tgt) f).2.1 (of_overlay_apply_one nf sys ⟨some tgt, some f, ole, ode⟩ (some tgt) f).2.2 (of_overlay_apply_one nf sys ⟨some tgt, some f, ole, ode⟩ (some tgt) f).1).1 rest).1 != 0 then ((of_overlay_apply nf (of_overlay_post_one nf (of_overlay_apply_one nf sys ⟨some tgt, some f, ole, ode⟩ (some tgt) f).2.1 (of_overlay_apply_one nf sys ⟨some tgt, some f, ole, ode⟩ (some tgt) f).2.2 (of_overlay_apply_one nf sys ⟨some tgt, some f, ole, ode⟩ (some tgt) f).1).1 rest).1, (of_overlay_revert_one nf (of_overlay_apply nf (of_overlay_post_one nf (of_overlay_apply_one nf sys ⟨some tgt, some f, ole, ode⟩ (some tgt) f).2.1 (of_overlay_apply_one nf sys ⟨some tgt, some f, ole, ode⟩ (some tgt) f).2.2 (of_overlay_apply_one nf sys ⟨some tgt, some f, ole, ode⟩ (some tgt) f).1).1 rest).2.1 (of_overlay_post_one nf (of_overlay_apply_one nf sys ⟨some tgt, some f, ole, ode⟩ (some tgt) f).2.1 (of_overlay_apply_one nf sys ⟨some tgt, some f, ole, ode⟩ (some tgt) f).2.2 (of_overlay_apply_one nf sys ⟨some tgt, some f, ole, ode⟩ (some tgt) f).1).2).1, (of_overlay_revert_one nf (of_overlay_apply nf (of_overlay_post_one nf (of_overlay_apply_one nf sys ⟨some tgt, some f, ole, ode⟩ (some tgt) f).2.1 (of_overlay_apply_one nf sys ⟨some tgt, some f, ole, ode⟩ (some tgt) f).2.2 (of_overlay_apply_one nf sys ⟨some tgt, some f, ole, ode⟩ (some tgt) f).1).1 rest).2.1 (of_overlay_post_one nf (of_overlay_apply_one nf sys ⟨some tgt, some f, ole, ode⟩ (some tgt) f).2.1 (of_overlay_apply_one nf sys ⟨some tgt, some f, ole, ode⟩ (some tgt) f).2.2 (of_overlay_apply_one nf sys ⟨some tgt, some f, ole, ode⟩ (some tgt) f).1).2).2 :: (of_overlay_apply nf (of_overlay_post_one nf (of_overlay_apply_one nf sys ⟨some tgt, some f, ole, ode⟩ (some tgt) f).2.1 (of_overlay_apply_one nf sys ⟨some tgt, some f, ole, ode⟩ (some tgt) f).2.2 (of_overlay_apply_one nf sys ⟨some tgt, some f, ole, ode⟩ (some tgt) f).1).1 rest).2.2)
    else (0, (of_overlay_apply nf (of_overlay_post_one nf (of_overlay_apply_one nf sys ⟨some tgt, some f, ole, ode⟩ (some tgt) f).2.1 (of_overlay_apply_one nf sys ⟨some tgt, some f, ole, ode⟩ (some tgt) f).2.2 (of_overlay_apply_one nf sys ⟨some tgt, some f, ole, ode⟩ (some tgt) f).1).1 rest).2.1, (of_overlay_post_one nf (of_overlay_apply_one nf sys ⟨some tgt, some f, ole, ode⟩ (some tgt) f).2.1 (of_overlay_apply_one nf sys ⟨some tgt, some f, ole, ode⟩ (some tgt) f).2.2 (of_overlay_apply_one nf sys ⟨some tgt, some f, ole, ode⟩ (some tgt) f).1).2 :: (of_overlay_apply nf (of_overlay_post_one nf (of_overlay_apply_one nf sys ⟨some tgt, some f, ole, ode⟩ (some tgt) f).2.1 (of_overlay_apply_one nf sys ⟨some tgt, some f, ole, ode⟩ (some tgt) f).2.2 (of_overlay_apply_one nf sys ⟨some tgt, some f, ole, ode⟩ (some tgt) f).1).1 rest).2.2)) = _
  rw [h0]
  rfl

theorem of_overlay_apply_spec (tab : List OVI) :
    ∀ (sys : Sys), WFt sys.tree → (∀ q ∈ sys.tree, q.1 < sys.nextId) →
    (∀ ovi ∈ tab, ovi.le_list = [] ∧
      ∀ tgt, ovi.target = some tgt → ∃ nd, treeFind sys.tree tgt = some nd) →
    (((of_overlay_apply allowAll sys tab).1 = 0 →
       TabApplied sys.tree (of_overlay_apply allowAll sys tab).2.2
         (of_overlay_apply allowAll sys tab).2.1.tree ∧
       WFt (of_overlay_apply allowAll sys tab).2.1.tree ∧
       (∀ q ∈ (of_overlay_apply allowAll sys tab).2.1.tree,
         q.1 < (of_overlay_apply allowAll sys tab).2.1.nextId) ∧
       (∀ id nd, treeFind sys.tree id = some nd →
         ∃ nd', treeFind (of_overlay_apply allowAll sys tab).2.1.tree id
           = some nd')) ∧
     ((of_overlay_apply allowAll sys tab).1 ≠ 0 →
       Rel sys.tree (of_overlay_apply allowAll sys tab).2.1.tree)) := by
  induction tab with
  | nil =>
      intro sys hw hk _
      constructor
      · intro _
        exact ⟨TabApplied.nil _, hw, hk, fun id nd h => ⟨nd, h⟩⟩
      · intro h
        exact absurd rfl h
  | cons ovi rest ih =>
      intro sys hw hk hcond
      obtain ⟨hle0, htgts⟩ := hcond ovi (List.mem_cons_self _ _)
      cases hfr : ovi.frag with
      | none =>
          rw [of_overlay_apply_cons_nofrag allowAll sys ovi rest hfr]
          constructor
          · intro h0
            exact absurd h0 (show ¬ (EINVAL : Int) = 0 by decide)
          · intro _
            exact Rel_refl _
      | some f =>
          cases ht : ovi.target with
          | none =>
              rw [of_overlay_apply_cons_notgt allowAll sys ovi rest f hfr ht]
              constructor
              · intro h0
                exact absurd h0 (show ¬ (EINVAL : Int) = 0 by decide)
              · intro _
                exact Rel_refl _
          | some tgt =>
              obtain ⟨ndt, htgt⟩ := htgts tgt ht
              have ha : ApplyOk sys ovi
                  (of_overlay_apply_one allowAll sys ovi (some tgt) f) :=
                apply_one_go_spec (FNode.size f) f (le_refl _) sys ovi tgt ndt
                  htgt hw hk
              obtain ⟨ha1, hat, haf, ⟨es, hale, hach⟩, haw, hak, han⟩ := ha
              rw [of_overlay_apply_cons_ok allowAll sys ovi rest f tgt hfr ht
                ha1]
              have hdom : ∀ {id : Nat} {nd : NodeData},
                  treeFind sys.tree id = some nd →
                  ∃ nd', treeFind (of_overlay_apply_one allowAll sys ovi
                    (some tgt) f).2.1.tree id = some nd' :=
                chain_dom_mono hach
              have hcrest : ∀ ovi' ∈ rest, ovi'.le_list = [] ∧
                  ∀ tgt', ovi'.target = some tgt' →
                    ∃ nd, treeFind (of_overlay_apply_one allowAll sys ovi
                      (some tgt) f).2.1.tree tgt' = some nd := by
                intro ovi' hm
                obtain ⟨h1, h2⟩ := hcond ovi' (List.mem_cons_of_mem _ hm)
                refine ⟨h1, fun tgt' ht' => ?_⟩
                obtain ⟨nd, hnd⟩ := h2 tgt' ht'
                exact hdom hnd
              have hb := ih (of_overlay_apply_one allowAll sys ovi
                (some tgt) f).2.1 haw hak hcrest
              by_cases hb0 : (of_overlay_apply allowAll
                  (of_overlay_apply_one allowAll sys ovi (some tgt) f).2.1
                  rest).1 = 0
              · have hcnd : ((of_overlay_apply allowAll
                    (of_overlay_apply_one allowAll sys ovi (some tgt) f).2.1
                    rest).1 != 0) = false := by
                  rw [hb0]
                  rfl
                rw [hcnd, if_neg (by simp)]
                obtain ⟨htab, hbw, hbk, hbdom⟩ := hb.1 hb0
                constructor
                · intro _
                  refine ⟨?_, hbw, hbk, fun id nd h => hbdom id _
                    (hdom h).choose_spec⟩
                  refine TabApplied.cons ?_ ?_ ?_ htab
                  · rw [hat, ht]
                    rfl
                  · rw [haf, hfr]
                    rfl
                  · show Chain sys.tree
                      ((of_overlay_apply_one allowAll sys ovi (some tgt)
                        f).2.2.le_list)
                      (of_overlay_apply_one allowAll sys ovi (some tgt)
                        f).2.1.tree
                    rw [hale, hle0]
                    exact hach
                · intro hne
                  exact absurd rfl hne
              · have hcnd : ((of_overlay_apply allowAll
                    (of_overlay_apply_one allowAll sys ovi (some tgt) f).2.1
                    rest).1 != 0) = true := by
                  exact bne_iff_ne.mpr hb0
                rw [hcnd, if_pos rfl]
                have hrel := hb.2 hb0
                constructor
                · intro h0
                  exact absurd h0 (by
                    intro hx
                    exact hb0 hx)
                · intro _
                  rw [revert_one_tgt_frag allowAll _ _ tgt f (by rw [hat, ht])
                    (by rw [haf, hfr])]
                  show Rel sys.tree
                    (of_overlay_revert_entries allowAll
                      ((of_overlay_apply_one allowAll sys ovi (some tgt)
                        f).2.2.le_list)
                      (of_overlay_apply allowAll
                        (of_overlay_apply_one allowAll sys ovi (some tgt)
                          f).2.1 rest).2.1.tree)
                  rw [hale, hle0]
                  exact revert_entries_rel hach hw hrel

theorem wfTreeB_spec {t : Tree} (h : wfTreeB t = true) : WFt t := by
  unfold wfTreeB at h
  rw [Bool.and_eq_true, Bool.and_eq_true] at h
  obtain ⟨⟨hK, h1⟩, h2⟩ := h
  refine ⟨?_, ?_, ?_, ?_⟩
  · unfold WFkeys
    exact of_decide_eq_true hK
  · intro p hp
    have hh := (List.all_eq_true.mp h1) p hp
    rw [Bool.and_eq_true, Bool.and_eq_true] at hh
    exact of_decide_eq_true hh.1.1
  · intro p hp
    have hh := (List.all_eq_true.mp h1) p hp
    rw [Bool.and_eq_true, Bool.and_eq_true] at hh
    refine ⟨of_decide_eq_true hh.1.2, ?_⟩
    intro c hc
    have hcc := (List.all_eq_true.mp hh.2) c hc
    rw [Bool.and_eq_true] at hcc
    constructor
    · intro he
      rw [he] at hcc
      have := hcc.1
      rw [beq_self_eq_true] at this
      cases this
    · cases hf : treeFind t c with
      | none =>
          have := hcc.2
          rw [hf] at this
          cases this
      | some ndc =>
          have h3 := hcc.2
          rw [hf] at h3
          rw [Bool.and_eq_true] at h3
          refine ⟨ndc, rfl, beq_iff_eq.mp h3.1, ?_⟩
          have h4 := h3.2
          cases hd : ndc.detached
          · rfl
          · rw [hd] at h4
            cases h4
  · intro p1 hp1 p2 hp2 c hc1 hc2
    have g1 := (List.all_eq_true.mp h2) p1 hp1
    have g2 := (List.all_eq_true.mp g1) p2 hp2
    have g3 := (List.all_eq_true.mp g2) c hc1
    rw [Bool.or_eq_true] at g3
    rcases g3 with g3 | g3
    · rw [Bool.not_eq_eq_eq_not] at g3
      have hc2' : p2.2.children.contains c = true := List.elem_iff.mpr hc2
      rw [hc2'] at g3
      cases g3
    · exact beq_iff_eq.mp g3

theorem wfSysB_spec {sys : Sys} (h : wfSysB sys = true) :
    WFt sys.tree ∧ ∀ q ∈ sys.tree, q.1 < sys.nextId := by
  unfold wfSysB at h
  rw [Bool.and_eq_true] at h
  exact ⟨wfTreeB_spec h.1,
    fun q hq => of_decide_eq_true ((List.all_eq_true.mp h.2) q hq)⟩

/-- C1, amended.  Applying a fragment to a live target of a well-formed
tree under the permissive notifier succeeds, and reverting the recorded
changeset restores the tree up to the restoration relation `Rel`: every
original node keeps its scalar fields, parent link and detach flag, its
live property list and child list as multisets (the list order may change:
a reverted removal re-links at the head of the list), and its
dead-property list up to retained copies; overlay-created nodes survive
only as detached leftovers.  The claim's exact structural equality
(same list order, dead lists empty or restored) does not hold, see the
counterexample. -/
theorem C1_amended (sys : Sys) (ovi : OVI) (tgt : Nat) (f : FNode)
    (ndt : NodeData)
    (hw : WFt sys.tree) (hk : ∀ q ∈ sys.tree, q.1 < sys.nextId)
    (htgt : treeFind sys.tree tgt = some ndt)
    (hle : ovi.le_list = []) (ht : ovi.target = some tgt)
    (hf : ovi.frag = some f) :
    (of_overlay_apply_one allowAll sys ovi (some tgt) f).1 = 0 ∧
    Rel sys.tree
      (of_overlay_revert_one allowAll
        (of_overlay_apply_one allowAll sys ovi (some tgt) f).2.1
        (of_overlay_apply_one allowAll sys ovi (some tgt) f).2.2).1.tree := by
  have ha : ApplyOk sys ovi
      (of_overlay_apply_one allowAll sys ovi (some tgt) f) :=
    apply_one_go_spec (FNode.size f) f (le_refl _) sys ovi tgt ndt htgt hw hk
  obtain ⟨ha1, hat, haf, ⟨es, hale, hach⟩, _, _, _⟩ := ha
  refine ⟨ha1, ?_⟩
  rw [revert_one_tgt_frag allowAll _ _ tgt f (by rw [hat, ht])
    (by rw [haf, hf])]
  show Rel sys.tree
    (of_overlay_revert_entries allowAll
      ((of_overlay_apply_one allowAll sys ovi (some tgt) f).2.2.le_list)
      (of_overlay_apply_one allowAll sys ovi (some tgt) f).2.1.tree)
  rw [hale, hle, List.nil_append]
  exact revert_entries_rel hach hw (Rel_refl _)

/-- Witness: the concrete remove-`beta` overlay applied to the two-property
node restores the original tree up to the restoration relation. -/
theorem C1_amended_witness :
    (of_overlay_apply_one allowAll exSys exOvi (some 0) exFragRemove).1 = 0 ∧
    Rel exSys.tree
      (of_overlay_revert_one allowAll
        (of_overlay_apply_one allowAll exSys exOvi (some 0) exFragRemove).2.1
        (of_overlay_apply_one allowAll exSys exOvi (some 0)
          exFragRemove).2.2).1.tree :=
  C1_amended exSys exOvi 0 exFragRemove exNode
    (wfSysB_spec (by decide)).1 (wfSysB_spec (by decide)).2
    (by decide) rfl rfl rfl

/-! #### Failure atomicity of the primitives and the transaction loop -/

theorem add_property_err {t : Tree} {np : Nat} {p : OFProp}
    (h : ¬ (__of_add_property t np p).1 = 0) :
    (__of_add_property t np p).2 = t := by
  unfold __of_add_property at h ⊢
  cases hf : treeFind t np with
  | none => rfl
  | some nd =>
      simp only [hf] at h ⊢
      by_cases hs : (findProp nd.props p.name).isSome = true
      · rw [if_pos hs]
      · rw [if_neg hs] at h
        exact absurd (by trivial) h

theorem remove_property_err {t : Tree} {np : Nat} {p : OFProp}
    (h : ¬ (__of_remove_property t np p).1 = 0) :
    (__of_remove_property t np p).2 = t := by
  unfold __of_remove_property at h ⊢
  cases hf : treeFind t np with
  | none => rfl
  | some nd =>
      simp only [hf] at h ⊢
      by_cases hs : p ∈ nd.props
      · rw [if_pos hs] at h
        exact absurd (by trivial) h
      · rw [if_neg hs]

theorem update_property_err {t : Tree} {np : Nat} {pn : OFProp}
    (h : ¬ (__of_update_property t np pn).1 = 0) :
    (__of_update_property t np pn).2.2 = t := by
  unfold __of_update_property at h ⊢
  cases hf : treeFind t np with
  | none => rfl
  | some nd =>
      simp only [hf] at h ⊢
      cases hp : findProp nd.props pn.name with
      | none => rfl
      | some old =>
          simp only [hp] at h
          exact absurd (by trivial) h

theorem entry_apply_err (nf : Notif) (sys : Sys) (oft : OFT) (te : TE)
    {r : Int} {sys2 : Sys}
    (h : __of_transaction_entry_apply nf sys oft te = (r, sys2))
    (hr : r ≠ 0) : sys2 = sys := by
  unfold __of_transaction_entry_apply at h
  cases hact : te.action with
  | attachNode =>
      simp only [hact] at h
      split at h
      · exact show sys2 = sys from (congrArg Prod.snd h).symm
      · have h1 : (0 : Int) = r := congrArg Prod.fst h
        exact absurd h1.symm hr
  | detachNode =>
      simp only [hact] at h
      split at h
      · exact show sys2 = sys from (congrArg Prod.snd h).symm
      · have h1 : (0 : Int) = r := congrArg Prod.fst h
        exact absurd h1.symm hr
  | addProperty =>
      cases hpr : te.prop with
      | none =>
          simp only [hact, hpr] at h
          exact show sys2 = sys from (congrArg Prod.snd h).symm
      | some p =>
          simp only [hact, hpr] at h
          split at h
          · exact show sys2 = sys from (congrArg Prod.snd h).symm
          · split at h
            next hc =>
              have h2 : sys2 = { sys with
                  tree := (__of_add_property sys.tree te.np p).2 } :=
                (congrArg Prod.snd h).symm
              rw [h2, add_property_err (bne_iff_ne.mp hc)]
            next hc =>
              have h1 : (0 : Int) = r := congrArg Prod.fst h
              exact absurd h1.symm hr
  | removeProperty =>
      cases hpr : te.prop with
      | none =>
          simp only [hact, hpr] at h
          exact show sys2 = sys from (congrArg Prod.snd h).symm
      | some p =>
          simp only [hact, hpr] at h
          split at h
          · exact show sys2 = sys from (congrArg Prod.snd h).symm
          · split at h
            next hc =>
              have h2 : sys2 = { sys with
                  tree := (__of_remove_property sys.tree te.np p).2 } :=
                (congrArg Prod.snd h).symm
              rw [h2, remove_property_err (bne_iff_ne.mp hc)]
            next hc =>
              have h1 : (0 : Int) = r := congrArg Prod.fst h
              exact absurd h1.symm hr
  | updateProperty =>
      cases hpr : te.prop with
      | none =>
          simp only [hact, hpr] at h
          exact show sys2 = sys from (congrArg Prod.snd h).symm
      | some p =>
          simp only [hact, hpr] at h
          split at h
          · exact show sys2 = sys from (congrArg Prod.snd h).symm
          · split at h
            next hc =>
              have h2 : sys2 = { sys with
                  tree := (__of_update_property sys.tree te.np p).2.2 } :=
                (congrArg Prod.snd h).symm
              rw [h2, update_property_err (bne_iff_ne.mp hc)]
            next hc =>
              have h1 : (0 : Int) = r := congrArg Prod.fst h
              exact absurd h1.symm hr
  | dynamicCreateDev =>
      simp only [hact] at h
      have h1 : (0 : Int) = r := congrArg Prod.fst h
      exact absurd h1.symm hr
  | dynamicDestroyDev =>
      simp only [hact] at h
      have h1 : (0 : Int) = r := congrArg Prod.fst h
      exact absurd h1.symm hr

theorem txn_first_entry_fail (nf : Notif) (sys : Sys) (oft : OFT) (te : TE)
    (rest : List TE) (r : Int) (sys2 : Sys)
    (hlist : oft.te_list = te :: rest)
    (happ : __of_transaction_entry_apply nf sys oft te = (r, sys2))
    (hr : r ≠ 0) :
    of_transaction_apply nf sys oft false = (r, sys) ∧ sys2 = sys := by
  have hs2 : sys2 = sys := entry_apply_err nf sys oft te happ hr
  refine ⟨?_, hs2⟩
  unfold of_transaction_apply
  rw [hlist]
  show (if ((__of_transaction_entry_apply nf sys oft te).1 == 0) = true
      then of_transaction_apply_go nf
        (__of_transaction_entry_apply nf sys oft te).2 oft false [te] rest
      else if false = true
      then of_transaction_apply_go nf
        (__of_transaction_entry_apply nf sys oft te).2 oft false [te] rest
      else ((__of_transaction_entry_apply nf sys oft te).1,
        of_transaction_apply_rollback nf
          (__of_transaction_entry_apply nf sys oft te).2 oft [])) = (r, sys)
  rw [happ, beq_eq_false_iff_ne.mpr hr]
  show (r, of_transaction_apply_rollback nf sys2 oft []) = (r, sys)
  rw [hs2]
  rfl

/-- C2, amended.  (a) When an overlay-apply table (fresh journals, resolved
targets present) fails at some entry — here an unresolved target or a
missing fragment, the only failures possible under the permissive
notifier — every entry already applied is rolled back before the call
returns, and the caller observes the tree restored up to the restoration
relation `Rel` (property-list and child-list order may differ and
dead-property copies may be retained, see the counterexample), not
byte-identically as claimed.  (b) The transaction half of the claim holds
exactly: a notifier that rejects the first event of a transaction leaves
the system byte-identical to its pre-state, and the veto error is
returned. -/
theorem C2_amended :
    (∀ (sys : Sys) (tab : List OVI), WFt sys.tree →
      (∀ q ∈ sys.tree, q.1 < sys.nextId) →
      (∀ ovi ∈ tab, ovi.le_list = [] ∧
        ∀ tgt, ovi.target = some tgt →
          ∃ nd, treeFind sys.tree tgt = some nd) →
      (of_overlay_apply allowAll sys tab).1 ≠ 0 →
      Rel sys.tree (of_overlay_apply allowAll sys tab).2.1.tree) ∧
    (∀ (nf : Notif) (sys : Sys) (oft : OFT) (te : TE) (rest : List TE)
      (r : Int) (sys2 : Sys),
      oft.te_list = te :: rest →
      __of_transaction_entry_apply nf sys oft te = (r, sys2) → r ≠ 0 →
      of_transaction_apply nf sys oft false = (r, sys) ∧ sys2 = sys) :=
  ⟨fun sys tab hw hk hcond hne =>
      (of_overlay_apply_spec tab sys hw hk hcond).2 hne,
   fun nf sys oft te rest r sys2 hlist happ hr =>
      txn_first_entry_fail nf sys oft te rest r sys2 hlist happ hr⟩

/-- Witness: a table whose only entry lacks a resolved target fails and
leaves the tree related to the original by the restoration relation, and
the vetoing notifier on the one-entry transaction returns the veto error
with the system unchanged. -/
theorem C2_amended_witness :
    Rel exSys.tree (of_overlay_apply allowAll exSys [exOviBad]).2.1.tree ∧
    (of_transaction_apply vetoAll exBareSys exOft false = (EBUSY, exBareSys) ∧
     exBareSys = exBareSys) :=
  ⟨C2_amended.1 exSys [exOviBad]
      (wfSysB_spec (by decide)).1 (wfSysB_spec (by decide)).2
      (by
        intro ovi h
        rw [List.mem_singleton] at h
        subst h
        exact ⟨rfl, fun tgt ht => nomatch ht⟩)
      (by decide),
   C2_amended.2 vetoAll exBareSys exOft
     ⟨Action.addProperty, 5, some ⟨31, "status", "okay", 5⟩, none⟩ []
     EBUSY exBareSys rfl (by decide) (by decide)⟩

/-! #### Registry-level round trip -/

theorem tab_wft {t t1 : Tree} {tab : List OVI} (h : TabApplied t tab t1)
    (hw : WFt t) : WFt t1 := by
  induction h with
  | nil t => exact hw
  | cons _ _ hch _ ih => exact ih (chain_wft hch hw)

theorem revert_tab_rel {t t2 : Tree} {tab : List OVI}
    (hta : TabApplied t tab t2) : WFt t → ∀ (sys : Sys), Rel t2 sys.tree →
    Rel t (of_overlay_revert allowAll sys tab).1.tree := by
  induction hta with
  | nil t =>
      intro _ sys hr
      exact hr
  | cons hts hfs hch htab ih =>
      intro hw sys hr
      obtain ⟨tgt, ht⟩ := Option.isSome_iff_exists.mp hts
      obtain ⟨f, hf⟩ := Option.isSome_iff_exists.mp hfs
      have ih1 := ih (chain_wft hch hw) sys hr
      show Rel _ (of_overlay_revert_one allowAll
        (of_overlay_revert allowAll sys _).1 _).1.tree
      rw [revert_one_tgt_frag allowAll _ _ tgt f ht hf]
      exact revert_entries_rel hch hw ih1

theorem destroy_all_go_append (nf : Notif) (l1 l2 : List OvRec) :
    ∀ sys, of_overlay_destroy_all_go nf sys (l1 ++ l2) =
      of_overlay_destroy_all_go nf (of_overlay_destroy_all_go nf sys l1) l2 := by
  induction l1 with
  | nil =>
      intro sys
      rfl
  | cons ov rest ih =>
      intro sys
      exact ih _

theorem destroy_all_rel {t t2 : Tree} {reg : List OvRec}
    (hreg : RegApplied t reg t2) : WFt t → ∀ (sys : Sys), Rel t2 sys.tree →
    Rel t (of_overlay_destroy_all_go allowAll sys reg.reverse).tree := by
  induction hreg with
  | nil t =>
      intro _ sys hr
      exact hr
  | cons htab hreg2 ih =>
      intro hw sys hr
      rw [List.reverse_cons, destroy_all_go_append]
      have ih1 := ih (tab_wft htab hw) sys hr
      show Rel _ (of_overlay_revert allowAll
        (of_overlay_destroy_all_go allowAll sys _) _).1.tree
      exact revert_tab_rel htab hw _ ih1

theorem regApplied_append {t t1 : Tree} {l : List OvRec}
    (h1 : RegApplied t l t1) :
    ∀ {t2 : Tree} {ov : OvRec}, TabApplied t1 ov.tab t2 →
      RegApplied t (l ++ [ov]) t2 := by
  induction h1 with
  | nil t =>
      intro t2 ov h2
      exact RegApplied.cons h2 (RegApplied.nil _)
  | cons hta hreg ih =>
      intro t2 ov h2
      exact RegApplied.cons hta (ih h2)

theorem removal_ok_tail (t : Tree) (pre : List OvRec) (ov : OvRec) :
    overlay_removal_is_ok t (pre ++ [ov]) ov = true := by
  unfold overlay_removal_is_ok
  rw [List.all_eq_true]
  intro ovi hovi
  rw [List.all_eq_true]
  intro le hle
  unfold overlay_is_topmost
  rw [List.reverse_append]
  show overlay_is_topmost_go t ov.ovId le.np (ov :: pre.reverse) = true
  unfold overlay_is_topmost_go
  rw [if_pos (beq_self_eq_true _)]

/-- C5, amended.  (a) Destroying the whole registry (newest overlay first,
as `of_overlay_destroy_all` does) after a sequence of successful overlay
applications restores the initial tree up to the restoration relation
`Rel` — scalar fields, parent links and flags exactly, property and child
lists as multisets, dead-property lists up to retained copies, created
nodes surviving only as detached leftovers — not exactly, see the
counterexample.  (b) Each reverse-order removal step is topmost-safe: the
newest registry record always passes `overlay_removal_is_ok`.  (c) A
successful `of_overlay_create` extends the applied-registry invariant, so
the hypothesis of (a) holds for any sequence of creations. -/
theorem C5_amended :
    (∀ (g : GState) (t0 : Tree), RegApplied t0 g.ov_list g.sys.tree →
      WFt t0 → Rel t0 (of_overlay_destroy_all allowAll g).2.sys.tree) ∧
    (∀ (t : Tree) (pre : List OvRec) (ov : OvRec),
      overlay_removal_is_ok t (pre ++ [ov]) ov = true) ∧
    (∀ (g : GState) (tab : List OVI) (t0 : Tree),
      RegApplied t0 g.ov_list g.sys.tree →
      WFt g.sys.tree → (∀ q ∈ g.sys.tree, q.1 < g.sys.nextId) →
      (∀ ovi ∈ tab, ovi.le_list = [] ∧
        ∀ tgt, ovi.target = some tgt →
          ∃ nd, treeFind g.sys.tree tgt = some nd) →
      (of_overlay_apply allowAll g.sys tab).1 = 0 →
      RegApplied t0 (of_overlay_create allowAll g tab).2.ov_list
        (of_overlay_create allowAll g tab).2.sys.tree ∧
      WFt (of_overlay_create allowAll g tab).2.sys.tree ∧
      (∀ q ∈ (of_overlay_create allowAll g tab).2.sys.tree,
        q.1 < (of_overlay_create allowAll g tab).2.sys.nextId)) := by
  refine ⟨?_, removal_ok_tail, ?_⟩
  · intro g t0 hreg hw0
    exact destroy_all_rel hreg hw0 g.sys (Rel_refl _)
  · intro g tab t0 hreg hw hk hcond h0
    obtain ⟨htab, hbw, hbk, _⟩ :=
      (of_overlay_apply_spec tab g.sys hw hk hcond).1 h0
    have heq : of_overlay_create allowAll g tab =
        (Int.ofNat g.nextOvId,
         { sys := (of_overlay_apply allowAll g.sys tab).2.1,
           ov_list := g.ov_list ++
             [⟨g.nextOvId, (of_overlay_apply allowAll g.sys tab).2.2⟩],
           nextOvId := g.nextOvId + 1 }) := by
      unfold of_overlay_create
      split
      next r sys1 tab1 hsplit =>
        have hr : r = 0 := by
          rw [hsplit] at h0
          exact h0
        subst hr
        rw [hsplit]
        rfl
    rw [heq]
    exact ⟨regApplied_append hreg htab, hbw, hbk⟩

/-- Witness: on the empty registry, destroy-all restores the tree (to
itself); the tail record of any registry passes the topmost check; and
creating the remove-`beta` overlay on the two-property tree yields an
applied registry with well-formed tree. -/
theorem C5_amended_witness :
    Rel exSys.tree
      (of_overlay_destroy_all allowAll ⟨exSys, [], 0⟩).2.sys.tree ∧
    overlay_removal_is_ok exSys.tree ([] ++ [⟨0, [exOvi]⟩]) ⟨0, [exOvi]⟩
      = true ∧
    RegApplied exSys.tree
      (of_overlay_create allowAll ⟨exSys, [], 0⟩ [exOvi]).2.ov_list
      (of_overlay_create allowAll ⟨exSys, [], 0⟩ [exOvi]).2.sys.tree :=
  ⟨C5_amended.1 ⟨exSys, [], 0⟩ exSys.tree (RegApplied.nil _)
      (wfSysB_spec (by decide)).1,
   C5_amended.2.1 exSys.tree [] ⟨0, [exOvi]⟩,
   (C5_amended.2.2 ⟨exSys, [], 0⟩ [exOvi] exSys.tree (RegApplied.nil _)
      (wfSysB_spec (by decide)).1 (wfSysB_spec (by decide)).2
      (by
        intro ovi h
        rw [List.mem_singleton] at h
        subst h
        exact ⟨rfl, fun tgt ht => by
          rw [show (exOvi.target = some tgt) = (some 0 = some tgt) from rfl]
            at ht
          exact ⟨exNode, by rw [← Option.some_inj.mp ht]; rfl⟩⟩)
      (by decide)).1⟩

end OFModel
